import Mathlib

/-!
Shallow embedding of the ProseMirror document-model core (prosemirror-model /
prosemirror-transform as vendored in this repository) and proofs about it.

The embedding mirrors the TypeScript sources:
  * `compareDeep` from prosemirror-model/comparedeep.ts
  * `Mark` / `MarkType` from mark.ts and schema.ts
  * `ContentMatch` (the compiled DFA) and its construction from content.ts
  * `Node` / `Fragment` / `Slice` / `replace` from node.ts, fragment.ts, replace.ts
  * `ResolvedPos.resolve` from resolvedpos.ts
  * `StepMap` / `ReplaceStep` / `StepResult` from map.ts, replace_step.ts, step.ts

JavaScript reference values are replaced by plain data:
  * a `NodeType` / `MarkType` reference becomes the record of the fields the
    claims depend on; within one schema, reference equality of types coincides
    with equality of these records (names are unique per schema);
  * the cyclic `ContentMatch` object graph becomes a table of states indexed by
    `Nat`, entry state `0`, edges labelled by node-type names;
  * attribute values (arbitrary JSON scalars/shapes) become the `JValue`
    inductive; schema-author validator callbacks are not modelled;
  * exceptions become `Except` values, distinguishing the `ReplaceError` class
    from `RangeError`/other errors, since `StepResult.fromReplace` catches
    exactly `ReplaceError`.
-/

namespace PM

/-- A JSON-ish attribute value, modelling the "arbitrary scalar/shape" values
stored in node and mark attribute objects. -/
inductive JValue where
  | null : JValue
  | bool (b : Bool) : JValue
  | num (n : Int) : JValue
  | str (s : String) : JValue
  | arr (elems : List JValue) : JValue
  | obj (fields : List (String × JValue)) : JValue

/-- Attribute objects: ordered association lists of attribute name / value,
modelling plain JS objects (insertion-ordered, no duplicate keys). -/
abbrev Attrs := List (String × JValue)

/-- Key lookup in an object field list (`a[p]` on a JS object). -/
def lookupField (k : String) : List (String × JValue) → Option JValue
  | [] => none
  | (k2, v) :: rest => if k2 == k then some v else lookupField k rest

/-- Whether key `k` is present (`p in a` on a JS object). -/
def hasField (k : String) (fields : List (String × JValue)) : Bool :=
  (lookupField k fields).isSome

mutual
/-- comparedeep.ts `compareDeep`: structural comparison of JS values.  The
`a === b` reference-equality fast path is dropped for composite values (it
only short-circuits a comparison the deep path decides identically) and
becomes the per-constructor equality test for primitives. -/
def compareDeep (a b : JValue) : Bool :=
  match a, b with
  | .null, .null => true
  | .bool x, .bool y => x == y
  | .num x, .num y => x == y
  | .str x, .str y => x == y
  | .arr xs, .arr ys => compareDeepList xs ys
  | .obj xs, .obj ys =>
      compareDeepFields xs ys && ys.all (fun kv => hasField kv.fst xs)
  | _, _ => false

/-- Element-wise array comparison (the array branch of `compareDeep`,
including the length check). -/
def compareDeepList : List JValue → List JValue → Bool
  | [], [] => true
  | x :: xs, y :: ys => compareDeep x y && compareDeepList xs ys
  | _, _ => false

/-- The `for (let p in a)` half of the object branch of `compareDeep`: every
key of `a` exists in `b` with a `compareDeep`-equal value. -/
def compareDeepFields : List (String × JValue) → List (String × JValue) → Bool
  | [], _ => true
  | (k, v) :: xs, ys =>
      (match lookupField k ys with
       | some w => compareDeep v w
       | none => false) && compareDeepFields xs ys
end

/-- `compareDeep` on two attribute objects. -/
def compareDeepAttrs (a b : Attrs) : Bool := compareDeep (.obj a) (.obj b)

/-- One attribute descriptor (schema.ts `Attribute`): whether the spec gave a
default, and that default.  The `validate` callback is not modelled. -/
structure Attribute where
  hasDefault : Bool
  defaultVal : JValue

/-- schema.ts `Attribute.isRequired`. -/
def Attribute.isRequired (a : Attribute) : Bool := !a.hasDefault

/-- The data of a schema.ts `MarkType` reference that the claims depend on:
its name, its schema-assigned rank, and the names of the mark types it
excludes (the compiled `excluded` array, stored as names since mark-type
names are unique within a schema). -/
structure MarkType where
  name : String
  rank : Nat
  excluded : List String
  attrs : List (String × Attribute)

/-- schema.ts `MarkType.excludes`: membership of `other` in the compiled
`excluded` array (reference membership; by interning, equivalent to name
membership). -/
def MarkType.excludes (t other : MarkType) : Bool :=
  t.excluded.contains other.name

/-- mark.ts `Mark`: an immutable (type, attributes) pair. -/
structure Mark where
  type : MarkType
  attrs : Attrs

/-- mark.ts `Mark.eq`: same type (reference equality, i.e. name equality
under per-schema interning) and `compareDeep`-equal attributes. -/
def Mark.eq (a b : Mark) : Bool :=
  a.type.name == b.type.name && compareDeepAttrs a.attrs b.attrs

/-- mark.ts `Mark.sameSet`: pointwise `eq` of two mark arrays. -/
def Mark.sameSet : List Mark → List Mark → Bool
  | [], [] => true
  | a :: as_, b :: bs => Mark.eq a b && Mark.sameSet as_ bs
  | _, _ => false

/-- mark.ts `Mark.isInSet`. -/
def Mark.isInSet (m : Mark) (set : List Mark) : Bool :=
  set.any (fun b => Mark.eq m b)

/-- mark.ts `Mark.removeFromSet`. -/
def Mark.removeFromSet (m : Mark) : List Mark → List Mark
  | [] => []
  | b :: bs => if Mark.eq m b then bs else b :: Mark.removeFromSet m bs

/-- The loop of mark.ts `Mark.addToSet`, with the remaining suffix of `set`
made the recursion argument and the processed prefix `seen` carried along
(so `seen = set.take i` for the source's index `i`); `copy` is `none` while
the loop has not allocated a copy, `placed` records whether the new mark
was inserted.  Early `return set` exits return the original set. -/
def Mark.addToSetLoop (m : Mark) (set : List Mark) :
    List Mark → List Mark → Option (List Mark) → Bool → List Mark
  | other :: rest, seen, copy, placed =>
      if Mark.eq m other then set
      else if m.type.excludes other.type then
        Mark.addToSetLoop m set rest (seen ++ [other]) (some (copy.getD seen)) placed
      else if other.type.excludes m.type then set
      else
        if !placed && other.type.rank > m.type.rank then
          Mark.addToSetLoop m set rest (seen ++ [other])
            (some ((copy.getD seen) ++ [m] ++ [other])) true
        else
          Mark.addToSetLoop m set rest (seen ++ [other])
            (match copy with
             | some c => some (c ++ [other])
             | none => none) placed
  | [], _, copy, placed =>
      let c := copy.getD set
      if placed then c else c ++ [m]

/-- mark.ts `Mark.addToSet`. -/
def Mark.addToSet (m : Mark) (set : List Mark) : List Mark :=
  Mark.addToSetLoop m set set [] none false

/-- One state of the compiled content-expression DFA (a content.ts
`ContentMatch` object): acceptance flag and ordered labelled edges, the
labels being node-type names and the targets state indices. -/
structure CMState where
  validEnd : Bool
  next : List (String × Nat)
deriving DecidableEq, Repr

/-- A whole compiled automaton: the (interned) graph of `ContentMatch`
states, entry state `0`. -/
structure CMAuto where
  states : List CMState
deriving DecidableEq, Repr

/-- The automaton modelling the shared `ContentMatch.empty` instance (one
state, `validEnd`, no edges). -/
def CMAuto.empty : CMAuto := ⟨[⟨true, []⟩]⟩

/-- State lookup (out-of-range indices never occur on automata produced by
`dfa`; a dead default keeps the function total). -/
def CMAuto.state (g : CMAuto) (i : Nat) : CMState :=
  g.states.getD i ⟨false, []⟩

/-- content.ts `ContentMatch.matchType`: follow the edge labelled with the
given node-type name, if any. -/
def CMAuto.matchType (g : CMAuto) (i : Nat) (name : String) : Option Nat :=
  (List.find? (fun e => e.fst == name) (g.state i).next).map Prod.snd

/-- content.ts `ContentMatch.matchFragment` on the fragment's sequence of
child node-type names. -/
def CMAuto.matchNames (g : CMAuto) (i : Nat) : List String → Option Nat
  | [] => some i
  | n :: ns =>
      match g.matchType i n with
      | some j => g.matchNames j ns
      | none => none

/-- content.ts `ContentMatch.compatible`: the two states have an edge with a
common label. -/
def CMAuto.compatible (g : CMAuto) (i : Nat) (h : CMAuto) (j : Nat) : Bool :=
  (g.state i).next.any (fun e => (h.state j).next.any (fun f => e.fst == f.fst))

/-- The data of a schema.ts `NodeType` reference that the claims depend on.
`emptyCM` records whether `contentMatch` is the shared `ContentMatch.empty`
instance (the type had no content expression); source `isLeaf` tests
reference equality with that instance.  `inlineFlag` is `spec.inline`;
`inlineContent` is the flag the schema constructor computes from the entry
state.  `markSet` is the compiled set of allowed mark-type names (`none`
meaning all marks allowed). -/
structure NodeType where
  name : String
  attrs : List (String × Attribute)
  contentMatch : CMAuto
  emptyCM : Bool
  markSet : Option (List String)
  groups : List String
  inlineFlag : Bool
  inlineContent : Bool

/-- schema.ts: `isText` is `name == "text"`. -/
def NodeType.isText (t : NodeType) : Bool := t.name == "text"

/-- schema.ts `NodeType.isLeaf`: `contentMatch == ContentMatch.empty`
(reference equality with the interned empty automaton). -/
def NodeType.isLeaf (t : NodeType) : Bool := t.emptyCM

/-- schema.ts: `isBlock` is `!(spec.inline || name == "text")`. -/
def NodeType.isBlock (t : NodeType) : Bool := !(t.inlineFlag || t.name == "text")

/-- schema.ts `NodeType.isInline`. -/
def NodeType.isInline (t : NodeType) : Bool := !t.isBlock

/-- schema.ts `NodeType.isInGroup`. -/
def NodeType.isInGroup (t : NodeType) (group : String) : Bool :=
  t.groups.contains group

/-- schema.ts `NodeType.hasRequiredAttrs`. -/
def NodeType.hasRequiredAttrs (t : NodeType) : Bool :=
  t.attrs.any (fun kv => kv.snd.isRequired)

/-- schema.ts `defaultAttrs`: the reusable default attribute object, or
`none` when some attribute has no default. -/
def NodeType.defaultAttrs (t : NodeType) : Option Attrs :=
  if t.attrs.all (fun kv => kv.snd.hasDefault) then
    some (t.attrs.map (fun kv => (kv.fst, kv.snd.defaultVal)))
  else none

/-- schema.ts `NodeType.allowsMarkType` (by mark-type name, mirroring
reference membership in the compiled `markSet`). -/
def NodeType.allowsMarkType (t : NodeType) (markName : String) : Bool :=
  match t.markSet with
  | none => true
  | some set => set.contains markName

/-- schema.ts `NodeType.allowsMarks`. -/
def NodeType.allowsMarks (t : NodeType) (marks : List Mark) : Bool :=
  match t.markSet with
  | none => true
  | some _ => marks.all (fun m => t.allowsMarkType m.type.name)

/-- node.ts `Node` and `TextNode` in one inductive: a text node is one
created through the `TextNode` subclass constructor and carries
`text = some s`; all other nodes carry `text = none` (the prototype default
`undefined`). -/
inductive Node where
  | mk (type : NodeType) (attrs : Attrs) (content : List Node)
       (marks : List Mark) (text : Option String) : Node

/-- The node's type reference. -/
def Node.type : Node → NodeType
  | .mk t _ _ _ _ => t

/-- The node's attribute object. -/
def Node.attrs : Node → Attrs
  | .mk _ a _ _ _ => a

/-- The node's children (the `content` fragment's node array). -/
def Node.content : Node → List Node
  | .mk _ _ c _ _ => c

/-- The node's mark set. -/
def Node.marks : Node → List Mark
  | .mk _ _ _ m _ => m

/-- The stored string of a text node (`undefined` on other nodes). -/
def Node.text : Node → Option String
  | .mk _ _ _ _ s => s

/-- node.ts `Node.isText` (via the type). -/
def Node.isText (n : Node) : Bool := n.type.isText

/-- node.ts `Node.isLeaf` (via the type). -/
def Node.isLeaf (n : Node) : Bool := n.type.isLeaf

mutual
/-- node.ts `Node.nodeSize` / `TextNode.nodeSize`: text nodes answer their
string length (the `TextNode` override); other nodes answer `1` when leaf
and `2 + content.size` otherwise. -/
def Node.nodeSize : Node → Nat
  | .mk t _ content _ text =>
      match text with
      | some s => s.length
      | none => if t.isLeaf then 1 else 2 + Fragment.size content

/-- fragment.ts: a fragment's `size` is the total of its children's
`nodeSize` (the stored field always equals this computed total). -/
def Fragment.size : List Node → Nat
  | [] => 0
  | n :: ns => Node.nodeSize n + Fragment.size ns
end

mutual
/-- Height of a node (1 + height of its content); used to compute generous
recursion bounds for the `resolve` and `replace` functions. -/
def Node.height : Node → Nat
  | .mk _ _ c _ _ => 1 + Fragment.height c

/-- Height of a fragment: maximum height of its children. -/
def Fragment.height : List Node → Nat
  | [] => 0
  | n :: ns => max (Node.height n) (Fragment.height ns)
end

/-- The node's text, defaulted to the empty string (used where the source
reads `.text!` on nodes known to be text nodes). -/
def Node.textD (n : Node) : String := (Node.text n).getD ""

/-- node.ts `Node.sameMarkup` via `hasMarkup` with the other node's fields:
same type (reference equality, i.e. name equality under interning),
`compareDeep`-equal attributes, and `Mark.sameSet` marks. -/
def Node.sameMarkup (a b : Node) : Bool :=
  a.type.name == b.type.name && compareDeepAttrs a.attrs b.attrs &&
    Mark.sameSet a.marks b.marks

mutual
/-- node.ts `Node.eq` / `TextNode.eq`: text nodes compare markup and stored
string; other nodes compare markup and content recursively.  The `this ==
other` reference fast path is dropped (it only short-circuits). -/
def Node.eq : Node → Node → Bool
  | .mk t a c m tx, b =>
      match tx with
      | some s => Node.sameMarkup (.mk t a c m tx) b && (some s == b.text)
      | none => Node.sameMarkup (.mk t a c m tx) b && Fragment.eq c b.content

/-- fragment.ts `Fragment.eq`: same length and element-wise `Node.eq`. -/
def Fragment.eq : List Node → List Node → Bool
  | [], [] => true
  | x :: xs, y :: ys => Node.eq x y && Fragment.eq xs ys
  | _, _ => false
end

/-- node.ts `Node.copy`: a new node with the same markup and the given
content.  A fresh `Node` is built (so `text` is the prototype default
`undefined`); the reference fast path is dropped. -/
def Node.copy (n : Node) (content : List Node) : Node :=
  .mk n.type n.attrs content n.marks none

/-- node.ts `TextNode.withText`. -/
def Node.withText (n : Node) (text : String) : Node :=
  if n.text == some text then n else .mk n.type n.attrs [] n.marks (some text)

/-- node.ts `Node.mark` / `TextNode.mark`: same node with the given marks
(reference fast path dropped). -/
def Node.mark (n : Node) (marks : List Mark) : Node :=
  .mk n.type n.attrs n.content marks n.text

/-- The substring `s.slice(from, to)` of a JS string (both ends clamped). -/
def strSlice (s : String) (from_ to_ : Nat) : String :=
  ((s.toList.drop from_).take (to_ - from_)).asString

mutual
/-- node.ts `Node.cut` / `TextNode.cut` (with both bounds explicit; the
source defaults `to` to the content size resp. text length).  The call to
`Fragment.cut` is inlined (its own `from == 0 && to == size` fast path
cannot fire inside this branch, so only the empty-range check and the child
loop remain), keeping the recursion structural. -/
def Node.cut : Node → Nat → Nat → Node
  | .mk t a c m (some s), from_, to_ =>
      if from_ == 0 && to_ == s.length then .mk t a c m (some s)
      else Node.withText (.mk t a c m (some s)) (strSlice s from_ to_)
  | .mk t a c m none, from_, to_ =>
      if from_ == 0 && to_ == Fragment.size c then .mk t a c m none
      else Node.copy (.mk t a c m none)
        (if to_ ≤ from_ then [] else Fragment.cutLoop c from_ to_ 0)

/-- The child loop of fragment.ts `Fragment.cut`, carrying the running
position.  Natural subtraction realises the source's `Math.max(0, ...)`
clamps. -/
def Fragment.cutLoop : List Node → Nat → Nat → Nat → List Node
  | [], _, _, _ => []
  | child :: rest, from_, to_, pos =>
      if to_ ≤ pos then []
      else
        let e := pos + Node.nodeSize child
        let tail := Fragment.cutLoop rest from_ to_ e
        if e > from_ then
          (if pos < from_ || e > to_ then
            (if Node.isText child then
              Node.cut child (from_ - pos) (min (Node.textD child).length (to_ - pos))
             else
              Node.cut child (from_ - pos - 1)
                (min (Fragment.size (Node.content child)) (to_ - pos - 1)))
           else child) :: tail
        else tail
end

/-- fragment.ts `Fragment.cut`: the children overlapping `[from, to)`, the
boundary ones themselves cut. -/
def Fragment.cut (content : List Node) (from_ to_ : Nat) : List Node :=
  if from_ == 0 && to_ == Fragment.size content then content
  else if to_ ≤ from_ then []
  else Fragment.cutLoop content from_ to_ 0

/-- fragment.ts `Fragment.append`: concatenation, merging the text nodes at
the seam when they have the same markup. -/
def Fragment.append (a b : List Node) : List Node :=
  if Fragment.size b == 0 then a
  else if Fragment.size a == 0 then b
  else
    match a.getLast?, b with
    | some last, first :: brest =>
        if last.isText && Node.sameMarkup last first then
          a.dropLast ++ (Node.withText last (Node.textD last ++ Node.textD first)) :: brest
        else a ++ b
    | _, _ => a ++ b

/-- fragment.ts `Fragment.replaceChild` (reference fast path dropped;
`List.set` leaves the list unchanged on an out-of-range index, which the
call sites never produce). -/
def Fragment.replaceChild (content : List Node) (index : Nat) (node : Node) : List Node :=
  content.set index node

/-- fragment.ts `Fragment.addToStart`. -/
def Fragment.addToStart (content : List Node) (node : Node) : List Node :=
  node :: content

/-- fragment.ts `Fragment.addToEnd`. -/
def Fragment.addToEnd (content : List Node) (node : Node) : List Node :=
  content ++ [node]

/-- The loop of fragment.ts `Fragment.fromArray`, with the remaining suffix
of the array made the recursion argument and the processed prefix `seen`
carried along (so `seen = array.take i`, whose last element is the
`array[i - 1]` the merge condition reads); `joined` is `none` while no
merged copy was allocated. -/
def Fragment.fromArrayLoop :
    List Node → List Node → Option (List Node) → List Node
  | node :: rest, seen, joined =>
      (match seen.getLast? with
       | some prev =>
          if node.isText && Node.sameMarkup prev node then
            let j := joined.getD seen
            Fragment.fromArrayLoop rest (seen ++ [node])
              (some (j.dropLast ++
                [Node.withText node (Node.textD (j.getLast?.getD node) ++ Node.textD node)]))
          else
            Fragment.fromArrayLoop rest (seen ++ [node])
              (match joined with
               | some js => some (js ++ [node])
               | none => none)
       | none =>
          Fragment.fromArrayLoop rest (seen ++ [node])
            (match joined with
             | some js => some (js ++ [node])
             | none => none))
  | [], seen, joined => joined.getD seen

/-- fragment.ts `Fragment.fromArray`: build a fragment from a node array,
merging adjacent text nodes that share markup. -/
def Fragment.fromArray (array : List Node) : List Node :=
  if array.length == 0 then [] else Fragment.fromArrayLoop array [] none

/-- The argument universe of fragment.ts `Fragment.from` (null, a fragment,
a single node, or a node array). -/
inductive FromArg where
  | nil : FromArg
  | frag (f : List Node) : FromArg
  | node (n : Node) : FromArg
  | array (ns : List Node) : FromArg

/-- fragment.ts `Fragment.from`: dispatch on the argument kind. -/
def Fragment.from : FromArg → List Node
  | .nil => []
  | .frag f => f
  | .array ns => Fragment.fromArray ns
  | .node n => [n]

/-- replace.ts `addNode`: append `child` to `target`, merging it into the
last element when both are text nodes with the same markup. -/
def addNode (child : Node) (target : List Node) : List Node :=
  match target.getLast? with
  | some last =>
      if child.isText && Node.sameMarkup child last then
        target.dropLast ++ [Node.withText child (Node.textD last ++ Node.textD child)]
      else target ++ [child]
  | none => [child]

/-- schema.ts `NodeType.validContent`: the content's type-name sequence is
accepted by the compiled automaton (reaching a `validEnd` state) and every
child's marks are allowed. -/
def NodeType.validContent (t : NodeType) (content : List Node) : Bool :=
  match t.contentMatch.matchNames 0 (content.map (fun c => c.type.name)) with
  | some j => (t.contentMatch.state j).validEnd &&
      content.all (fun c => t.allowsMarks c.marks)
  | none => false

/-- schema.ts `NodeType.compatibleContent`: same type (reference equality,
i.e. name equality under interning) or compatible entry states. -/
def NodeType.compatibleContent (a b : NodeType) : Bool :=
  a.name == b.name || CMAuto.compatible a.contentMatch 0 b.contentMatch 0

/-- A placeholder node, used only as the default of list lookups whose call
sites stay in bounds (where the source would crash on `undefined`). -/
def Node.dummy : Node :=
  .mk ⟨"", [], CMAuto.empty, true, none, [], false, false⟩ [] [] [] none

/-- `fragment.content[i]`-style child access (fragment.ts `child` raises on
an out-of-range index; call sites below stay in range). -/
def Fragment.child (content : List Node) (i : Nat) : Node :=
  content.getD i Node.dummy

/-- The search loop of fragment.ts `Fragment.findIndex` (with the default
`round = -1`), carrying the child index `i` and running position `curPos`.
The empty case is unreachable for positions strictly inside the fragment. -/
def Fragment.findIndexLoop : List Node → Nat → Nat → Nat → Option (Nat × Nat)
  | [], _, _, _ => none
  | cur :: rest, pos, i, curPos =>
      let e := curPos + Node.nodeSize cur
      if pos ≤ e then
        (if e == pos then some (i + 1, e) else some (i, curPos))
      else Fragment.findIndexLoop rest pos (i + 1) e

/-- fragment.ts `Fragment.findIndex` with the default `round = -1` (the only
form the embedded call sites use): index and start offset of the child
containing `pos`, rounding a position on a child boundary to the index after
it.  `none` models the `RangeError` on positions outside the fragment. -/
def Fragment.findIndex (content : List Node) (pos : Nat) : Option (Nat × Nat) :=
  if pos == 0 then some (0, pos)
  else if pos == Fragment.size content then some (content.length, pos)
  else if pos > Fragment.size content then none
  else Fragment.findIndexLoop content pos 0 0

/-- resolvedpos.ts `ResolvedPos`: the resolved position, the path of
`(ancestor node, child index, absolute position before that depth)` triples
(the source stores these flattened, three array slots per depth), and the
offset into the parent. -/
structure ResolvedPos where
  pos : Nat
  path : List (Node × Nat × Nat)
  parentOffset : Nat

/-- `depth == path length / 3 - 1`: with one triple per depth this is the
triple count minus one. -/
def ResolvedPos.depth (rp : ResolvedPos) : Nat := rp.path.length - 1

/-- resolvedpos.ts `ResolvedPos.node`. -/
def ResolvedPos.node (rp : ResolvedPos) (depth : Nat) : Node :=
  (rp.path.getD depth (Node.dummy, 0, 0)).1

/-- resolvedpos.ts `ResolvedPos.index`. -/
def ResolvedPos.index (rp : ResolvedPos) (depth : Nat) : Nat :=
  (rp.path.getD depth (Node.dummy, 0, 0)).2.1

/-- The third slot of the path triple at a depth (`path[depth * 3 + 2]`):
the absolute position before the child at that depth. -/
def ResolvedPos.posBefore (rp : ResolvedPos) (depth : Nat) : Nat :=
  (rp.path.getD depth (Node.dummy, 0, 0)).2.2

/-- resolvedpos.ts `ResolvedPos.parent`. -/
def ResolvedPos.parent (rp : ResolvedPos) : Node := rp.node rp.depth

/-- resolvedpos.ts `ResolvedPos.start`:
`depth == 0 ? 0 : path[depth * 3 - 1] + 1`. -/
def ResolvedPos.start (rp : ResolvedPos) (depth : Nat) : Nat :=
  if depth == 0 then 0 else rp.posBefore (depth - 1) + 1

/-- resolvedpos.ts `ResolvedPos.end`. -/
def ResolvedPos.endPos (rp : ResolvedPos) (depth : Nat) : Nat :=
  rp.start depth + Fragment.size (rp.node depth).content

/-- resolvedpos.ts `ResolvedPos.textOffset`:
`pos - path[path.length - 1]` (the last triple's third slot). -/
def ResolvedPos.textOffset (rp : ResolvedPos) : Nat :=
  rp.pos - rp.posBefore rp.depth

/-- node.ts `Node.cut` with the source's default second argument (text
length for text nodes, content size otherwise). -/
def Node.cutFrom (n : Node) (from_ : Nat) : Node :=
  match n.text with
  | some s => Node.cut n from_ s.length
  | none => Node.cut n from_ (Fragment.size n.content)

/-- resolvedpos.ts `ResolvedPos.nodeAfter`. -/
def ResolvedPos.nodeAfter (rp : ResolvedPos) : Option Node :=
  let parent := rp.parent
  let index := rp.index rp.depth
  if index == parent.content.length then none
  else
    let dOff := rp.pos - rp.posBefore rp.depth
    let child := Fragment.child parent.content index
    if dOff ≠ 0 then some (Node.cutFrom child dOff) else some child

/-- resolvedpos.ts `ResolvedPos.nodeBefore`. -/
def ResolvedPos.nodeBefore (rp : ResolvedPos) : Option Node :=
  let index := rp.index rp.depth
  let dOff := rp.pos - rp.posBefore rp.depth
  if dOff ≠ 0 then some (Node.cut (Fragment.child rp.parent.content index) 0 dOff)
  else if index == 0 then none
  else some (Fragment.child rp.parent.content (index - 1))

/-- The descent loop of resolvedpos.ts `ResolvedPos.resolve`, one call per
`for (let node = doc;;)` iteration, bounded by a `fuel` argument (each
iteration descends one tree level, so any fuel of at least the tree height
makes the `fuel = 0` branch unreachable).  The `none` branches model the
`RangeError`s of `findIndex` and `child`, unreachable once the outer bounds
check has passed. -/
def ResolvedPos.resolveLoop (pos : Nat) : Nat → Node → Nat → Nat →
    List (Node × Nat × Nat) → Except String ResolvedPos
  | 0, _, _, _, _ => .error "resolution depth bound exceeded"
  | fuel + 1, node, parentOffset, start_, path =>
      match Fragment.findIndex node.content parentOffset with
      | none => .error "position outside of fragment"
      | some (index, offset) =>
          let rem := parentOffset - offset
          let path := path ++ [(node, index, start_ + offset)]
          if rem == 0 then .ok ⟨pos, path, parentOffset⟩
          else
            match node.content.get? index with
            | none => .error "index out of range"
            | some child =>
                if child.isText then .ok ⟨pos, path, parentOffset⟩
                else ResolvedPos.resolveLoop pos fuel child (rem - 1)
                      (start_ + offset + 1) path

/-- resolvedpos.ts `ResolvedPos.resolve`: bounds-check the offset (throwing
`RangeError "Position … out of range"` outside `[0, content.size]`), then
walk down the tree.  The position argument is an integer, as in the source;
the descent works on the established natural number. -/
def ResolvedPos.resolve (doc : Node) (pos : Int) : Except String ResolvedPos :=
  if 0 ≤ pos ∧ pos ≤ (Fragment.size doc.content : Int) then
    ResolvedPos.resolveLoop pos.toNat (Node.height doc) doc pos.toNat 0 []
  else .error "Position out of range"

/-- The two exception classes the transform layer distinguishes: replace.ts
`ReplaceError` (caught by `StepResult.fromReplace`) and everything else
(`RangeError` etc., rethrown). -/
inductive PMErr where
  | replaceError (msg : String) : PMErr
  | rangeError (msg : String) : PMErr
  | otherError (msg : String) : PMErr

/-- replace.ts `Slice`: a fragment with open depths on both sides. -/
structure Slice where
  content : List Node
  openStart : Nat
  openEnd : Nat

/-- replace.ts `Slice.empty`. -/
def Slice.empty : Slice := ⟨[], 0, 0⟩

/-- replace.ts `Slice.size`: `content.size - openStart - openEnd` (integer
arithmetic, as in the source). -/
def Slice.size (s : Slice) : Int :=
  (Fragment.size s.content : Int) - s.openStart - s.openEnd

/-- replace.ts `checkJoin`: error unless `sub`'s type is
`compatibleContent` with `main`'s. -/
def checkJoin (main sub : Node) : Except PMErr Unit :=
  if sub.type.compatibleContent main.type then .ok ()
  else .error (.replaceError
    ("Cannot join " ++ sub.type.name ++ " onto " ++ main.type.name))

/-- replace.ts `joinable`: the node at `depth` on the before side, after
checking it joins with the node at `depth` on the after side. -/
def joinable (before_ after_ : ResolvedPos) (depth : Nat) : Except PMErr Node := do
  let node := before_.node depth
  let _ ← checkJoin node (after_.node depth)
  pure node

/-- The `for (let i = startIndex; i < endIndex; i++) addNode(node.child(i),
target)` loop of replace.ts `addRange`, recursing on the remaining
iteration count `e - i`. -/
def addNodesFrom (node : Node) : Nat → Nat → List Node → List Node
  | _, 0, target => target
  | i, count + 1, target =>
      addNodesFrom node (i + 1) count (addNode (Fragment.child node.content i) target)

/-- `addNodesFrom` between two indices (the loop as called by `addRange`). -/
def addNodes (node : Node) (i e : Nat) (target : List Node) : List Node :=
  addNodesFrom node i (e - i) target

/-- replace.ts `addRange`: append the children of the `depth`-level node
between the two (optional) positions to `target`, splitting text nodes the
positions fall into. -/
def addRange (start_ end_ : Option ResolvedPos) (depth : Nat)
    (target : List Node) : List Node :=
  let rp := match end_ with
    | some e => e
    | none => start_.getD ⟨0, [], 0⟩
  let node := rp.node depth
  let endIndex := match end_ with
    | some e => e.index depth
    | none => node.content.length
  let startTarget : Nat × List Node := match start_ with
    | some sp =>
        let si := sp.index depth
        if sp.depth > depth then (si + 1, target)
        else if sp.textOffset ≠ 0 then
          (si + 1, addNode (sp.nodeAfter.getD Node.dummy) target)
        else (si, target)
    | none => (0, target)
  let target := addNodes node startTarget.1 endIndex startTarget.2
  match end_ with
  | some e =>
      if e.depth == depth && e.textOffset ≠ 0 then
        addNode (e.nodeBefore.getD Node.dummy) target
      else target
  | none => target

/-- replace.ts `close`: re-validate `content` against the node's type
(node.ts `NodeType.checkContent`, which raises `RangeError` — not
`ReplaceError` — on invalid content; the error message here drops the
truncated content dump the source appends) and wrap it. -/
def close (node : Node) (content : List Node) : Except PMErr Node :=
  if node.type.validContent content then .ok (Node.copy node content)
  else .error (.rangeError ("Invalid content for node " ++ node.type.name))

/-- The `for (let i = extra - 1; i >= 0; i--)` wrapping loop of replace.ts
`prepareSliceForReplace`: wrap `node` in copies of `along`'s ancestors from
level `i - 1` up to the root. -/
def wrapAlong (along : ResolvedPos) : Nat → Node → Node
  | 0, node => node
  | k + 1, node => wrapAlong along k (Node.copy (along.node k) [node])

/-- replace.ts `prepareSliceForReplace`: rebuild the slice's content inside
a copy of `along`'s ancestor chain and resolve its start and end inside it
(`resolveNoCache`). -/
def prepareSliceForReplace (slice : Slice) (along : ResolvedPos) :
    Except PMErr (ResolvedPos × ResolvedPos) := do
  let extra := along.depth - slice.openStart
  let parent := along.node extra
  let node := wrapAlong along extra (Node.copy parent slice.content)
  let start_ ← (ResolvedPos.resolve node ((slice.openStart : Int) + extra)).mapError .rangeError
  let end_ ← (ResolvedPos.resolve node
      ((Fragment.size node.content : Int) - slice.openEnd - extra)).mapError .rangeError
  pure (start_, end_)

mutual
/-- replace.ts `replaceOuter`, with an explicit recursion bound `fuel` (the
source recursion is bounded by the depths of the resolved positions; callers
pass a bound larger than that, so the `fuel = 0` branch is unreachable). -/
def replaceOuter : Nat → ResolvedPos → ResolvedPos → Slice → Nat → Except PMErr Node
  | 0, _, _, _, _ => .error (.rangeError "recursion bound exceeded")
  | fuel + 1, from_, to_, slice, depth =>
      let index := from_.index depth
      let node := from_.node depth
      if index = to_.index depth ∧ (depth : Int) < (from_.depth : Int) - slice.openStart then do
        let inner ← replaceOuter fuel from_ to_ slice (depth + 1)
        pure (Node.copy node (Fragment.replaceChild node.content index inner))
      else if Fragment.size slice.content == 0 then do
        let two ← replaceTwoWay fuel from_ to_ depth
        close node two
      else if slice.openStart == 0 && slice.openEnd == 0 &&
          from_.depth == depth && to_.depth == depth then
        let parent := from_.parent
        let content := parent.content
        close parent (Fragment.append
          (Fragment.append (Fragment.cut content 0 from_.parentOffset) slice.content)
          (Fragment.cut content to_.parentOffset (Fragment.size content)))
      else do
        let se ← prepareSliceForReplace slice from_
        let three ← replaceThreeWay fuel from_ se.1 se.2 to_ depth
        close node three

/-- replace.ts `replaceTwoWay` (same recursion bound discipline). -/
def replaceTwoWay : Nat → ResolvedPos → ResolvedPos → Nat → Except PMErr (List Node)
  | 0, _, _, _ => .error (.rangeError "recursion bound exceeded")
  | fuel + 1, from_, to_, depth => do
      let content := addRange none (some from_) depth []
      let content ←
        if from_.depth > depth then do
          let type_ ← joinable from_ to_ (depth + 1)
          let inner ← replaceTwoWay fuel from_ to_ (depth + 1)
          let closed ← close type_ inner
          pure (addNode closed content)
        else pure content
      pure (addRange (some to_) none depth content)

/-- replace.ts `replaceThreeWay` (same recursion bound discipline). -/
def replaceThreeWay : Nat → ResolvedPos → ResolvedPos → ResolvedPos → ResolvedPos →
    Nat → Except PMErr (List Node)
  | 0, _, _, _, _, _ => .error (.rangeError "recursion bound exceeded")
  | fuel + 1, from_, start_, end_, to_, depth => do
      let openStart ←
        if from_.depth > depth then some <$> joinable from_ start_ (depth + 1)
        else pure (none : Option Node)
      let openEnd ←
        if to_.depth > depth then some <$> joinable end_ to_ (depth + 1)
        else pure (none : Option Node)
      let content := addRange none (some from_) depth []
      let content ←
        match openStart, openEnd with
        | some os, some oe =>
            if start_.index depth = end_.index depth then do
              let _ ← checkJoin os oe
              let inner ← replaceThreeWay fuel from_ start_ end_ to_ (depth + 1)
              let closed ← close os inner
              pure (addNode closed content)
            else do
              let content ← do
                let inner ← replaceTwoWay fuel from_ start_ (depth + 1)
                let closed ← close os inner
                pure (addNode closed content)
              let content := addRange (some start_) (some end_) depth content
              let inner ← replaceTwoWay fuel end_ to_ (depth + 1)
              let closed ← close oe inner
              pure (addNode closed content)
        | some os, none => do
            let inner ← replaceTwoWay fuel from_ start_ (depth + 1)
            let closed ← close os inner
            pure (addRange (some start_) (some end_) depth (addNode closed content))
        | none, some oe => do
            let content := addRange (some start_) (some end_) depth content
            let inner ← replaceTwoWay fuel end_ to_ (depth + 1)
            let closed ← close oe inner
            pure (addNode closed content)
        | none, none =>
            pure (addRange (some start_) (some end_) depth content)
      pure (addRange (some to_) none depth content)
end

/-- A recursion bound strictly larger than the depth any of the `replace`
helpers can recurse to (their recursion depth is bounded by the depths of
the argument positions, themselves bounded by the tree heights). -/
def replaceFuel (from_ to_ : ResolvedPos) (slice : Slice) : Nat :=
  from_.depth + to_.depth + Node.height (from_.node 0) +
    Fragment.height slice.content + 8

/-- replace.ts `replace`: the two open-depth pre-checks (each a distinct
`ReplaceError`), then `replaceOuter` from depth 0. -/
def replace (from_ to_ : ResolvedPos) (slice : Slice) : Except PMErr Node :=
  if slice.openStart > from_.depth then
    .error (.replaceError "Inserted content deeper than insertion position")
  else if (from_.depth : Int) - slice.openStart ≠ (to_.depth : Int) - slice.openEnd then
    .error (.replaceError "Inconsistent open depths")
  else replaceOuter (replaceFuel from_ to_ slice) from_ to_ slice 0

/-- node.ts `Node.replace`: resolve both positions (their `RangeError`s
propagate) and splice. -/
def Node.replace (doc : Node) (from_ to_ : Int) (slice : Slice) : Except PMErr Node := do
  let f ← (ResolvedPos.resolve doc from_).mapError PMErr.rangeError
  let t ← (ResolvedPos.resolve doc to_).mapError PMErr.rangeError
  PM.replace f t slice

/-- map.ts `StepMap`: the changed ranges as `(start, oldSize, newSize)`
triples (the source flattens them into one number array, three slots per
range) and the `inverted` flag. -/
structure StepMap where
  ranges : List (Int × Int × Int)
  inverted : Bool

/-- map.ts `StepMap.empty`. -/
def StepMap.empty : StepMap := ⟨[], false⟩

/-- The range loop of map.ts `StepMap._map` in its `simple` form (the value
`map` returns), carrying the accumulated size difference `diff`. -/
def StepMap.mapGo (inverted : Bool) (pos assoc : Int) :
    List (Int × Int × Int) → Int → Int
  | [], diff => pos + diff
  | (s0, x, y) :: rest, diff =>
      let start := s0 - (if inverted then diff else 0)
      if start > pos then pos + diff
      else
        let oldSize := if inverted then y else x
        let newSize := if inverted then x else y
        let e := start + oldSize
        if pos ≤ e then
          let side : Int :=
            if oldSize == 0 then assoc
            else if pos == start then -1
            else if pos == e then 1
            else assoc
          start + diff + (if side < 0 then 0 else newSize)
        else StepMap.mapGo inverted pos assoc rest (diff + (newSize - oldSize))

/-- map.ts `StepMap.map` (`_map` with `simple = true`). -/
def StepMap.map (m : StepMap) (pos assoc : Int) : Int :=
  StepMap.mapGo m.inverted pos assoc m.ranges 0

/-- map.ts `StepMap.invert`: same ranges, flipped `inverted` flag. -/
def StepMap.invert (m : StepMap) : StepMap := ⟨m.ranges, !m.inverted⟩

/-- step.ts `StepResult`: a transformed document or a failure message. -/
structure StepResult where
  doc : Option Node
  failed : Option String

/-- step.ts `StepResult.ok`. -/
def StepResult.ok (doc : Node) : StepResult := ⟨some doc, none⟩

/-- step.ts `StepResult.fail`. -/
def StepResult.fail (message : String) : StepResult := ⟨none, some message⟩

/-- step.ts `StepResult.fromReplace`: run `Node.replace`, catching exactly
the `ReplaceError` class as a failed result; any other exception is
rethrown. -/
def StepResult.fromReplace (doc : Node) (from_ to_ : Int) (slice : Slice) :
    Except PMErr StepResult :=
  match Node.replace doc from_ to_ slice with
  | .ok d => .ok (StepResult.ok d)
  | .error (.replaceError msg) => .ok (StepResult.fail msg)
  | .error e => .error e

/-- resolvedpos.ts `ResolvedPos.indexAfter`. -/
def ResolvedPos.indexAfter (rp : ResolvedPos) (depth : Nat) : Nat :=
  rp.index depth + (if depth == rp.depth && rp.textOffset == 0 then 0 else 1)

/-- The first (`while (dist > 0 && depth > 0 && …)`) loop of replace_step.ts
`contentBetween`, returning the final `(dist, depth)` (the loop guard
requires `depth > 0`, so recursing structurally on `depth` is exact). -/
def contentBetweenShrink (rp : ResolvedPos) : Int → Nat → Int × Nat
  | dist, 0 => (dist, 0)
  | dist, depth + 1 =>
      if dist > 0 ∧ rp.indexAfter (depth + 1) = (rp.node (depth + 1)).content.length then
        contentBetweenShrink rp (dist - 1) depth
      else (dist, depth + 1)

/-- The second (`while (dist > 0)`) loop of replace_step.ts
`contentBetween`, descending through first children; the loop counts the
(positive) integer `dist` down to 0, so it runs on `dist.toNat`. -/
def contentBetweenDescend : Option Node → Nat → Bool
  | _, 0 => false
  | none, _ + 1 => true
  | some n, count + 1 =>
      if n.isLeaf then true else contentBetweenDescend n.content.head? count

/-- replace_step.ts `contentBetween`: whether real content (rather than a
clean run of closing and opening tokens) sits between the two positions.
The `Except` layer carries the `RangeError` that `doc.resolve` can raise. -/
def contentBetween (doc : Node) (from_ to_ : Int) : Except String Bool := do
  let f ← ResolvedPos.resolve doc from_
  let dd := contentBetweenShrink f (to_ - from_) f.depth
  if dd.1 > 0 then
    pure (contentBetweenDescend ((f.node dd.2).content.get? (f.indexAfter dd.2)) dd.1.toNat)
  else
    pure false

/-- replace_step.ts `ReplaceStep`: splice `slice` into `[from, to)`;
`struct` is the source's `structure` flag. -/
structure ReplaceStep where
  from_ : Int
  to_ : Int
  slice : Slice
  struct : Bool

/-- replace_step.ts `ReplaceStep.apply`. -/
def ReplaceStep.apply (s : ReplaceStep) (doc : Node) : Except PMErr StepResult :=
  if s.struct then
    match contentBetween doc s.from_ s.to_ with
    | .error e => .error (.rangeError e)
    | .ok true => .ok (StepResult.fail "Structure replace would overwrite content")
    | .ok false => StepResult.fromReplace doc s.from_ s.to_ s.slice
  else StepResult.fromReplace doc s.from_ s.to_ s.slice

/-- replace_step.ts `ReplaceStep.getMap`:
`new StepMap([this.from, this.to - this.from, this.slice.size])`. -/
def ReplaceStep.getMap (s : ReplaceStep) : StepMap :=
  ⟨[(s.from_, s.to_ - s.from_, s.slice.size)], false⟩

/-- schema.ts `defaultAttrs` on an attribute table: the reusable default
object, or `none` when some attribute has no default. -/
def defaultAttrsOf (table : List (String × Attribute)) : Option Attrs :=
  if table.all (fun kv => kv.snd.hasDefault) then
    some (table.map (fun kv => (kv.fst, kv.snd.defaultVal)))
  else none

/-- schema.ts `computeAttrs`: walk the attribute table in order, taking the
given value when present and the default otherwise, raising `RangeError`
for a missing value of a default-less attribute. -/
def computeAttrs (table : List (String × Attribute)) (value : Option Attrs) :
    Except PMErr Attrs :=
  match table with
  | [] => .ok []
  | (name, attr) :: rest => do
      let given ←
        match value.bind (fun v => lookupField name v) with
        | some g => pure g
        | none =>
            if attr.hasDefault then pure attr.defaultVal
            else Except.error (.rangeError ("No value supplied for attribute " ++ name))
      let built ← computeAttrs rest value
      pure ((name, given) :: built)

/-- schema.ts `checkAttrs`: `RangeError` when a supplied attribute name is
not in the table (the per-attribute `validate` callbacks are not
modelled). -/
def checkAttrs (table : List (String × Attribute)) (values : Attrs) :
    Except PMErr Unit :=
  if values.all (fun kv => table.any (fun e => e.fst == kv.fst)) then .ok ()
  else .error (.rangeError "Unsupported attribute")

/-- Insert a mark after all marks of rank at most its own (the auxiliary
step of a stable sort by rank). -/
def insertByRank (m : Mark) : List Mark → List Mark
  | [] => [m]
  | x :: xs => if x.type.rank ≤ m.type.rank then x :: insertByRank m xs else m :: x :: xs

/-- A stable sort by mark-type rank, modelling the (stable) JS `Array.sort`
with comparator `a.type.rank - b.type.rank` used by `Mark.setFrom`. -/
def sortByRank : List Mark → List Mark
  | [] => []
  | x :: xs => insertByRank x (sortByRank xs)

/-- mark.ts `Mark.setFrom` restricted to the null-or-array argument shapes
the deserialisation path uses: `none`/empty give the empty set, otherwise a
rank-sorted copy. -/
def Mark.setFrom (marks : Option (List Mark)) : List Mark :=
  match marks with
  | none => []
  | some [] => []
  | some ms => sortByRank ms

/-- schema.ts `MarkType.create`: the interned default-attribute instance
when no attributes are given and all attributes have defaults, otherwise a
fresh mark with computed attributes. -/
def MarkType.create (t : MarkType) (attrs : Option Attrs) : Except PMErr Mark :=
  match attrs, defaultAttrsOf t.attrs with
  | none, some d => .ok ⟨t, d⟩
  | _, _ => do
      let a ← computeAttrs t.attrs attrs
      pure ⟨t, a⟩

/-- schema.ts `NodeType.computeAttrs`. -/
def NodeType.computeAttrsFn (t : NodeType) (attrs : Option Attrs) :
    Except PMErr Attrs :=
  match attrs, t.defaultAttrs with
  | none, some d => .ok d
  | _, _ => computeAttrs t.attrs attrs

/-- schema.ts `NodeType.create`: refuses text nodes (a plain `Error`, not a
`RangeError`), computes attributes, and builds the node. -/
def NodeType.create (t : NodeType) (attrs : Option Attrs) (content : FromArg)
    (marks : Option (List Mark)) : Except PMErr Node :=
  if t.isText then .error (.otherError "NodeType.create can't construct text nodes")
  else do
    let a ← t.computeAttrsFn attrs
    pure (.mk t a (Fragment.from content) (Mark.setFrom marks) none)

/-- The schema as the deserialisation functions see it: the compiled
node-type and mark-type tables. -/
structure Schema where
  nodes : List NodeType
  marks : List MarkType

/-- Node-type lookup by name (`schema.nodes[name]`). -/
def Schema.nodeType? (S : Schema) (name : String) : Option NodeType :=
  S.nodes.find? (fun t => t.name == name)

/-- Mark-type lookup by name (`schema.marks[name]`). -/
def Schema.markType? (S : Schema) (name : String) : Option MarkType :=
  S.marks.find? (fun t => t.name == name)

/-- schema.ts `Schema.text`: build a `TextNode` with the text type's default
attributes; the `TextNode` constructor raises `RangeError` on an empty
string.  A schema without a text type crashes in the source (reading
`undefined`), modelled as a plain error. -/
def Schema.text (S : Schema) (text : String) (marks : Option (List Mark)) :
    Except PMErr Node :=
  match S.nodeType? "text" with
  | none => .error (.otherError "no text type in schema")
  | some type =>
      if text.isEmpty then .error (.rangeError "Empty text nodes are not allowed")
      else .ok (.mk type (type.defaultAttrs.getD []) [] (Mark.setFrom marks) (some text))

/-- The JSON shape mark.ts `Mark.toJSON` emits (`type`, plus `attrs` when
the attribute object is non-empty). -/
structure MarkJSON where
  type : String
  attrs : Option Attrs

/-- The JSON shape node.ts `Node.toJSON` / `TextNode.toJSON` emits.
`fromJSON` accepts arbitrary JSON; this embedding covers the well-shaped
documents, which include the entire image of `toJSON`. -/
inductive NodeJSON where
  | mk (type : String) (attrs : Option Attrs) (content : Option (List NodeJSON))
       (marks : Option (List MarkJSON)) (text : Option String) : NodeJSON

/-- mark.ts `Mark.toJSON` (attrs included exactly when the object has at
least one property). -/
def Mark.toJSON (m : Mark) : MarkJSON :=
  ⟨m.type.name, if m.attrs.isEmpty then none else some m.attrs⟩

mutual
/-- node.ts `Node.toJSON` / `TextNode.toJSON`: type name; attrs when
non-empty; content when `content.size` is non-zero; marks when non-empty;
the stored text for text nodes. -/
def Node.toJSON : Node → NodeJSON
  | .mk t a c m tx =>
      ⟨t.name,
       if a.isEmpty then none else some a,
       if Fragment.size c == 0 then none else some (Fragment.toJSONList c),
       if m.isEmpty then none else some (m.map Mark.toJSON),
       tx⟩

/-- fragment.ts `Fragment.toJSON` on the child array. -/
def Fragment.toJSONList : List Node → List NodeJSON
  | [] => []
  | n :: ns => Node.toJSON n :: Fragment.toJSONList ns
end

/-- mark.ts `Mark.fromJSON`: look the type name up (`RangeError` when
unknown), `create` with the given attrs, then `checkAttrs`. -/
def Mark.fromJSON (S : Schema) (j : MarkJSON) : Except PMErr Mark :=
  match S.markType? j.type with
  | none => .error (.rangeError ("There is no mark type " ++ j.type ++ " in this schema"))
  | some type => do
      let mark ← MarkType.create type j.attrs
      let _ ← checkAttrs type.attrs mark.attrs
      pure mark

/-- `json.marks.map(schema.markFromJSON)` (the marks array of
`Node.fromJSON`). -/
def marksFromJSON (S : Schema) : List MarkJSON → Except PMErr (List Mark)
  | [] => .ok []
  | j :: js => do
      let m ← Mark.fromJSON S j
      let ms ← marksFromJSON S js
      pure (m :: ms)

mutual
/-- node.ts `Node.fromJSON`: deserialise marks, dispatch text nodes to
`schema.text`, otherwise deserialise the content fragment (inlining
fragment.ts `Fragment.fromJSON`, which maps `nodeFromJSON` over the array
without any text-node merging), look up the node type (`RangeError` when
unknown), `create`, and `checkAttrs`. -/
def Node.fromJSON (S : Schema) : NodeJSON → Except PMErr Node
  | .mk ty attrs content marks text => do
      let ms ← match marks with
        | some js => some <$> marksFromJSON S js
        | none => pure (none : Option (List Mark))
      if ty == "text" then
        match text with
        | some s => Schema.text S s ms
        | none => .error (.rangeError "Invalid text node in JSON")
      else do
        let c ← match content with
          | none => pure []
          | some arr => Fragment.fromJSONList S arr
        match S.nodeType? ty with
        | none => .error (.rangeError ("Unknown node type: " ++ ty))
        | some t => do
            let node ← NodeType.create t attrs (.frag c) ms
            let _ ← checkAttrs node.type.attrs node.attrs
            pure node

/-- The `value.map(schema.nodeFromJSON)` loop of fragment.ts
`Fragment.fromJSON`. -/
def Fragment.fromJSONList (S : Schema) : List NodeJSON → Except PMErr (List Node)
  | [] => .ok []
  | j :: js => do
      let n ← Node.fromJSON S j
      let ns ← Fragment.fromJSONList S js
      pure (n :: ns)
end

/-- fragment.ts `Fragment.fromJSON`: the empty fragment for a missing
value, otherwise a fragment of the deserialised nodes (built with the raw
`Fragment` constructor: no adjacent-text merging). -/
def Fragment.fromJSON (S : Schema) (v : Option (List NodeJSON)) :
    Except PMErr (List Node) :=
  match v with
  | none => .ok []
  | some arr => Fragment.fromJSONList S arr

/-- The `mark.type.checkAttrs(mark.attrs)` loop inside `Node.check`. -/
def checkMarksAttrs : List Mark → Except PMErr Unit
  | [] => .ok ()
  | m :: ms => do
      let _ ← checkAttrs m.type.attrs m.attrs
      checkMarksAttrs ms

mutual
/-- node.ts `Node.check`: content validity, attribute check, the mark set
re-added mark by mark must equal the stored set, then children recursively
(mark-attribute checks reduce to `checkAttrs` without validators). -/
def Node.check : Node → Except PMErr Unit
  | .mk t a c m _ => do
      let _ ← if t.validContent c then Except.ok ()
        else Except.error (PMErr.rangeError ("Invalid content for node " ++ t.name))
      let _ ← checkAttrs t.attrs a
      let _ ← checkMarksAttrs m
      let copy := m.foldl (fun acc mk => Mark.addToSet mk acc) []
      let _ ← if Mark.sameSet copy m then Except.ok ()
        else Except.error (PMErr.rangeError ("Invalid collection of marks for node " ++ t.name))
      Fragment.checkList c

/-- The recursive `content.forEach(node => node.check())`. -/
def Fragment.checkList : List Node → Except PMErr Unit
  | [] => .ok ()
  | n :: ns => do
      let _ ← Node.check n
      Fragment.checkList ns
end

/-! Derived predicates (well-formedness of values as the JS runtime
guarantees it, and observable invariants), plus the concrete example schema
used by witnesses and counterexamples. -/

/-- Whether an Except value is a success. -/
def exceptOk {ε α : Type} : Except ε α → Bool
  | .ok _ => true
  | .error _ => false

/-- JS objects cannot carry duplicate property names; association lists
modelling them satisfy this predicate. -/
def keysUnique : List (String × JValue) → Bool
  | [] => true
  | (k, _) :: rest => !(rest.any (fun kv => kv.fst == k)) && keysUnique rest

mutual
/-- Well-formedness of a `JValue` as the image of a JS value: every object
level has unique keys. -/
def JValue.wf : JValue → Bool
  | .null => true
  | .bool _ => true
  | .num _ => true
  | .str _ => true
  | .arr xs => JValue.wfList xs
  | .obj fs => keysUnique fs && JValue.wfFields fs

/-- `JValue.wf` on every array element. -/
def JValue.wfList : List JValue → Bool
  | [] => true
  | x :: xs => JValue.wf x && JValue.wfList xs

/-- `JValue.wf` on every field value. -/
def JValue.wfFields : List (String × JValue) → Bool
  | [] => true
  | (_, v) :: fs => JValue.wf v && JValue.wfFields fs
end

/-- Well-formedness of an attribute object. -/
def attrsWF (a : Attrs) : Bool := JValue.wf (.obj a)

/-- Well-formedness of a mark as a runtime value: its attribute object is a
JS object. -/
def Mark.wf (m : Mark) : Bool := attrsWF m.attrs

/-- The fragment invariant stated by the spec: no two adjacent children may
be text nodes with the same markup (the merge condition of `fromArray`,
`append` and `addNode`). -/
def textJoined : List Node → Bool
  | a :: b :: rest => !(b.isText && Node.sameMarkup a b) && textJoined (b :: rest)
  | _ => true

mutual
/-- Structural well-formedness of a node as only the public constructors
can produce it: text nodes (`text = some s`) have the text type, a
non-empty string and no content; other nodes do not have the text type;
attribute objects (of the node and its marks) are JS objects; adjacent
same-markup text children are merged; and the same holds below. -/
def Node.wfNode : Node → Bool
  | .mk t a c m tx =>
      (match tx with
       | some s => t.isText && !s.isEmpty && c.isEmpty
       | none => !t.isText) &&
      attrsWF a && m.all Mark.wf && textJoined c && Fragment.wfList c

/-- `Node.wfNode` on every child. -/
def Fragment.wfList : List Node → Bool
  | [] => true
  | n :: ns => Node.wfNode n && Fragment.wfList ns
end

/-- Rank-sortedness of a mark array (mark sets are ordered by the
schema-assigned rank). -/
def marksSorted : List Mark → Bool
  | a :: b :: rest => decide (a.type.rank ≤ b.type.rank) && marksSorted (b :: rest)
  | _ => true

/-- Deduplication of a mark array: no two members are `Mark.eq`. -/
def marksDedup : List Mark → Bool
  | [] => true
  | a :: rest => !(rest.any (fun b => Mark.eq a b)) && marksDedup rest

/-- Insertion before the first member of strictly greater rank (the
spec-side description of where `addToSet` places the new mark). -/
def insertBeforeGreater (m : Mark) : List Mark → List Mark
  | [] => [m]
  | x :: xs => if x.type.rank > m.type.rank then m :: x :: xs else x :: insertBeforeGreater m xs

/-- Spec-side description of the non-trivial outcome of `Mark.addToSet`
(written from the claim, for comparison with the source translation):
remove every member the new mark's type excludes, then insert the mark
before the first member of strictly greater rank. -/
def addToSetSpec (m : Mark) (set : List Mark) : List Mark :=
  insertBeforeGreater m (set.filter (fun x => !(m.type.excludes x.type)))

/-- Positions in `[s, s + oldSize)` for some changed range `(s, oldSize,
newSize)` are inside content the step map deleted; this predicate says the
position is in no such half-open span. -/
def notInsideDeleted (p : Int) : List (Int × Int × Int) → Bool
  | [] => true
  | (s, a, _) :: rest => (decide (p < s) || decide (s + a ≤ p)) && notInsideDeleted p rest

/-- Well-formed step-map ranges, as the step maps of the repository's steps
produce them: non-negative start and sizes, ranges sorted, and consecutive
ranges strictly separated (a `ReplaceStep` map has a single range; the two
ranges of a replace-around map are separated by its preserved gap). -/
def wfRanges : List (Int × Int × Int) → Int → Bool
  | [], _ => true
  | (s, a, b) :: rest, lo =>
      decide (lo ≤ s) && decide (0 ≤ a) && decide (0 ≤ b) && wfRanges rest (s + a + 1)

/-- Example schema: the compiled automaton of the content expression
`paragraph+`. -/
def exPlusAuto : CMAuto := ⟨[⟨false, [("paragraph", 1)]⟩, ⟨true, [("paragraph", 1)]⟩]⟩

/-- Example schema: the compiled automaton of the content expression
`text*`. -/
def exStarAuto : CMAuto := ⟨[⟨true, [("text", 0)]⟩]⟩

/-- Example schema: the compiled automaton of the content expression
`paragraph` (exactly one). -/
def exOneAuto : CMAuto := ⟨[⟨false, [("paragraph", 1)]⟩, ⟨true, []⟩]⟩

/-- Example schema: the text node type. -/
def exTextType : NodeType := ⟨"text", [], CMAuto.empty, true, none, [], true, false⟩

/-- Example schema: a paragraph type with content `text*`. -/
def exParaType : NodeType := ⟨"paragraph", [], exStarAuto, false, none, [], false, true⟩

/-- Example schema: a non-text leaf type (no content expression), like a
horizontal rule. -/
def exHrType : NodeType := ⟨"hr", [], CMAuto.empty, true, none, [], false, false⟩

/-- Example schema: a document type with content `paragraph+`. -/
def exDocType : NodeType := ⟨"doc", [], exPlusAuto, false, none, [], false, false⟩

/-- Example schema: a document type with content `paragraph` (exactly
one). -/
def exDocType1 : NodeType := ⟨"doc", [], exOneAuto, false, none, [], false, false⟩

/-- An example text node. -/
def exText (s : String) : Node := .mk exTextType [] [] [] (some s)

/-- An example paragraph node. -/
def exPara (s : String) : Node := .mk exParaType [] [exText s] [] none

/-- An example non-text leaf node. -/
def exHr : Node := .mk exHrType [] [] [] none

/-- The example document `doc(paragraph("ab"), paragraph("cd"))`. -/
def exDoc : Node := .mk exDocType [] [exPara "ab", exPara "cd"] [] none

/-- An example document `doc(paragraph("ab"))` whose type requires exactly
one paragraph. -/
def exDoc1 : Node := .mk exDocType1 [] [exPara "ab"] [] none

/-- The example schema object. -/
def exSchema : Schema := ⟨[exDocType, exParaType, exTextType], []⟩

/-- Whether a computation escaped with an exception of the `ReplaceError`
class (rather than returning, or raising a `RangeError`/other error). -/
def escapedReplaceError {α : Type} : Except PMErr α → Bool
  | .error (.replaceError _) => true
  | _ => false

/-- Example mark types in the style of the basic schema: emphasis, strong
and code, with schema-assigned ranks 0, 1, 2 and no exclusions. -/
def exEmType : MarkType := ⟨"em", 0, [], []⟩

/-- Example strong mark type (rank 1). -/
def exStrongType : MarkType := ⟨"strong", 1, [], []⟩

/-- Example code mark type (rank 2). -/
def exCodeType : MarkType := ⟨"code", 2, [], []⟩

/-- An emphasis mark with empty attributes. -/
def exEm : Mark := ⟨exEmType, []⟩

/-- A strong mark with empty attributes. -/
def exStrong : Mark := ⟨exStrongType, []⟩

/-- A code mark with empty attributes. -/
def exCode : Mark := ⟨exCodeType, []⟩

/-- Well-formedness of a node's own markup values: its attribute object and
the attribute objects of its marks are JS objects. -/
def Node.wfMarkup (n : Node) : Bool := attrsWF n.attrs && n.marks.all Mark.wf

/-- The condition under which the loop of mark.ts `Mark.addToSet` takes one
of its early `return set` exits: the new mark is `eq` to a member, or some
member's type excludes the new mark's type while the new mark's type does
not exclude that member's type (in which case the new mark is silently
dropped rather than raising an error). -/
def addToSetKeeps (m : Mark) (set : List Mark) : Bool :=
  set.any (fun x =>
    Mark.eq m x || (x.type.excludes m.type && !(m.type.excludes x.type)))

/-- Strict rank-sortedness of a mark array (no ties), as `addToSet` builds
it for distinct mark types. -/
def marksStrictSorted : List Mark → Bool
  | a :: b :: rest => decide (a.type.rank < b.type.rank) && marksStrictSorted (b :: rest)
  | _ => true

/-- A mark as the schema builds it: its type is the interned type of that
name, and its attribute object has exactly the type's attribute names in
table order. -/
def Mark.canonical (S : Schema) (m : Mark) : Prop :=
  S.markType? m.type.name = some m.type ∧
  m.attrs.map Prod.fst = m.type.attrs.map Prod.fst ∧
  keysUnique m.attrs = true

mutual
/-- A node as the schema builds it: interned node type, canonical marks in
strict rank order, attribute object with exactly the type's attribute names
in table order (for a text node, the type's default attributes, which is
all `schema.text` can produce), and the same below. -/
def Node.canonical (S : Schema) : Node → Prop
  | .mk t a c m tx =>
      S.nodeType? t.name = some t ∧
      (∀ mk ∈ m, Mark.canonical S mk) ∧
      marksStrictSorted m = true ∧
      (match tx with
       | some _ => a = (NodeType.defaultAttrs t).getD []
       | none => a.map Prod.fst = t.attrs.map Prod.fst ∧ keysUnique a = true) ∧
      Fragment.canonicalList S c

/-- `Node.canonical` on every child. -/
def Fragment.canonicalList (S : Schema) : List Node → Prop
  | [] => True
  | n :: ns => Node.canonical S n ∧ Fragment.canonicalList S ns
end

/-- The chaining property of a resolved position's path: the node of each
triple contains the node of the next triple at the recorded child index. -/
def pathLinks : List (Node × Nat × Nat) → Prop
  | [] => True
  | (n, i, _) :: rest =>
      (match rest with
       | [] => True
       | (n2, _, _) :: _ => n.content.get? i = some n2) ∧ pathLinks rest

/-! ## Lemmas and claim theorems -/

/-- A fragment's size is the sum of its children's sizes. -/
theorem Fragment.size_eq_sum (c : List Node) :
    Fragment.size c = (List.map Node.nodeSize c).sum := by
  induction c with
  | nil => rfl
  | cons n ns ih => simp [Fragment.size, ih]

/-- C7: the claim's size law fails on non-text leaf nodes: a leaf node such
as a horizontal rule is not a text node, yet its `nodeSize` is 1, not
`2 + (sum of child sizes) = 2`. -/
theorem C7_counterexample_leaf_size :
    Node.isText exHr = false ∧ Node.text exHr = none ∧
    Node.nodeSize exHr ≠ 2 + Fragment.size (Node.content exHr) := by
  refine ⟨rfl, rfl, ?_⟩
  decide

/-- C7 (amended): a node's `nodeSize` is the stored string's length for
text nodes, 1 for other leaf nodes, and 2 plus the sum of the children's
sizes for non-leaf nodes. -/
theorem C7_nodeSize_characterisation (n : Node) :
    Node.nodeSize n =
      match Node.text n with
      | some s => s.length
      | none =>
          if Node.isLeaf n then 1
          else 2 + (List.map Node.nodeSize (Node.content n)).sum := by
  cases n with
  | mk t a c m tx =>
      cases tx with
      | some s => rfl
      | none => simp [Node.nodeSize, Node.text, Node.isLeaf, Node.content, Node.type,
          Fragment.size_eq_sum]

/-- C3: `replace` fails, before any tree construction, with the distinct
`ReplaceError` "Inserted content deeper than insertion position" when the
slice's `openStart` exceeds the from-position's depth, and with the
distinct `ReplaceError` "Inconsistent open depths" when the two positions'
depth-minus-openness values disagree. -/
theorem C3_replace_open_depth_checks (f t : ResolvedPos) (s : Slice) :
    (s.openStart > f.depth →
      replace f t s =
        .error (.replaceError "Inserted content deeper than insertion position")) ∧
    (¬ s.openStart > f.depth →
      (f.depth : Int) - s.openStart ≠ (t.depth : Int) - s.openEnd →
      replace f t s = .error (.replaceError "Inconsistent open depths")) := by
  constructor
  · intro h
    simp [replace, h]
  · intro h1 h2
    simp [replace, h1, h2]

/-- C3 witness: both failure kinds observed at concrete inputs. -/
theorem C3_replace_open_depth_checks_witness :
    replace ⟨0, [(exDoc, 0, 0)], 0⟩ ⟨0, [(exDoc, 0, 0)], 0⟩ ⟨[], 1, 0⟩ =
      .error (.replaceError "Inserted content deeper than insertion position") ∧
    replace ⟨0, [(exDoc, 0, 0)], 0⟩ ⟨0, [(exDoc, 0, 0)], 0⟩ ⟨[], 0, 1⟩ =
      .error (.replaceError "Inconsistent open depths") :=
  ⟨(C3_replace_open_depth_checks _ _ _).1 (by decide),
   (C3_replace_open_depth_checks _ _ _).2 (by decide) (by decide)⟩

/-- C2 counterexample: deleting the only paragraph of a document whose type
requires exactly one paragraph makes the spliced content invalid for the
enclosing `doc` node; `ReplaceStep.apply` then lets the `RangeError` from
`checkContent` escape instead of returning a tagged failure. -/
theorem C2_counterexample_apply_escapes :
    ReplaceStep.apply ⟨0, 4, Slice.empty, false⟩ exDoc1 =
      .error (.rangeError "Invalid content for node doc") := by
  rfl

/-- C2 (amended): `apply` never lets an exception of the `ReplaceError`
class escape — those are converted into tagged failures; the exceptions
that do escape (out-of-range positions, invalid re-validated content) are
of other classes (`RangeError`). -/
theorem C2_apply_never_escapes_replaceError (s : ReplaceStep) (doc : Node) :
    escapedReplaceError (ReplaceStep.apply s doc) = false := by
  unfold ReplaceStep.apply
  have h : escapedReplaceError (StepResult.fromReplace doc s.from_ s.to_ s.slice) = false := by
    unfold StepResult.fromReplace
    cases hr : Node.replace doc s.from_ s.to_ s.slice with
    | ok d => rfl
    | error e => cases e <;> rfl
  split
  · split <;> first | rfl | exact h
  · exact h

/-- A node's height is positive. -/
theorem Node.height_pos (n : Node) : 0 < Node.height n := by
  cases n with
  | mk t a c m tx => simp [Node.height]

/-- A member's height is at most the fragment's height. -/
theorem Fragment.height_le_of_mem {c : List Node} {n : Node} (h : n ∈ c) :
    Node.height n ≤ Fragment.height c := by
  induction c with
  | nil => cases h
  | cons x xs ih =>
      rcases List.mem_cons.mp h with h1 | h2
      · subst h1; exact le_max_left _ _
      · exact le_trans (ih h2) (le_max_right _ _)

/-- Members of a well-formed fragment are well-formed nodes. -/
theorem Fragment.wfList_mem {c : List Node} {n : Node}
    (hw : Fragment.wfList c = true) (h : n ∈ c) : Node.wfNode n = true := by
  induction c with
  | nil => cases h
  | cons x xs ih =>
      simp only [Fragment.wfList, Bool.and_eq_true] at hw
      rcases List.mem_cons.mp h with h1 | h2
      · subst h1; exact hw.1
      · exact ih hw.2 h2

/-- The search loop of `findIndex` finds, for a position strictly inside
the remaining children, either an exact child boundary (offset equal to the
position) or the child the position falls strictly into. -/
theorem Fragment.findIndexLoop_spec (pos : Nat) :
    ∀ (content : List Node) (i curPos : Nat),
      curPos < pos → pos ≤ curPos + Fragment.size content →
      ∃ k off, Fragment.findIndexLoop content pos i curPos = some (i + k, off) ∧
        (off = pos ∨
          (off < pos ∧ ∃ child, content.get? k = some child ∧
            pos < off + Node.nodeSize child)) := by
  intro content
  induction content with
  | nil =>
      intro i curPos h1 h2
      simp only [Fragment.size] at h2
      omega
  | cons child rest ih =>
      intro i curPos h1 h2
      simp only [Fragment.findIndexLoop]
      by_cases hle : pos ≤ curPos + Node.nodeSize child
      · simp only [if_pos hle]
        by_cases heq : curPos + Node.nodeSize child = pos
        · refine ⟨1, curPos + Node.nodeSize child, ?_, Or.inl heq⟩
          simp [heq]
        · refine ⟨0, curPos, ?_, Or.inr ⟨h1, child, rfl, by omega⟩⟩
          simp [heq]
      · simp only [if_neg hle]
        have h2' : pos ≤ (curPos + Node.nodeSize child) + Fragment.size rest := by
          simp only [Fragment.size] at h2
          omega
        obtain ⟨k, off, heq, hsh⟩ := ih (i + 1) (curPos + Node.nodeSize child)
          (by omega) h2'
        refine ⟨k + 1, off, ?_, ?_⟩
        · rw [heq]
          congr 2
          omega
        · rcases hsh with h | ⟨ho, c2, hg, hlt⟩
          · exact Or.inl h
          · exact Or.inr ⟨ho, c2, by simpa using hg, hlt⟩

/-- `findIndex` succeeds on every position within the fragment, returning
an offset at most the position; when the offset is strictly below the
position, the indexed child exists and the position falls strictly inside
it. -/
theorem Fragment.findIndex_spec (content : List Node) (pos : Nat)
    (h : pos ≤ Fragment.size content) :
    ∃ i off, Fragment.findIndex content pos = some (i, off) ∧ off ≤ pos ∧
      (off < pos → ∃ child, content.get? i = some child ∧
        pos < off + Node.nodeSize child) := by
  unfold Fragment.findIndex
  by_cases h0 : pos = 0
  · refine ⟨0, pos, by simp [h0], le_refl _, by omega⟩
  · by_cases hs : pos = Fragment.size content
    · refine ⟨content.length, pos, ?_, le_refl _, by omega⟩
      have hb : (pos == 0) = false := by simp [h0]
      have hb2 : (pos == Fragment.size content) = true := by simp [hs]
      simp [hb, hb2]
    · have hlt : pos < Fragment.size content := by omega
      obtain ⟨k, off, heq, hsh⟩ :=
        Fragment.findIndexLoop_spec pos content 0 0 (by omega) (by omega)
      have hgt : ¬ pos > Fragment.size content := by omega
      refine ⟨k, off, ?_, ?_, ?_⟩
      · have hb : (pos == 0) = false := by simp [h0]
        have hb2 : (pos == Fragment.size content) = false := by simp [hs]
        simpa [hb, hb2, hgt] using heq
      · rcases hsh with h | ⟨ho, _⟩ <;> omega
      · intro hofflt
        rcases hsh with h | ⟨_, child, hg, hltc⟩
        · omega
        · exact ⟨child, hg, hltc⟩

/-- The resolve descent succeeds whenever the offset is within the node's
content, the node is well-formed, and the fuel is at least the node's
height; the returned object records the requested position. -/
theorem ResolvedPos.resolveLoop_ok (pos : Nat) :
    ∀ (fuel : Nat) (node : Node) (parentOffset start_ : Nat)
      (path : List (Node × Nat × Nat)),
      Node.wfNode node = true →
      parentOffset ≤ Fragment.size node.content →
      Node.height node ≤ fuel →
      ∃ rp, ResolvedPos.resolveLoop pos fuel node parentOffset start_ path = .ok rp ∧
        rp.pos = pos := by
  intro fuel
  induction fuel with
  | zero =>
      intro node _ _ _ _ _ hf
      have := Node.height_pos node
      omega
  | succ fuel ih =>
      intro node parentOffset start_ path hwf hle _hfuel
      obtain ⟨index, offset, hfi, hoff, hin⟩ :=
        Fragment.findIndex_spec node.content parentOffset hle
      simp only [ResolvedPos.resolveLoop, hfi]
      by_cases hrem : parentOffset - offset = 0
      · have hb : (parentOffset - offset == 0) = true := by simp [hrem]
        simp only [hb]
        exact ⟨⟨pos, path ++ [(node, index, start_ + offset)], parentOffset⟩, rfl, rfl⟩
      · have hb : (parentOffset - offset == 0) = false := by simp [hrem]
        have hofflt : offset < parentOffset := by omega
        obtain ⟨child, hget, hinside⟩ := hin hofflt
        have hmem : child ∈ node.content := List.get?_mem hget
        simp only [hb, hget]
        by_cases htext : child.isText
        · simp only [htext]
          exact ⟨⟨pos, path ++ [(node, index, start_ + offset)], parentOffset⟩, rfl, rfl⟩
        · have htf : child.isText = false := by simpa using htext
          simp only [htf]
          have hcwf : Node.wfNode child = true := by
            cases node with
            | mk t a c m tx =>
                simp only [Node.wfNode, Bool.and_eq_true] at hwf
                exact Fragment.wfList_mem hwf.2 hmem
          have htx : child.text = none := by
            cases child with
            | mk t a c m tx =>
                cases tx with
                | none => rfl
                | some str =>
                    simp only [Node.wfNode, Bool.and_eq_true] at hcwf
                    exact absurd hcwf.1.1.1.1.1.1 (by simpa [Node.isText, Node.type] using htext)
          have hsz : parentOffset - offset < Node.nodeSize child := by omega
          have hszc : parentOffset - offset - 1 ≤ Fragment.size child.content := by
            cases child with
            | mk t a c m tx =>
                cases tx with
                | some str => simp [Node.text] at htx
                | none =>
                    simp only [Node.nodeSize] at hsz
                    simp only [Node.content]
                    by_cases hl : t.isLeaf = true
                    · simp [hl] at hsz
                      omega
                    · simp [hl] at hsz
                      omega
          have hh : Node.height child ≤ fuel := by
            have h1 : Node.height child ≤ Fragment.height node.content :=
              Fragment.height_le_of_mem hmem
            have h2 : Fragment.height node.content < Node.height node := by
              cases node with
              | mk t a c m tx => simp [Node.height, Node.content]
            omega
          exact ih child (parentOffset - offset - 1) (start_ + offset + 1) _ hcwf hszc hh

/-- C9: resolving an integer offset against a (well-formed) tree raises
exactly when the offset is outside `[0, content.size]`; on every in-range
offset it succeeds with a `ResolvedPos` whose `pos` is the offset and whose
`depth` is the number of path triples minus one (the source's
`path.length / 3 - 1`, the path being stored three slots per depth). -/
theorem C9_resolve_characterisation (doc : Node) (p : Int)
    (hwf : Node.wfNode doc = true) :
    ((p < 0 ∨ (Fragment.size (Node.content doc) : Int) < p) →
      ∃ msg, ResolvedPos.resolve doc p = .error msg) ∧
    (0 ≤ p → p ≤ (Fragment.size (Node.content doc) : Int) →
      ∃ rp, ResolvedPos.resolve doc p = .ok rp ∧ (rp.pos : Int) = p ∧
        rp.depth = rp.path.length - 1) := by
  constructor
  · intro h
    refine ⟨"Position out of range", ?_⟩
    unfold ResolvedPos.resolve
    have : ¬ (0 ≤ p ∧ p ≤ (Fragment.size (Node.content doc) : Int)) := by omega
    simp [this]
  · intro h0 hsz
    have hle : p.toNat ≤ Fragment.size doc.content := by omega
    obtain ⟨rp, heq, hpos⟩ := ResolvedPos.resolveLoop_ok p.toNat (Node.height doc)
      doc p.toNat 0 [] hwf hle (le_refl _)
    refine ⟨rp, ?_, ?_, rfl⟩
    · unfold ResolvedPos.resolve
      have : 0 ≤ p ∧ p ≤ (Fragment.size (Node.content doc) : Int) := ⟨h0, hsz⟩
      simp only [if_pos this]
      exact heq
    · omega

/-- C9 witness: both halves at concrete inputs (offset 9 is out of range
for the example document of size 8; offset 2 resolves). -/
theorem C9_resolve_characterisation_witness :
    (∃ msg, ResolvedPos.resolve exDoc 9 = .error msg) ∧
    (∃ rp, ResolvedPos.resolve exDoc 2 = .ok rp ∧ (rp.pos : Int) = 2 ∧
      rp.depth = rp.path.length - 1) :=
  ⟨(C9_resolve_characterisation exDoc 9 (by decide)).1 (by decide),
   (C9_resolve_characterisation exDoc 2 (by decide)).2 (by decide) (by decide)⟩

/-- Unfolding of the forward (`inverted = false`) `mapGo` on a range. -/
theorem StepMap.mapGo_false_cons (p assoc s a b diff : Int)
    (rest : List (Int × Int × Int)) :
    StepMap.mapGo false p assoc ((s, a, b) :: rest) diff =
      if s > p then p + diff
      else if p ≤ s + a then
        s + diff + (if (if a == 0 then assoc else if p == s then (-1 : Int)
          else if p == s + a then 1 else assoc) < 0 then 0 else b)
      else StepMap.mapGo false p assoc rest (diff + (b - a)) := by
  simp [StepMap.mapGo]

/-- Unfolding of the inverted (`inverted = true`) `mapGo` on a range. -/
theorem StepMap.mapGo_true_cons (p assoc s a b diff : Int)
    (rest : List (Int × Int × Int)) :
    StepMap.mapGo true p assoc ((s, a, b) :: rest) diff =
      if s - diff > p then p + diff
      else if p ≤ s - diff + b then
        (s - diff) + diff + (if (if b == 0 then assoc else if p == s - diff then (-1 : Int)
          else if p == s - diff + b then 1 else assoc) < 0 then 0 else a)
      else StepMap.mapGo true p assoc rest (diff + (a - b)) := by
  simp [StepMap.mapGo]

/-- Forward mapping never falls below the lower bound of the well-formed
ranges (plus the accumulated difference). -/
theorem StepMap.mapGo_lower_bound (p : Int) :
    ∀ (ranges : List (Int × Int × Int)) (lo d : Int),
      wfRanges ranges lo = true → lo ≤ p →
      lo + d ≤ StepMap.mapGo false p 1 ranges d := by
  intro ranges
  induction ranges with
  | nil =>
      intro lo d _ hp
      simp only [StepMap.mapGo]
      omega
  | cons head rest ih =>
      obtain ⟨s, a, b⟩ := head
      intro lo d hwf hp
      simp only [wfRanges, Bool.and_eq_true, decide_eq_true_eq] at hwf
      obtain ⟨⟨⟨hlo, ha⟩, hb⟩, hrest⟩ := hwf
      rw [StepMap.mapGo_false_cons]
      by_cases hgt : s > p
      · rw [if_pos hgt]; omega
      · rw [if_neg hgt]
        by_cases hin : p ≤ s + a
        · rw [if_pos hin]
          split <;> omega
        · rw [if_neg hin]
          have hrec := ih (s + a + 1) (d + (b - a)) hrest (by omega)
          omega

/-- Mapping forward with the default association and then through the
inverted map recovers any position outside the deleted spans (the
accumulated differences of the two passes stay opposite). -/
theorem StepMap.mapGo_roundtrip (p : Int) :
    ∀ (ranges : List (Int × Int × Int)) (lo dF : Int),
      wfRanges ranges lo = true → notInsideDeleted p ranges = true →
      StepMap.mapGo true (StepMap.mapGo false p 1 ranges dF) 1 ranges (-dF) = p := by
  intro ranges
  induction ranges with
  | nil =>
      intro lo dF _ _
      simp only [StepMap.mapGo]
      omega
  | cons head rest ih =>
      obtain ⟨s, a, b⟩ := head
      intro lo dF hwf hni
      simp only [wfRanges, Bool.and_eq_true, decide_eq_true_eq] at hwf
      obtain ⟨⟨⟨hlo, ha⟩, hb⟩, hrest⟩ := hwf
      simp only [notInsideDeleted, Bool.and_eq_true, Bool.or_eq_true,
        decide_eq_true_eq] at hni
      obtain ⟨hni1, hnir⟩ := hni
      rw [StepMap.mapGo_false_cons]
      by_cases hcase1 : s > p
      · -- the position lies before this range: both passes skip everything
        rw [if_pos hcase1, StepMap.mapGo_true_cons]
        rw [if_pos (by omega)]
        omega
      · rw [if_neg hcase1]
        by_cases hcase2 : p ≤ s + a
        · -- p = s + a (the old end): forward maps to the new end of the
          -- range, and the inverted pass maps that back
          have hpe : p = s + a := by omega
          rw [if_pos hcase2]
          have hfwd : (if (if a == 0 then (1 : Int) else if p == s then (-1 : Int)
              else if p == s + a then 1 else 1) < 0 then (0 : Int) else b) = b := by
            by_cases ha0 : a = 0
            · simp [ha0]
            · have hanz : (a == 0) = false := by simpa using ha0
              have hps : (p == s) = false := by simp only [beq_eq_false_iff_ne]; omega
              have hpe2 : (p == s + a) = true := by simpa using hpe
              simp [hanz, hps, hpe2]
          rw [hfwd, StepMap.mapGo_true_cons]
          rw [if_neg (by omega), if_pos (by omega)]
          have hside : (if (if b == 0 then (1 : Int)
              else if s + dF + b == s - -dF then (-1 : Int)
              else if s + dF + b == s - -dF + b then 1 else 1) < 0 then (0 : Int)
              else a) = a := by
            by_cases hb0 : b = 0
            · simp [hb0]
            · have hbnz : (b == 0) = false := by simpa using hb0
              have h1 : (s + dF + b == s - -dF) = false := by
                simp only [beq_eq_false_iff_ne]; omega
              have h2 : (s + dF + b == s - -dF + b) = true := by
                simp only [beq_iff_eq]; omega
              simp [hbnz, h1, h2, hb0]
          rw [hside]
          omega
        · -- p lies beyond this range: the forward pass skips it; the lower
          -- bound shows the inverted pass skips it too
          rw [if_neg hcase2]
          have hplo : s + a + 1 ≤ p := by omega
          have hlb := StepMap.mapGo_lower_bound p rest (s + a + 1) (dF + (b - a))
            hrest hplo
          rw [StepMap.mapGo_true_cons]
          rw [if_neg (by omega), if_neg (by omega)]
          have hgoal := ih (s + a + 1) (dF + (b - a)) hrest hnir
          have harg : -dF + (a - b) = -(dF + (b - a)) := by omega
          rw [harg]
          exact hgoal

/-- C5: for the (well-formed, strictly separated) changed ranges a step's
map records — a `ReplaceStep` records one range, and the other step kinds
record none or gap-separated ones — mapping a position that is not inside a
deleted span forward and then through the inverted map recovers it. -/
theorem C5_stepmap_invert_roundtrip (ranges : List (Int × Int × Int)) (p : Int)
    (hwf : wfRanges ranges 0 = true) (hni : notInsideDeleted p ranges = true) :
    (StepMap.mk ranges false).invert.map ((StepMap.mk ranges false).map p 1) 1 = p := by
  have h := StepMap.mapGo_roundtrip p ranges 0 0 hwf hni
  simpa [StepMap.map, StepMap.invert] using h

/-- C5 witness: the map of `ReplaceStep(2, 5, slice of size 1)` recovers
position 7 (which lies after the replaced range). -/
theorem C5_stepmap_invert_roundtrip_witness :
    (ReplaceStep.getMap ⟨2, 5, ⟨[exText "x"], 0, 0⟩, false⟩).invert.map
      ((ReplaceStep.getMap ⟨2, 5, ⟨[exText "x"], 0, 0⟩, false⟩).map 7 1) 1 = 7 :=
  C5_stepmap_invert_roundtrip [(2, 5 - 2, Slice.size ⟨[exText "x"], 0, 0⟩)] 7
    (by decide) (by decide)

/-- In a duplicate-free field list, membership determines the lookup. -/
theorem lookupField_of_mem {k : String} {v : JValue} {fs : List (String × JValue)}
    (hu : keysUnique fs = true) (hm : (k, v) ∈ fs) : lookupField k fs = some v := by
  induction fs with
  | nil => cases hm
  | cons hd tl ih =>
      obtain ⟨k2, v2⟩ := hd
      simp only [keysUnique, Bool.and_eq_true] at hu
      rcases List.mem_cons.mp hm with he | ht
      · cases he
        simp [lookupField]
      · simp only [lookupField]
        by_cases hk : (k2 == k) = true
        · exfalso
          have hany : tl.any (fun kv => kv.fst == k2) = true := by
            refine List.any_eq_true.mpr ⟨(k, v), ht, ?_⟩
            have : k2 = k := by simpa using hk
            simp [this]
          have := hu.1
          simp [hany] at this
        · simp only [hk, if_false]
          exact ih hu.2 ht

/-- A lookup result is a member with that key. -/
theorem mem_of_lookupField {k : String} {v : JValue} {fs : List (String × JValue)}
    (h : lookupField k fs = some v) : (k, v) ∈ fs := by
  induction fs with
  | nil => simp [lookupField] at h
  | cons hd tl ih =>
      obtain ⟨k2, v2⟩ := hd
      simp only [lookupField] at h
      by_cases hk : (k2 == k) = true
      · simp only [hk, if_true] at h
        cases h
        have : k2 = k := by simpa using hk
        subst this
        exact List.mem_cons_self _ _
      · simp only [hk, if_false] at h
        exact List.mem_cons_of_mem _ (ih h)

/-- Field values of a well-formed object are well-formed. -/
theorem JValue.wfFields_mem {fs : List (String × JValue)} {k : String} {v : JValue}
    (hw : JValue.wfFields fs = true) (hm : (k, v) ∈ fs) : JValue.wf v = true := by
  induction fs with
  | nil => cases hm
  | cons hd tl ih =>
      obtain ⟨k2, v2⟩ := hd
      simp only [JValue.wfFields, Bool.and_eq_true] at hw
      rcases List.mem_cons.mp hm with he | ht
      · cases he
        exact hw.1
      · exact ih hw.2 ht

/-- Elements of a well-formed array value are well-formed. -/
theorem JValue.wfList_elem {xs : List JValue} {x : JValue}
    (hw : JValue.wfList xs = true) (hm : x ∈ xs) : JValue.wf x = true := by
  induction xs with
  | nil => cases hm
  | cons hd tl ih =>
      simp only [JValue.wfList, Bool.and_eq_true] at hw
      rcases List.mem_cons.mp hm with he | ht
      · cases he
        exact hw.1
      · exact ih hw.2 ht

/-- `compareDeep` is reflexive on well-formed values (on objects this uses
that every key's lookup returns the paired value). -/
theorem compareDeep_refl :
    ∀ (n : Nat) (a : JValue), sizeOf a ≤ n → JValue.wf a = true →
      compareDeep a a = true := by
  intro n
  induction n using Nat.strong_induction_on with
  | _ n ih =>
      intro a hsz hwf
      cases a with
      | null => rfl
      | bool b => simp [compareDeep]
      | num x => simp [compareDeep]
      | str x => simp [compareDeep]
      | arr xs =>
          simp only [compareDeep]
          simp only [JValue.wf] at hwf
          have hsub : ∀ x ∈ xs, compareDeep x x = true := by
            intro x hx
            have h1 : sizeOf x < sizeOf (JValue.arr xs) := by
              have := List.sizeOf_lt_of_mem hx
              simp only [JValue.arr.sizeOf_spec]
              omega
            exact ih (sizeOf x) (by omega) x (le_refl _) (JValue.wfList_elem hwf hx)
          clear hwf hsz
          induction xs with
          | nil => rfl
          | cons hd tl ihl =>
              simp only [compareDeepList]
              rw [hsub hd (List.mem_cons_self _ _),
                ihl (fun x hx => hsub x (List.mem_cons_of_mem _ hx))]
              rfl
      | obj fs =>
          simp only [compareDeep, JValue.wf, Bool.and_eq_true] at hwf ⊢
          constructor
          · have hsub : ∀ kv ∈ fs, compareDeep kv.snd kv.snd = true := by
              intro kv hkv
              have h1 : sizeOf kv.snd < sizeOf (JValue.obj fs) := by
                have h2 := List.sizeOf_lt_of_mem hkv
                have h3 : sizeOf kv.snd < sizeOf kv := by
                  obtain ⟨k, v⟩ := kv
                  simp
                simp only [JValue.obj.sizeOf_spec]
                omega
              exact ih (sizeOf kv.snd) (by omega) kv.snd (le_refl _)
                (JValue.wfFields_mem hwf.2 hkv)
            have hlk : ∀ kv ∈ fs, lookupField kv.fst fs = some kv.snd := by
              intro kv hkv
              exact lookupField_of_mem hwf.1 (by simpa using hkv)
            clear hwf hsz
            -- the scan over the keys of the left copy, looked up in the
            -- whole object
            have main : ∀ (xs : List (String × JValue)),
                (∀ kv ∈ xs, lookupField kv.fst fs = some kv.snd) →
                (∀ kv ∈ xs, compareDeep kv.snd kv.snd = true) →
                compareDeepFields xs fs = true := by
              intro xs
              induction xs with
              | nil => intro _ _; rfl
              | cons hd tl ihx =>
                  intro hl hc
                  obtain ⟨k, v⟩ := hd
                  have h1 := hl (k, v) (List.mem_cons_self _ _)
                  have h2 : compareDeep v v = true := hc (k, v) (List.mem_cons_self _ _)
                  simp [compareDeepFields, h1, h2,
                    ihx (fun kv h => hl kv (List.mem_cons_of_mem _ h))
                      (fun kv h => hc kv (List.mem_cons_of_mem _ h))]
            exact main fs hlk hsub
          · refine List.all_eq_true.mpr ?_
            intro kv hkv
            obtain ⟨k, v⟩ := kv
            have := lookupField_of_mem hwf.1 (by simpa using hkv)
            simp [hasField, this]

/-- The key-by-key scan `compareDeepFields` succeeds exactly when every
key of the left object has a `compareDeep`-equal value in the right one. -/
theorem compareDeepFields_forall {xs ys : List (String × JValue)} :
    compareDeepFields xs ys = true ↔
      ∀ kv ∈ xs, ∃ w, lookupField kv.fst ys = some w ∧
        compareDeep kv.snd w = true := by
  induction xs with
  | nil => simp [compareDeepFields]
  | cons hd tl ih =>
      obtain ⟨k, v⟩ := hd
      simp only [compareDeepFields, Bool.and_eq_true, ih]
      constructor
      · rintro ⟨h1, h2⟩
        intro kv hkv
        rcases List.mem_cons.mp hkv with he | ht
        · subst he
          revert h1
          cases hl : lookupField k ys with
          | none => intro h; cases h
          | some w => intro h; exact ⟨w, rfl, h⟩
        · exact h2 kv ht
      · intro h
        constructor
        · obtain ⟨w, hl, hc⟩ := h (k, v) (List.mem_cons_self _ _)
          simp only at hl
          rw [hl]
          exact hc
        · exact fun kv ht => h kv (List.mem_cons_of_mem _ ht)

/-- Unfolding of `compareDeep` on two objects. -/
theorem compareDeep_obj (xs ys : List (String × JValue)) :
    compareDeep (.obj xs) (.obj ys) =
      (compareDeepFields xs ys && ys.all (fun kv => hasField kv.fst xs)) := rfl

/-- `compareDeep` is symmetric on well-formed values. -/
theorem compareDeep_symm :
    ∀ (n : Nat) (a b : JValue), sizeOf a ≤ n →
      JValue.wf a = true → JValue.wf b = true →
      compareDeep a b = true → compareDeep b a = true := by
  intro n
  induction n using Nat.strong_induction_on with
  | _ n ih =>
      intro a b hsz hwa hwb hab
      cases a with
      | null =>
          cases b with
          | null => rfl
          | bool _ => exact absurd hab (by simp [compareDeep])
          | num _ => exact absurd hab (by simp [compareDeep])
          | str _ => exact absurd hab (by simp [compareDeep])
          | arr _ => exact absurd hab (by simp [compareDeep])
          | obj _ => exact absurd hab (by simp [compareDeep])
      | bool x =>
          cases b with
          | bool y =>
              simp only [compareDeep] at hab ⊢
              simp at hab
              simp [hab]
          | null => exact absurd hab (by simp [compareDeep])
          | num _ => exact absurd hab (by simp [compareDeep])
          | str _ => exact absurd hab (by simp [compareDeep])
          | arr _ => exact absurd hab (by simp [compareDeep])
          | obj _ => exact absurd hab (by simp [compareDeep])
      | num x =>
          cases b with
          | num y =>
              simp only [compareDeep] at hab ⊢
              simp at hab
              simp [hab]
          | null => exact absurd hab (by simp [compareDeep])
          | bool _ => exact absurd hab (by simp [compareDeep])
          | str _ => exact absurd hab (by simp [compareDeep])
          | arr _ => exact absurd hab (by simp [compareDeep])
          | obj _ => exact absurd hab (by simp [compareDeep])
      | str x =>
          cases b with
          | str y =>
              simp only [compareDeep] at hab ⊢
              simp at hab
              simp [hab]
          | null => exact absurd hab (by simp [compareDeep])
          | bool _ => exact absurd hab (by simp [compareDeep])
          | num _ => exact absurd hab (by simp [compareDeep])
          | arr _ => exact absurd hab (by simp [compareDeep])
          | obj _ => exact absurd hab (by simp [compareDeep])
      | arr xs =>
          cases b with
          | null => exact absurd hab (by simp [compareDeep])
          | bool _ => exact absurd hab (by simp [compareDeep])
          | num _ => exact absurd hab (by simp [compareDeep])
          | str _ => exact absurd hab (by simp [compareDeep])
          | obj _ => exact absurd hab (by simp [compareDeep])
          | arr ys
          =>
          simp only [compareDeep] at hab ⊢
          simp only [JValue.wf] at hwa hwb
          have hsub : ∀ x ∈ xs, ∀ y ∈ ys, compareDeep x y = true →
              compareDeep y x = true := by
            intro x hx y hy hxy
            have h1 : sizeOf x < sizeOf (JValue.arr xs) := by
              have := List.sizeOf_lt_of_mem hx
              simp only [JValue.arr.sizeOf_spec]
              omega
            exact ih (sizeOf x) (by omega) x y (le_refl _)
              (JValue.wfList_elem hwa hx) (JValue.wfList_elem hwb hy) hxy
          clear hwa hwb hsz
          revert hab
          revert hsub
          revert ys
          induction xs with
          | nil =>
              intro ys hsub hab
              cases ys with
              | nil => rfl
              | cons y ys2 => cases hab
          | cons x xs2 ihl =>
              intro ys hsub hab
              cases ys with
              | nil => cases hab
              | cons y ys2 =>
                  simp only [compareDeepList, Bool.and_eq_true] at hab ⊢
                  refine ⟨hsub x (List.mem_cons_self _ _) y (List.mem_cons_self _ _) hab.1, ?_⟩
                  exact ihl ys2 (fun u hu w hw => hsub u (List.mem_cons_of_mem _ hu) w
                    (List.mem_cons_of_mem _ hw)) hab.2
      | obj xs =>
          cases b with
          | null => exact absurd hab (by simp [compareDeep])
          | bool _ => exact absurd hab (by simp [compareDeep])
          | num _ => exact absurd hab (by simp [compareDeep])
          | str _ => exact absurd hab (by simp [compareDeep])
          | arr _ => exact absurd hab (by simp [compareDeep])
          | obj ys
          =>
          rw [compareDeep_obj] at hab ⊢
          simp only [Bool.and_eq_true, List.all_eq_true] at hab ⊢
          obtain ⟨hfw, hkeys⟩ := hab
          simp only [JValue.wf, Bool.and_eq_true] at hwa hwb
          constructor
          · rw [compareDeepFields_forall]
            intro kv hkv
            obtain ⟨k, w⟩ := kv
            have hhas : hasField k xs = true := hkeys (k, w) hkv
            simp only [hasField, Option.isSome_iff_exists] at hhas
            obtain ⟨v, hv⟩ := hhas
            have hmemv : (k, v) ∈ xs := mem_of_lookupField hv
            obtain ⟨w2, hw2, hcvw2⟩ := (compareDeepFields_forall.mp hfw) (k, v) hmemv
            have hw2w : w2 = w := by
              have := lookupField_of_mem hwb.1 hkv
              simp only at hw2 this
              rw [this] at hw2
              cases hw2
              rfl
            subst hw2w
            refine ⟨v, hv, ?_⟩
            have h1 : sizeOf v < sizeOf (JValue.obj xs) := by
              have h2 := List.sizeOf_lt_of_mem hmemv
              have h3 : sizeOf v < sizeOf ((k, v) : String × JValue) := by simp
              simp only [JValue.obj.sizeOf_spec]
              omega
            exact ih (sizeOf v) (by omega) v w2 (le_refl _)
              (JValue.wfFields_mem hwa.2 hmemv) (JValue.wfFields_mem hwb.2 hkv) hcvw2
          · intro kv hkv
            obtain ⟨w, hw, _⟩ := (compareDeepFields_forall.mp hfw) kv hkv
            simp [hasField, hw]

/-- `compareDeep` is transitive. -/
theorem compareDeep_trans :
    ∀ (n : Nat) (a b c : JValue), sizeOf a ≤ n →
      compareDeep a b = true → compareDeep b c = true →
      compareDeep a c = true := by
  intro n
  induction n using Nat.strong_induction_on with
  | _ n ih =>
      intro a b c hsz hab hbc
      cases a with
      | null =>
          cases b with
          | null => exact hbc
          | bool _ => exact absurd hab (by simp [compareDeep])
          | num _ => exact absurd hab (by simp [compareDeep])
          | str _ => exact absurd hab (by simp [compareDeep])
          | arr _ => exact absurd hab (by simp [compareDeep])
          | obj _ => exact absurd hab (by simp [compareDeep])
      | bool x =>
          cases b with
          | null => exact absurd hab (by simp [compareDeep])
          | num _ => exact absurd hab (by simp [compareDeep])
          | str _ => exact absurd hab (by simp [compareDeep])
          | arr _ => exact absurd hab (by simp [compareDeep])
          | obj _ => exact absurd hab (by simp [compareDeep])
          | bool y =>
          cases c with
          | null => exact absurd hbc (by simp [compareDeep])
          | num _ => exact absurd hbc (by simp [compareDeep])
          | str _ => exact absurd hbc (by simp [compareDeep])
          | arr _ => exact absurd hbc (by simp [compareDeep])
          | obj _ => exact absurd hbc (by simp [compareDeep])
          | bool z =>
          simp only [compareDeep] at hab hbc ⊢
          simp at hab hbc
          simp [hab, hbc]
      | num x =>
          cases b with
          | null => exact absurd hab (by simp [compareDeep])
          | bool _ => exact absurd hab (by simp [compareDeep])
          | str _ => exact absurd hab (by simp [compareDeep])
          | arr _ => exact absurd hab (by simp [compareDeep])
          | obj _ => exact absurd hab (by simp [compareDeep])
          | num y =>
          cases c with
          | null => exact absurd hbc (by simp [compareDeep])
          | bool _ => exact absurd hbc (by simp [compareDeep])
          | str _ => exact absurd hbc (by simp [compareDeep])
          | arr _ => exact absurd hbc (by simp [compareDeep])
          | obj _ => exact absurd hbc (by simp [compareDeep])
          | num z =>
          simp only [compareDeep] at hab hbc ⊢
          simp at hab hbc
          simp [hab, hbc]
      | str x =>
          cases b with
          | null => exact absurd hab (by simp [compareDeep])
          | bool _ => exact absurd hab (by simp [compareDeep])
          | num _ => exact absurd hab (by simp [compareDeep])
          | arr _ => exact absurd hab (by simp [compareDeep])
          | obj _ => exact absurd hab (by simp [compareDeep])
          | str y =>
          cases c with
          | null => exact absurd hbc (by simp [compareDeep])
          | bool _ => exact absurd hbc (by simp [compareDeep])
          | num _ => exact absurd hbc (by simp [compareDeep])
          | arr _ => exact absurd hbc (by simp [compareDeep])
          | obj _ => exact absurd hbc (by simp [compareDeep])
          | str z =>
          simp only [compareDeep] at hab hbc ⊢
          simp at hab hbc
          simp [hab, hbc]
      | arr xs =>
          cases b with
          | null => exact absurd hab (by simp [compareDeep])
          | bool _ => exact absurd hab (by simp [compareDeep])
          | num _ => exact absurd hab (by simp [compareDeep])
          | str _ => exact absurd hab (by simp [compareDeep])
          | obj _ => exact absurd hab (by simp [compareDeep])
          | arr ys =>
          cases c with
          | null => exact absurd hbc (by simp [compareDeep])
          | bool _ => exact absurd hbc (by simp [compareDeep])
          | num _ => exact absurd hbc (by simp [compareDeep])
          | str _ => exact absurd hbc (by simp [compareDeep])
          | obj _ => exact absurd hbc (by simp [compareDeep])
          | arr zs =>
          simp only [compareDeep] at hab hbc ⊢
          have hsub : ∀ x ∈ xs, ∀ y z, compareDeep x y = true →
              compareDeep y z = true → compareDeep x z = true := by
            intro x hx y z hxy hyz
            have h1 : sizeOf x < sizeOf (JValue.arr xs) := by
              have := List.sizeOf_lt_of_mem hx
              simp only [JValue.arr.sizeOf_spec]
              omega
            exact ih (sizeOf x) (by omega) x y z (le_refl _) hxy hyz
          clear hsz
          revert hbc
          revert hab
          revert hsub
          revert zs
          revert ys
          induction xs with
          | nil =>
              intro ys zs hsub hab hbc
              cases ys with
              | nil => cases zs with
                | nil => rfl
                | cons _ _ => cases hbc
              | cons _ _ => cases hab
          | cons x xs2 ihl =>
              intro ys zs hsub hab hbc
              cases ys with
              | nil => cases hab
              | cons y ys2 =>
                  cases zs with
                  | nil => cases hbc
                  | cons z zs2 =>
                      simp only [compareDeepList, Bool.and_eq_true] at hab hbc ⊢
                      refine ⟨hsub x (List.mem_cons_self _ _) y z hab.1 hbc.1, ?_⟩
                      exact ihl ys2 zs2 (fun u hu => hsub u (List.mem_cons_of_mem _ hu))
                        hab.2 hbc.2
      | obj xs =>
          cases b with
          | null => exact absurd hab (by simp [compareDeep])
          | bool _ => exact absurd hab (by simp [compareDeep])
          | num _ => exact absurd hab (by simp [compareDeep])
          | str _ => exact absurd hab (by simp [compareDeep])
          | arr _ => exact absurd hab (by simp [compareDeep])
          | obj ys =>
          cases c with
          | null => exact absurd hbc (by simp [compareDeep])
          | bool _ => exact absurd hbc (by simp [compareDeep])
          | num _ => exact absurd hbc (by simp [compareDeep])
          | str _ => exact absurd hbc (by simp [compareDeep])
          | arr _ => exact absurd hbc (by simp [compareDeep])
          | obj zs =>
          rw [compareDeep_obj] at hab hbc ⊢
          simp only [Bool.and_eq_true, List.all_eq_true] at hab hbc ⊢
          obtain ⟨hf1, hk1⟩ := hab
          obtain ⟨hf2, hk2⟩ := hbc
          constructor
          · rw [compareDeepFields_forall]
            intro kv hkv
            obtain ⟨k, v⟩ := kv
            obtain ⟨w, hw, hvw⟩ := (compareDeepFields_forall.mp hf1) (k, v) hkv
            have hmemw : (k, w) ∈ ys := mem_of_lookupField hw
            obtain ⟨u, hu, hwu⟩ := (compareDeepFields_forall.mp hf2) (k, w) hmemw
            refine ⟨u, hu, ?_⟩
            have h1 : sizeOf v < sizeOf (JValue.obj xs) := by
              have h2 := List.sizeOf_lt_of_mem hkv
              have h3 : sizeOf v < sizeOf ((k, v) : String × JValue) := by simp
              simp only [JValue.obj.sizeOf_spec]
              omega
            exact ih (sizeOf v) (by omega) v w u (le_refl _) hvw hwu
          · intro kv hkv
            have hky : hasField kv.fst ys = true := hk2 kv hkv
            simp only [hasField, Option.isSome_iff_exists] at hky
            obtain ⟨w, hw⟩ := hky
            exact hk1 (kv.fst, w) (mem_of_lookupField hw)

/-! ## C10: Mark.addToSet -/

/-- `Mark.eq` is symmetric on well-formed marks. -/
theorem Mark.eq_symm {a b : Mark} (ha : Mark.wf a = true) (hb : Mark.wf b = true)
    (h : Mark.eq a b = true) : Mark.eq b a = true := by
  simp only [Mark.wf, attrsWF] at ha hb
  simp only [Mark.eq, compareDeepAttrs, Bool.and_eq_true, beq_iff_eq] at h ⊢
  exact ⟨h.1.symm, compareDeep_symm (sizeOf (JValue.obj a.attrs)) _ _ (le_refl _) ha hb h.2⟩

/-- Negated form of `Mark.eq` symmetry. -/
theorem Mark.eq_false_symm {a b : Mark} (ha : Mark.wf a = true) (hb : Mark.wf b = true)
    (h : Mark.eq a b = false) : Mark.eq b a = false := by
  cases hba : Mark.eq b a with
  | false => rfl
  | true =>
      have h2 := Mark.eq_symm hb ha hba
      simp [h] at h2

/-- If some remaining member of the set triggers one of the early exits,
the `addToSet` loop returns the original set, whatever its accumulator
state. -/
theorem Mark.addToSetLoop_ret (m : Mark) (set : List Mark) :
    ∀ (rest seen : List Mark) (copy : Option (List Mark)) (placed : Bool),
      rest.any (fun x =>
        Mark.eq m x || (x.type.excludes m.type && !(m.type.excludes x.type))) = true →
      Mark.addToSetLoop m set rest seen copy placed = set := by
  intro rest
  induction rest with
  | nil => intro seen copy placed h; simp at h
  | cons other rest ih =>
      intro seen copy placed h
      simp only [List.any_cons, Bool.or_eq_true, Bool.and_eq_true] at h
      by_cases heq : Mark.eq m other = true
      · simp [Mark.addToSetLoop, heq]
      · have heq' : Mark.eq m other = false := Bool.eq_false_iff.mpr heq
        by_cases hmx : m.type.excludes other.type = true
        · have hrest : rest.any (fun x =>
              Mark.eq m x || (x.type.excludes m.type && !(m.type.excludes x.type))) = true := by
            rcases h with (h | ⟨_, h⟩) | h
            · exact absurd h heq
            · rw [hmx] at h; simp at h
            · exact h
          simp only [Mark.addToSetLoop, heq', hmx]
          simp only [Bool.false_eq_true, if_false, if_true]
          exact ih _ _ _ hrest
        · have hmx' : m.type.excludes other.type = false := Bool.eq_false_iff.mpr hmx
          by_cases hox : other.type.excludes m.type = true
          · simp [Mark.addToSetLoop, heq', hmx', hox]
          · have hox' : other.type.excludes m.type = false := Bool.eq_false_iff.mpr hox
            have hrest : rest.any (fun x =>
                Mark.eq m x || (x.type.excludes m.type && !(m.type.excludes x.type))) = true := by
              rcases h with (h | ⟨h, _⟩) | h
              · exact absurd h heq
              · exact absurd h hox
              · exact h
            by_cases hr : other.type.rank > m.type.rank
            · cases placed with
              | false =>
                  simp only [Mark.addToSetLoop, heq', hmx', hox', hr]
                  simp only [Bool.false_eq_true, if_false, Bool.not_false, Bool.true_and,
                    decide_eq_true_eq, if_true]
                  exact ih _ _ _ hrest
              | true =>
                  simp only [Mark.addToSetLoop, heq', hmx', hox']
                  simp only [Bool.false_eq_true, if_false, Bool.not_true, Bool.false_and,
                    if_true]
                  exact ih _ _ _ hrest
            · have hd : decide (other.type.rank > m.type.rank) = false := decide_eq_false hr
              simp only [Mark.addToSetLoop, heq', hmx', hox']
              simp only [Bool.false_eq_true, if_false, if_true, hd, Bool.and_false]
              exact ih _ _ _ hrest

/-- Once the new mark has been placed and a copy allocated, the rest of the
loop appends every remaining member not excluded by the new mark's type. -/
theorem Mark.addToSetLoop_placed (m : Mark) (set : List Mark) :
    ∀ (rest seen c : List Mark),
      rest.all (fun x =>
        !(Mark.eq m x || (x.type.excludes m.type && !(m.type.excludes x.type)))) = true →
      Mark.addToSetLoop m set rest seen (some c) true =
        c ++ rest.filter (fun x => !(m.type.excludes x.type)) := by
  intro rest
  induction rest with
  | nil => intro seen c h; simp [Mark.addToSetLoop]
  | cons other rest ih =>
      intro seen c h
      simp only [List.all_cons, Bool.and_eq_true, Bool.not_eq_true',
        Bool.or_eq_false_iff, Bool.and_eq_false_iff] at h
      obtain ⟨⟨heq, hx⟩, h2⟩ := h
      have h2' : rest.all (fun x =>
          !(Mark.eq m x || (x.type.excludes m.type && !(m.type.excludes x.type)))) = true := by
        rw [List.all_eq_true] at h2 ⊢
        intro x hxm
        exact h2 x hxm
      by_cases hmx : m.type.excludes other.type = true
      · simp only [Mark.addToSetLoop, heq, hmx]
        simp only [Bool.false_eq_true, if_false, if_true, Option.getD_some]
        rw [ih _ _ h2']
        simp [List.filter_cons, hmx]
      · have hmx' : m.type.excludes other.type = false := Bool.eq_false_iff.mpr hmx
        have hox : other.type.excludes m.type = false := by
          rcases hx with hx | hx
          · exact hx
          · rw [hmx'] at hx
            simp at hx
        simp only [Mark.addToSetLoop, heq, hmx', hox]
        simp only [Bool.false_eq_true, if_false, Bool.not_true, Bool.false_and, if_true]
        rw [ih _ _ h2']
        simp [List.filter_cons, hmx']

/-- While the new mark is unplaced, the loop computes the processed part
followed by the rank-respecting insertion of the new mark into the filtered
remainder.  The side condition ties `seen` to `set` while no copy has been
allocated. -/
theorem Mark.addToSetLoop_unplaced (m : Mark) (set : List Mark) :
    ∀ (rest seen : List Mark) (copy : Option (List Mark)),
      (copy = none → set = seen ++ rest) →
      rest.all (fun x =>
        !(Mark.eq m x || (x.type.excludes m.type && !(m.type.excludes x.type)))) = true →
      Mark.addToSetLoop m set rest seen copy false =
        (copy.getD seen) ++
          insertBeforeGreater m (rest.filter (fun x => !(m.type.excludes x.type))) := by
  intro rest
  induction rest with
  | nil =>
      intro seen copy hc h
      cases copy with
      | none =>
          have hset := hc rfl
          simp only [List.append_nil] at hset
          simp [Mark.addToSetLoop, hset, insertBeforeGreater]
      | some c => simp [Mark.addToSetLoop, insertBeforeGreater]
  | cons other rest ih =>
      intro seen copy hc h
      simp only [List.all_cons, Bool.and_eq_true, Bool.not_eq_true',
        Bool.or_eq_false_iff, Bool.and_eq_false_iff] at h
      obtain ⟨⟨heq, hx⟩, h2⟩ := h
      have h2' : rest.all (fun x =>
          !(Mark.eq m x || (x.type.excludes m.type && !(m.type.excludes x.type)))) = true := by
        rw [List.all_eq_true] at h2 ⊢
        intro x hxm
        exact h2 x hxm
      by_cases hmx : m.type.excludes other.type = true
      · simp only [Mark.addToSetLoop, heq, hmx]
        simp only [Bool.false_eq_true, if_false, if_true]
        rw [ih _ (some (copy.getD seen)) (by intro hh; cases hh) h2']
        simp [List.filter_cons, hmx]
      · have hmx' : m.type.excludes other.type = false := Bool.eq_false_iff.mpr hmx
        have hox : other.type.excludes m.type = false := by
          rcases hx with hx | hx
          · exact hx
          · rw [hmx'] at hx
            simp at hx
        by_cases hr : other.type.rank > m.type.rank
        · simp only [Mark.addToSetLoop, heq, hmx', hox]
          simp only [Bool.false_eq_true, if_false, Bool.not_false, Bool.true_and,
            decide_eq_true_eq, if_true]
          rw [if_pos hr, Mark.addToSetLoop_placed m set rest _ _ h2']
          simp [List.filter_cons, hmx', insertBeforeGreater, hr]
        · simp only [Mark.addToSetLoop, heq, hmx', hox]
          simp only [Bool.false_eq_true, if_false, if_true]
          rw [if_neg (by simp [hr])]
          cases copy with
          | some c =>
              rw [ih _ (some (c ++ [other])) (by intro hh; cases hh) h2']
              simp [List.filter_cons, hmx', insertBeforeGreater, hr]
          | none =>
              have hc' : (none : Option (List Mark)) = none →
                  set = (seen ++ [other]) ++ rest := by
                intro _
                rw [hc rfl]
                simp
              rw [ih _ none hc' h2']
              simp [List.filter_cons, hmx', insertBeforeGreater, hr]

/-- If the keep condition holds, `addToSet` returns the original set. -/
theorem Mark.addToSet_of_keeps (m : Mark) (S : List Mark)
    (h : addToSetKeeps m S = true) : Mark.addToSet m S = S :=
  Mark.addToSetLoop_ret m S S [] none false h

/-- If the keep condition fails, `addToSet` filters out the excluded members
and inserts the mark before the first member of strictly greater rank. -/
theorem Mark.addToSet_of_not_keeps (m : Mark) (S : List Mark)
    (h : addToSetKeeps m S = false) : Mark.addToSet m S = addToSetSpec m S := by
  have hall : S.all (fun x =>
      !(Mark.eq m x || (x.type.excludes m.type && !(m.type.excludes x.type)))) = true := by
    simp only [addToSetKeeps, List.any_eq_false] at h
    rw [List.all_eq_true]
    intro x hx
    rw [Bool.not_eq_true']
    exact Bool.eq_false_iff.mpr (h x hx)
  unfold Mark.addToSet addToSetSpec
  rw [Mark.addToSetLoop_unplaced m S S [] none (fun _ => rfl) hall]
  simp

/-- `marksSorted` is adjacent-pairs sortedness, which for the transitive
rank order coincides with pairwise sortedness. -/
theorem marksSorted_iff_pairwise : ∀ L : List Mark,
    marksSorted L = true ↔ L.Pairwise (fun a b => a.type.rank ≤ b.type.rank)
  | [] => by simp [marksSorted]
  | [a] => by simp [marksSorted]
  | a :: b :: L => by
      rw [marksSorted]
      rw [Bool.and_eq_true, decide_eq_true_eq, marksSorted_iff_pairwise (b :: L)]
      constructor
      · rintro ⟨h1, h2⟩
        refine List.Pairwise.cons ?_ h2
        intro y hy
        rcases List.mem_cons.mp hy with rfl | hy
        · exact h1
        · exact le_trans h1 ((List.pairwise_cons.mp h2).1 y hy)
      · intro hp
        obtain ⟨hhead, htail⟩ := List.pairwise_cons.mp hp
        exact ⟨hhead b (List.mem_cons_self _ _), htail⟩

/-- `marksDedup` coincides with pairwise distinctness under `Mark.eq`. -/
theorem marksDedup_iff_pairwise : ∀ L : List Mark,
    marksDedup L = true ↔ L.Pairwise (fun a b => Mark.eq a b = false)
  | [] => by simp [marksDedup]
  | a :: L => by
      rw [marksDedup]
      rw [Bool.and_eq_true, marksDedup_iff_pairwise L, List.pairwise_cons]
      simp [List.any_eq_false]

/-- Membership after rank insertion: the new mark or an old member. -/
theorem mem_insertBeforeGreater (m : Mark) :
    ∀ (L : List Mark) (y : Mark), y ∈ insertBeforeGreater m L → y = m ∨ y ∈ L := by
  intro L
  induction L with
  | nil => intro y hy; simp [insertBeforeGreater] at hy; exact Or.inl hy
  | cons x xs ih =>
      intro y hy
      rw [insertBeforeGreater] at hy
      by_cases h : x.type.rank > m.type.rank
      · rw [if_pos h] at hy
        rcases List.mem_cons.mp hy with rfl | hy
        · exact Or.inl rfl
        · exact Or.inr hy
      · rw [if_neg h] at hy
        rcases List.mem_cons.mp hy with rfl | hy
        · exact Or.inr (List.mem_cons_self _ _)
        · rcases ih y hy with hm | hx
          · exact Or.inl hm
          · exact Or.inr (List.mem_cons_of_mem _ hx)

/-- Rank insertion preserves pairwise sortedness. -/
theorem insertBeforeGreater_sorted (m : Mark) :
    ∀ L : List Mark, L.Pairwise (fun a b => a.type.rank ≤ b.type.rank) →
      (insertBeforeGreater m L).Pairwise (fun a b => a.type.rank ≤ b.type.rank) := by
  intro L
  induction L with
  | nil => intro _; simp [insertBeforeGreater]
  | cons x xs ih =>
      intro hp
      obtain ⟨hx, hxs⟩ := List.pairwise_cons.mp hp
      rw [insertBeforeGreater]
      by_cases h : x.type.rank > m.type.rank
      · rw [if_pos h]
        refine List.Pairwise.cons ?_ hp
        intro y hy
        rcases List.mem_cons.mp hy with rfl | hy
        · omega
        · have := hx y hy
          omega
      · rw [if_neg h]
        refine List.Pairwise.cons ?_ (ih hxs)
        intro y hy
        rcases mem_insertBeforeGreater m xs y hy with rfl | hy
        · omega
        · exact hx y hy

/-- Rank insertion of a mark distinct from all members preserves pairwise
distinctness. -/
theorem insertBeforeGreater_dedup (m : Mark) :
    ∀ L : List Mark, (∀ x ∈ L, Mark.eq m x = false) → (∀ x ∈ L, Mark.eq x m = false) →
      L.Pairwise (fun a b => Mark.eq a b = false) →
      (insertBeforeGreater m L).Pairwise (fun a b => Mark.eq a b = false) := by
  intro L
  induction L with
  | nil => intro _ _ _; simp [insertBeforeGreater]
  | cons x xs ih =>
      intro hml hlm hp
      obtain ⟨hx, hxs⟩ := List.pairwise_cons.mp hp
      rw [insertBeforeGreater]
      by_cases h : x.type.rank > m.type.rank
      · rw [if_pos h]
        refine List.Pairwise.cons ?_ hp
        intro y hy
        exact hml y hy
      · rw [if_neg h]
        refine List.Pairwise.cons ?_
          (ih (fun y hy => hml y (List.mem_cons_of_mem _ hy))
              (fun y hy => hlm y (List.mem_cons_of_mem _ hy)) hxs)
        intro y hy
        rcases mem_insertBeforeGreater m xs y hy with rfl | hy
        · exact hlm x (List.mem_cons_self _ _)
        · exact hx y hy

/-- C10: on a rank-sorted, deduplicated set of well-formed marks,
`Mark.addToSet` returns the original set exactly when the mark is `eq` to a
member or some member's type excludes the mark's type without the mark's
type excluding it (the mark is silently dropped, no error); otherwise it
removes every member the mark's type excludes, inserts the mark before the
first member of strictly greater rank, and the result is again rank-sorted
and deduplicated. -/
theorem C10_addToSet_characterisation (m : Mark) (S : List Mark)
    (hm : Mark.wf m = true) (hS : ∀ x ∈ S, Mark.wf x = true)
    (hsorted : marksSorted S = true) (hdedup : marksDedup S = true) :
    (addToSetKeeps m S = true → Mark.addToSet m S = S) ∧
    (addToSetKeeps m S = false →
      Mark.addToSet m S = addToSetSpec m S ∧
      marksSorted (Mark.addToSet m S) = true ∧
      marksDedup (Mark.addToSet m S) = true) := by
  constructor
  · exact Mark.addToSet_of_keeps m S
  · intro h
    have hspec := Mark.addToSet_of_not_keeps m S h
    have hne : ∀ x ∈ S, Mark.eq m x = false := by
      simp only [addToSetKeeps, List.any_eq_false] at h
      intro x hx
      have := h x hx
      simp only [Bool.or_eq_true, not_or] at this
      exact Bool.eq_false_iff.mpr this.1
    refine ⟨hspec, ?_, ?_⟩
    · rw [hspec]
      unfold addToSetSpec
      apply (marksSorted_iff_pairwise _).mpr
      apply insertBeforeGreater_sorted
      exact List.Pairwise.sublist (List.filter_sublist S)
        ((marksSorted_iff_pairwise S).mp hsorted)
    · rw [hspec]
      unfold addToSetSpec
      apply (marksDedup_iff_pairwise _).mpr
      apply insertBeforeGreater_dedup
      · intro x hx
        exact hne x (List.mem_of_mem_filter hx)
      · intro x hx
        have hxS := List.mem_of_mem_filter hx
        exact Mark.eq_false_symm hm (hS x hxS) (hne x hxS)
      · exact List.Pairwise.sublist (List.filter_sublist S)
          ((marksDedup_iff_pairwise S).mp hdedup)

/-- C10 witness: adding a strong mark to the sorted, deduplicated set
consisting of an emphasis and a code mark. -/
theorem C10_addToSet_characterisation_witness :
    (addToSetKeeps exStrong [exEm, exCode] = true →
      Mark.addToSet exStrong [exEm, exCode] = [exEm, exCode]) ∧
    (addToSetKeeps exStrong [exEm, exCode] = false →
      Mark.addToSet exStrong [exEm, exCode] = addToSetSpec exStrong [exEm, exCode] ∧
      marksSorted (Mark.addToSet exStrong [exEm, exCode]) = true ∧
      marksDedup (Mark.addToSet exStrong [exEm, exCode]) = true) :=
  C10_addToSet_characterisation exStrong [exEm, exCode] (by decide) (by decide)
    (by decide) (by decide)


/-! ## C8: merging of adjacent text nodes at fragment construction -/

/-- A list whose `getLast?` is `none` is empty. -/
theorem getLast?_none_eq_nil {α : Type} : ∀ {l : List α}, l.getLast? = none → l = [] := by
  intro l
  induction l with
  | nil => intro _; rfl
  | cons x xs ih =>
      intro h
      cases xs with
      | nil => cases h
      | cons y ys =>
          rw [List.getLast?_cons_cons] at h
          cases ih h

/-- The element delivered by `getLast?` is a member. -/
theorem mem_of_getLast?Eq {α : Type} : ∀ {l : List α} {a : α}, l.getLast? = some a → a ∈ l := by
  intro l
  induction l with
  | nil => intro a h; cases h
  | cons x xs ih =>
      intro a h
      cases xs with
      | nil =>
          simp only [List.getLast?_singleton, Option.some.injEq] at h
          simp [h]
      | cons y ys =>
          rw [List.getLast?_cons_cons] at h
          exact List.mem_cons_of_mem _ (ih h)

/-- A nonempty list is its `dropLast` followed by its last element. -/
theorem eq_dropLast_append {α : Type} : ∀ {l : List α} {a : α},
    l.getLast? = some a → l = l.dropLast ++ [a] := by
  intro l
  induction l with
  | nil => intro a h; cases h
  | cons x xs ih =>
      intro a h
      cases xs with
      | nil =>
          simp only [List.getLast?_singleton, Option.some.injEq] at h
          simp [h]
      | cons y ys =>
          rw [List.getLast?_cons_cons] at h
          have := ih h
          rw [List.dropLast_cons₂, List.cons_append]
          exact congrArg (x :: ·) this

/-- `Mark.eq` is transitive (no well-formedness needed). -/
theorem Mark.eq_trans {a b c : Mark} (hab : Mark.eq a b = true) (hbc : Mark.eq b c = true) :
    Mark.eq a c = true := by
  simp only [Mark.eq, compareDeepAttrs, Bool.and_eq_true, beq_iff_eq] at hab hbc ⊢
  exact ⟨hab.1.trans hbc.1,
    compareDeep_trans (sizeOf (JValue.obj a.attrs)) _ _ _ (le_refl _) hab.2 hbc.2⟩

/-- `Mark.sameSet` is symmetric on well-formed mark arrays. -/
theorem Mark.sameSet_symm : ∀ {xs ys : List Mark}, xs.all Mark.wf = true →
    ys.all Mark.wf = true → Mark.sameSet xs ys = true → Mark.sameSet ys xs = true := by
  intro xs
  induction xs with
  | nil =>
      intro ys _ _ h
      cases ys with
      | nil => rfl
      | cons y ys => simp [Mark.sameSet] at h
  | cons x xs ih =>
      intro ys hx hy h
      cases ys with
      | nil => simp [Mark.sameSet] at h
      | cons y ys =>
          simp only [Mark.sameSet, Bool.and_eq_true] at h ⊢
          simp only [List.all_cons, Bool.and_eq_true] at hx hy
          exact ⟨Mark.eq_symm hx.1 hy.1 h.1, ih hx.2 hy.2 h.2⟩

/-- `Mark.sameSet` is transitive. -/
theorem Mark.sameSet_trans : ∀ {xs ys zs : List Mark}, Mark.sameSet xs ys = true →
    Mark.sameSet ys zs = true → Mark.sameSet xs zs = true := by
  intro xs
  induction xs with
  | nil =>
      intro ys zs h1 h2
      cases ys with
      | nil => exact h2
      | cons y ys => simp [Mark.sameSet] at h1
  | cons x xs ih =>
      intro ys zs h1 h2
      cases ys with
      | nil => simp [Mark.sameSet] at h1
      | cons y ys =>
          cases zs with
          | nil => simp [Mark.sameSet] at h2
          | cons z zs =>
              simp only [Mark.sameSet, Bool.and_eq_true] at h1 h2 ⊢
              exact ⟨Mark.eq_trans h1.1 h2.1, ih h1.2 h2.2⟩

/-- `Node.sameMarkup` is symmetric on nodes with well-formed markup. -/
theorem Node.sameMarkup_symm {a b : Node} (ha : Node.wfMarkup a = true)
    (hb : Node.wfMarkup b = true) (h : Node.sameMarkup a b = true) :
    Node.sameMarkup b a = true := by
  simp only [Node.wfMarkup, Bool.and_eq_true, attrsWF] at ha hb
  simp only [Node.sameMarkup, compareDeepAttrs, Bool.and_eq_true, beq_iff_eq] at h ⊢
  exact ⟨⟨h.1.1.symm,
      compareDeep_symm (sizeOf (JValue.obj (Node.attrs a))) _ _ (le_refl _) ha.1 hb.1 h.1.2⟩,
    Mark.sameSet_symm ha.2 hb.2 h.2⟩

/-- `Node.sameMarkup` is transitive. -/
theorem Node.sameMarkup_trans {a b c : Node} (hab : Node.sameMarkup a b = true)
    (hbc : Node.sameMarkup b c = true) : Node.sameMarkup a c = true := by
  simp only [Node.sameMarkup, compareDeepAttrs, Bool.and_eq_true, beq_iff_eq] at hab hbc ⊢
  exact ⟨⟨hab.1.1.trans hbc.1.1,
      compareDeep_trans (sizeOf (JValue.obj (Node.attrs a))) _ _ _ (le_refl _)
        hab.1.2 hbc.1.2⟩,
    Mark.sameSet_trans hab.2 hbc.2⟩

/-- `sameMarkup` only reads the markup fields of its left argument. -/
theorem Node.sameMarkup_congr_left {a a' b : Node} (ht : Node.type a = Node.type a')
    (hat : Node.attrs a = Node.attrs a') (hm : Node.marks a = Node.marks a') :
    Node.sameMarkup a b = Node.sameMarkup a' b := by
  simp only [Node.sameMarkup, ht, hat, hm]

/-- `sameMarkup` only reads the markup fields of its right argument. -/
theorem Node.sameMarkup_congr_right {a b b' : Node} (ht : Node.type b = Node.type b')
    (hat : Node.attrs b = Node.attrs b') (hm : Node.marks b = Node.marks b') :
    Node.sameMarkup a b = Node.sameMarkup a b' := by
  simp only [Node.sameMarkup, ht, hat, hm]

/-- `withText` keeps the node's markup fields. -/
theorem Node.withText_markup (n : Node) (s : String) :
    Node.type (Node.withText n s) = Node.type n ∧
    Node.attrs (Node.withText n s) = Node.attrs n ∧
    Node.marks (Node.withText n s) = Node.marks n := by
  cases n with
  | mk t a c m tx =>
      rw [Node.withText]
      split
      · exact ⟨rfl, rfl, rfl⟩
      · exact ⟨rfl, rfl, rfl⟩

/-- Appending one node to a fragment preserves and extends the adjacency
chain: characterisation of `textJoined` on a snoc. -/
theorem textJoined_snoc : ∀ (xs : List Node) (a : Node),
    textJoined (xs ++ [a]) =
      (textJoined xs &&
        match xs.getLast? with
        | none => true
        | some l => !(a.isText && Node.sameMarkup l a))
  | [], a => by simp [textJoined]
  | [x], a => by simp [textJoined, Bool.and_comm]
  | x :: y :: rest, a => by
      have ih := textJoined_snoc (y :: rest) a
      simp only [List.cons_append] at ih ⊢
      rw [List.getLast?_cons_cons]
      show (!(y.isText && Node.sameMarkup x y) && textJoined (y :: (rest ++ [a]))) = _
      rw [ih,
        show textJoined (x :: y :: rest) =
          (!(y.isText && Node.sameMarkup x y) && textJoined (y :: rest)) from rfl,
        Bool.and_assoc]

/-- The adjacency chain of a concatenation splits at the seam element. -/
theorem textJoined_seam : ∀ (xs : List Node) (y : Node) (ys : List Node),
    textJoined (xs ++ y :: ys) = (textJoined (xs ++ [y]) && textJoined (y :: ys))
  | [], y, ys => by simp [textJoined]
  | [x], y, ys => by
      rw [show ([x] ++ y :: ys) = x :: y :: ys from rfl,
        show ([x] ++ [y]) = [x, y] from rfl,
        show textJoined (x :: y :: ys) =
          (!(y.isText && Node.sameMarkup x y) && textJoined (y :: ys)) from rfl,
        show textJoined [x, y] =
          (!(y.isText && Node.sameMarkup x y) && textJoined [y]) from rfl,
        show textJoined [y] = true from rfl, Bool.and_true]
  | x :: x2 :: xs, y, ys => by
      have ih := textJoined_seam (x2 :: xs) y ys
      simp only [List.cons_append] at ih ⊢
      show (!(x2.isText && Node.sameMarkup x x2) && textJoined (x2 :: (xs ++ y :: ys))) = _
      rw [ih,
        show textJoined (x :: x2 :: (xs ++ [y])) =
          (!(x2.isText && Node.sameMarkup x x2) && textJoined (x2 :: (xs ++ [y]))) from rfl,
        Bool.and_assoc]


/-- Invariant proof for the loop of `Fragment.fromArray`: if the output
accumulated so far satisfies the adjacency invariant and its last element
carries the markup of the last processed array element, the final fragment
satisfies the invariant.  Requires the array elements to have well-formed
markup and type references drawn from one schema (same name, same node
class). -/
theorem Fragment.fromArrayLoop_textJoined :
    ∀ (rest seen : List Node) (joined : Option (List Node)),
      (∀ n ∈ seen ++ rest, Node.wfMarkup n = true) →
      (∀ x ∈ seen ++ rest, ∀ y ∈ seen ++ rest,
        (Node.type x).name = (Node.type y).name →
        (Node.type x).isText = (Node.type y).isText) →
      textJoined (joined.getD seen) = true →
      (joined.getD seen = [] ↔ seen = []) →
      (∀ o p, (joined.getD seen).getLast? = some o → seen.getLast? = some p →
        Node.type o = Node.type p ∧ Node.attrs o = Node.attrs p ∧
        Node.marks o = Node.marks p) →
      textJoined (Fragment.fromArrayLoop rest seen joined) = true := by
  intro rest
  induction rest with
  | nil =>
      intro seen joined _ _ htj _ _
      simpa [Fragment.fromArrayLoop] using htj
  | cons node rest ih =>
      intro seen joined hwf hco htj hnil hlast
      rcases hgl : seen.getLast? with _ | prev
      · have hseen : seen = [] := getLast?_none_eq_nil hgl
        subst hseen
        have hout : joined.getD [] = [] := hnil.mpr rfl
        simp only [Fragment.fromArrayLoop, List.getLast?_nil, List.nil_append]
        cases joined with
        | none =>
            refine ih [node] none (fun n hn => hwf n (by simpa using hn)) ?_ ?_ ?_ ?_
            · intro x hx y hy
              exact hco x (by simpa using hx) y (by simpa using hy)
            · rfl
            · simp
            · intro o p ho hp
              simp only [Option.getD_none, List.getLast?_singleton,
                Option.some.injEq] at ho hp
              subst ho
              subst hp
              exact ⟨rfl, rfl, rfl⟩
        | some js =>
            have hjs : js = [] := by simpa using hout
            subst hjs
            refine ih [node] (some ([] ++ [node]))
              (fun n hn => hwf n (by simpa using hn)) ?_ ?_ ?_ ?_
            · intro x hx y hy
              exact hco x (by simpa using hx) y (by simpa using hy)
            · rfl
            · simp
            · intro o p ho hp
              simp only [Option.getD_some, List.nil_append, List.getLast?_singleton,
                Option.some.injEq] at ho hp
              subst ho
              subst hp
              exact ⟨rfl, rfl, rfl⟩
      · have hpmem : prev ∈ seen := mem_of_getLast?Eq hgl
        have hsne : seen ≠ [] := by
          intro h
          rw [h] at hgl
          cases hgl
        have houtne : joined.getD seen ≠ [] := fun h => hsne (hnil.mp h)
        obtain ⟨o, ho⟩ : ∃ o, (joined.getD seen).getLast? = some o := by
          cases hq : (joined.getD seen).getLast? with
          | none => exact absurd (getLast?_none_eq_nil hq) houtne
          | some o => exact ⟨o, rfl⟩
        obtain ⟨hot, hoa, hom⟩ := hlast o prev ho hgl
        have hwf' : ∀ n ∈ (seen ++ [node]) ++ rest, Node.wfMarkup n = true := by
          intro n hn
          refine hwf n ?_
          simp only [List.mem_append, List.mem_cons, List.mem_singleton] at hn ⊢
          tauto
        have hco' : ∀ x ∈ (seen ++ [node]) ++ rest, ∀ y ∈ (seen ++ [node]) ++ rest,
            (Node.type x).name = (Node.type y).name →
            (Node.type x).isText = (Node.type y).isText := by
          intro x hx y hy
          refine hco x ?_ y ?_ <;>
            simp only [List.mem_append, List.mem_cons, List.mem_singleton] at hx hy ⊢ <;>
            tauto
        simp only [Fragment.fromArrayLoop, hgl]
        by_cases hm : (node.isText && Node.sameMarkup prev node) = true
        · rw [if_pos hm]
          simp only [ho, Option.getD_some]
          refine ih _ _ hwf' hco' ?_ ?_ ?_
          · -- the merged accumulator still satisfies the invariant
            have hOeq := eq_dropLast_append ho
            have h1 : textJoined ((joined.getD seen).dropLast ++ [o]) = true := by
              rw [← hOeq]
              exact htj
            rw [textJoined_snoc] at h1
            rw [Option.getD_some, textJoined_snoc, Bool.and_eq_true]
            rw [Bool.and_eq_true] at h1
            obtain ⟨h1a, h1b⟩ := h1
            refine ⟨h1a, ?_⟩
            cases hdl : (joined.getD seen).dropLast.getLast? with
            | none => rfl
            | some yl =>
                rw [hdl] at h1b
                cases hq : (Node.isText (Node.withText node
                    (Node.textD o ++ Node.textD node)) &&
                    Node.sameMarkup yl (Node.withText node
                      (Node.textD o ++ Node.textD node))) with
                | false => simp [hq]
                | true =>
                    exfalso
                    obtain ⟨hmt, hma, hmm⟩ :=
                      Node.withText_markup node (Node.textD o ++ Node.textD node)
                    rw [Bool.and_eq_true] at hq hm
                    have hq2 : Node.sameMarkup yl node = true := by
                      rw [← Node.sameMarkup_congr_right hmt hma hmm]
                      exact hq.2
                    have hmemnode : node ∈ seen ++ node :: rest := by simp
                    have hmemprev : prev ∈ seen ++ node :: rest := by
                      simp [List.mem_append, hpmem]
                    have hsym : Node.sameMarkup node prev = true :=
                      Node.sameMarkup_symm (hwf prev hmemprev) (hwf node hmemnode) hm.2
                    have hylprev : Node.sameMarkup yl prev = true :=
                      Node.sameMarkup_trans hq2 hsym
                    have hylo : Node.sameMarkup yl o = true := by
                      rw [Node.sameMarkup_congr_right hot hoa hom]
                      exact hylprev
                    have hname : (Node.type prev).name = (Node.type node).name := by
                      have h3 := hm.2
                      simp only [Node.sameMarkup, Bool.and_eq_true, beq_iff_eq] at h3
                      exact h3.1.1
                    have hprevT : (Node.type prev).isText = true := by
                      rw [hco prev hmemprev node hmemnode hname]
                      simpa [Node.isText] using hm.1
                    have hoT : Node.isText o = true := by
                      simp [Node.isText, hot, hprevT]
                    have h1c : (!(Node.isText o && Node.sameMarkup yl o)) = true := h1b
                    rw [hoT, hylo] at h1c
                    simp at h1c
          · simp
          · intro o' p' ho' hp'
            rw [Option.getD_some, List.getLast?_concat] at ho'
            rw [List.getLast?_concat] at hp'
            cases ho'
            cases hp'
            obtain ⟨hmt, hma, hmm⟩ :=
              Node.withText_markup node (Node.textD o ++ Node.textD node)
            exact ⟨hmt, hma, hmm⟩
        · rw [if_neg hm]
          have hm' : (node.isText && Node.sameMarkup prev node) = false :=
            Bool.eq_false_iff.mpr hm
          have hstep : ∀ j' : Option (List Node),
              j'.getD (seen ++ [node]) = (joined.getD seen) ++ [node] →
              textJoined (Fragment.fromArrayLoop rest (seen ++ [node]) j') = true := by
            intro j' hj'
            refine ih _ _ hwf' hco' ?_ ?_ ?_
            · rw [hj', textJoined_snoc, ho, Bool.and_eq_true]
              refine ⟨htj, ?_⟩
              show (!(Node.isText node && Node.sameMarkup o node)) = true
              rw [Node.sameMarkup_congr_left hot hoa hom, hm']
              rfl
            · rw [hj']
              simp
            · intro o' p' ho' hp'
              rw [hj', List.getLast?_concat] at ho'
              rw [List.getLast?_concat] at hp'
              cases ho'
              cases hp'
              exact ⟨rfl, rfl, rfl⟩
          cases joined with
          | none => exact hstep none (by simp)
          | some js => exact hstep (some (js ++ [node])) (by simp)


/-- `Fragment.fromArray` establishes the adjacency invariant on any array of
well-formed nodes with interned types. -/
theorem Fragment.fromArray_textJoined (l : List Node)
    (hwf : ∀ n ∈ l, Node.wfMarkup n = true)
    (hco : ∀ x ∈ l, ∀ y ∈ l, (Node.type x).name = (Node.type y).name →
      (Node.type x).isText = (Node.type y).isText) :
    textJoined (Fragment.fromArray l) = true := by
  rw [Fragment.fromArray]
  by_cases hl : (l.length == 0) = true
  · rw [if_pos hl]
    rfl
  · rw [if_neg hl]
    refine Fragment.fromArrayLoop_textJoined l [] none
      (fun n hn => hwf n (by simpa using hn))
      (fun x hx y hy => hco x (by simpa using hx) y (by simpa using hy)) rfl (by simp) ?_
    intro o p _ hp
    cases hp

/-- `Fragment.append` preserves the adjacency invariant, merging at the
seam when needed. -/
theorem Fragment.append_textJoined (a b : List Node)
    (hwf : ∀ n ∈ a ++ b, Node.wfMarkup n = true)
    (hco : ∀ x ∈ a ++ b, ∀ y ∈ a ++ b,
      (Node.type x).name = (Node.type y).name →
      (Node.type x).isText = (Node.type y).isText)
    (ha : textJoined a = true) (hb : textJoined b = true) :
    textJoined (Fragment.append a b) = true := by
  rw [Fragment.append.eq_def]
  by_cases hsb : (Fragment.size b == 0) = true
  · rw [if_pos hsb]
    exact ha
  · rw [if_neg hsb]
    by_cases hsa : (Fragment.size a == 0) = true
    · rw [if_pos hsa]
      exact hb
    · rw [if_neg hsa]
      rcases hal : a.getLast? with _ | last
      · have haa : a = [] := getLast?_none_eq_nil hal
        subst haa
        exact absurd rfl hsa
      · cases b with
        | nil => exact absurd rfl hsb
        | cons first brest =>
            show textJoined
              (if (last.isText && Node.sameMarkup last first) = true then
                a.dropLast ++
                  (Node.withText last (Node.textD last ++ Node.textD first)) :: brest
              else a ++ first :: brest) = true
            have hlmem : last ∈ a ++ first :: brest := by
              simp [List.mem_append, mem_of_getLast?Eq hal]
            have hfmem : first ∈ a ++ first :: brest := by simp
            by_cases hm : (last.isText && Node.sameMarkup last first) = true
            · rw [if_pos hm]
              have haeq := eq_dropLast_append hal
              obtain ⟨hmt, hma, hmm⟩ :=
                Node.withText_markup last (Node.textD last ++ Node.textD first)
              rw [textJoined_seam, Bool.and_eq_true]
              constructor
              · rw [textJoined_snoc, Bool.and_eq_true]
                have ha' : textJoined (a.dropLast ++ [last]) = true := by
                  rw [← haeq]
                  exact ha
                rw [textJoined_snoc, Bool.and_eq_true] at ha'
                refine ⟨ha'.1, ?_⟩
                cases hdl : a.dropLast.getLast? with
                | none => rfl
                | some yl =>
                    have hcond : (!(Node.isText last && Node.sameMarkup yl last)) = true := by
                      have h4 := ha'.2
                      rw [hdl] at h4
                      exact h4
                    have e1 : Node.isText (Node.withText last
                        (Node.textD last ++ Node.textD first)) = Node.isText last := by
                      simp [Node.isText, hmt]
                    have e2 : Node.sameMarkup yl (Node.withText last
                        (Node.textD last ++ Node.textD first)) = Node.sameMarkup yl last :=
                      Node.sameMarkup_congr_right hmt hma hmm
                    show (!(Node.isText (Node.withText last
                        (Node.textD last ++ Node.textD first)) &&
                      Node.sameMarkup yl (Node.withText last
                        (Node.textD last ++ Node.textD first)))) = true
                    rw [e1, e2]
                    exact hcond
              · cases brest with
                | nil => rfl
                | cons b1 br2 =>
                    have hbtail : (!(Node.isText b1 && Node.sameMarkup first b1) &&
                        textJoined (b1 :: br2)) = true := hb
                    rw [Bool.and_eq_true] at hbtail
                    show (!(Node.isText b1 && Node.sameMarkup (Node.withText last
                        (Node.textD last ++ Node.textD first)) b1) &&
                      textJoined (b1 :: br2)) = true
                    rw [Bool.and_eq_true]
                    refine ⟨?_, hbtail.2⟩
                    rw [Node.sameMarkup_congr_left hmt hma hmm]
                    cases hq : (Node.isText b1 && Node.sameMarkup last b1) with
                    | false => simp [hq]
                    | true =>
                        exfalso
                        rw [Bool.and_eq_true] at hq
                        rw [Bool.and_eq_true] at hm
                        have hsym : Node.sameMarkup first last = true :=
                          Node.sameMarkup_symm (hwf last hlmem) (hwf first hfmem) hm.2
                        have hfb1 : Node.sameMarkup first b1 = true :=
                          Node.sameMarkup_trans hsym hq.2
                        have hX : (Node.isText b1 && Node.sameMarkup first b1) = true := by
                          rw [Bool.and_eq_true]
                          exact ⟨hq.1, hfb1⟩
                        rw [hX] at hbtail
                        simp at hbtail
            · rw [if_neg hm]
              rw [textJoined_seam, Bool.and_eq_true]
              refine ⟨?_, hb⟩
              rw [textJoined_snoc, Bool.and_eq_true]
              refine ⟨ha, ?_⟩
              rw [hal]
              show (!(Node.isText first && Node.sameMarkup last first)) = true
              cases hq : (Node.isText first && Node.sameMarkup last first) with
              | false => simp [hq]
              | true =>
                  exfalso
                  rw [Bool.and_eq_true] at hq
                  have hname : (Node.type last).name = (Node.type first).name := by
                    have h3 := hq.2
                    simp only [Node.sameMarkup, Bool.and_eq_true, beq_iff_eq] at h3
                    exact h3.1.1
                  have hlT : Node.isText last = true := by
                    have h5 := hco last hlmem first hfmem hname
                    simp only [Node.isText] at hq ⊢
                    rw [h5]
                    exact hq.1
                  exact hm (by rw [Bool.and_eq_true]; exact ⟨hlT, hq.2⟩)

/-- C8: the merge invariant is not enforced by `Fragment.fromJSON`: two
serialized plain text nodes deserialize to two adjacent unmerged text
nodes with the same markup. -/
theorem C8_counterexample_fromJSON :
    Fragment.fromJSON exSchema
        (some [Node.toJSON (exText "a"), Node.toJSON (exText "b")]) =
      .ok [exText "a", exText "b"] ∧
    textJoined [exText "a", exText "b"] = false := by
  constructor
  · rfl
  · rfl

/-- C8 (amended): the merge invariant — no two adjacent children are text
nodes with the same markup — is established by `Fragment.fromArray` and
`Fragment.from` on any node array, and preserved by `Fragment.append` on
fragments already satisfying it (the nodes having well-formed markup values
and type references interned per schema); `Fragment.fromJSON`, by contrast,
does not enforce it. -/
theorem C8_merge_at_entry_points (l a b : List Node)
    (hl1 : ∀ n ∈ l, Node.wfMarkup n = true)
    (hl2 : ∀ x ∈ l, ∀ y ∈ l, (Node.type x).name = (Node.type y).name →
      (Node.type x).isText = (Node.type y).isText)
    (hab1 : ∀ n ∈ a ++ b, Node.wfMarkup n = true)
    (hab2 : ∀ x ∈ a ++ b, ∀ y ∈ a ++ b, (Node.type x).name = (Node.type y).name →
      (Node.type x).isText = (Node.type y).isText)
    (ha : textJoined a = true) (hb : textJoined b = true) :
    textJoined (Fragment.fromArray l) = true ∧
    textJoined (Fragment.from (.array l)) = true ∧
    textJoined (Fragment.append a b) = true :=
  ⟨Fragment.fromArray_textJoined l hl1 hl2,
   Fragment.fromArray_textJoined l hl1 hl2,
   Fragment.append_textJoined a b hab1 hab2 ha hb⟩

/-- C8 witness: two same-markup text nodes, as an array and as two
fragments to concatenate. -/
theorem C8_merge_at_entry_points_witness :
    textJoined (Fragment.fromArray [exText "a", exText "b"]) = true ∧
    textJoined (Fragment.from (.array [exText "a", exText "b"])) = true ∧
    textJoined (Fragment.append [exText "a"] [exText "b"]) = true :=
  C8_merge_at_entry_points [exText "a", exText "b"] [exText "a"] [exText "b"]
    (by decide) (by decide) (by decide) (by decide) (by decide) (by decide)


/-! ## C4: empty replace is the identity -/

/-- A successful bind means both stages succeeded. -/
theorem exceptOk_bind {e a b : Type} {x : Except e a} {f : a → Except e b}
    (h : exceptOk (x >>= f) = true) : ∃ v, x = .ok v ∧ exceptOk (f v) = true := by
  cases x with
  | error err =>
      simp only [Bind.bind, Except.bind, exceptOk] at h
      cases h
  | ok v =>
      refine ⟨v, rfl, ?_⟩
      simpa only [Bind.bind, Except.bind] using h

/-- A checked node has valid content. -/
theorem check_ok_validContent {n : Node} (h : exceptOk (Node.check n) = true) :
    n.type.validContent n.content = true := by
  cases n with
  | mk t a c m tx =>
      rw [Node.check] at h
      cases hv : t.validContent c with
      | true => exact hv
      | false =>
          rw [hv] at h
          simp only [Bool.false_eq_true, if_false] at h
          simp only [Bind.bind, Except.bind, exceptOk] at h
          cases h

/-- Each member of a checked child list is checked. -/
theorem checkList_mem : ∀ {c : List Node} {x : Node},
    exceptOk (Fragment.checkList c) = true → x ∈ c → exceptOk (Node.check x) = true := by
  intro c
  induction c with
  | nil => intro x _ hx; cases hx
  | cons n ns ih =>
      intro x h hx
      rw [Fragment.checkList] at h
      obtain ⟨_, h1, h2⟩ := exceptOk_bind h
      rcases List.mem_cons.mp hx with rfl | hx
      · rw [h1]; rfl
      · exact ih h2 hx

/-- A checked node's children are checked. -/
theorem check_ok_child {n x : Node} (h : exceptOk (Node.check n) = true)
    (hx : x ∈ n.content) : exceptOk (Node.check x) = true := by
  cases n with
  | mk t a c m tx =>
      rw [Node.check] at h
      cases hv : t.validContent c with
      | false =>
          rw [hv] at h
          simp only [Bool.false_eq_true, if_false, Bind.bind, Except.bind, exceptOk] at h
      | true =>
          rw [hv, if_pos rfl] at h
          simp only [Bind.bind, Except.bind] at h
          cases hca : checkAttrs t.attrs a with
          | error e =>
              rw [hca] at h
              simp only [exceptOk] at h
              cases h
          | ok u =>
              rw [hca] at h
              simp only [] at h
              cases hcm : checkMarksAttrs m with
              | error e =>
                  rw [hcm] at h
                  simp only [exceptOk] at h
                  cases h
              | ok u2 =>
                  rw [hcm] at h
                  simp only [] at h
                  cases hs : Mark.sameSet
                      (List.foldl (fun acc mk => Mark.addToSet mk acc) [] m) m with
                  | false =>
                      rw [hs] at h
                      simp only [Bool.false_eq_true, if_false, exceptOk] at h
                  | true =>
                      rw [hs, if_pos rfl] at h
                      exact checkList_mem h hx

/-- Setting an index to the element already there is the identity. -/
theorem set_get?_self {a : Type} : ∀ {c : List a} {i : Nat} {x : a},
    c.get? i = some x → c.set i x = c := by
  intro c
  induction c with
  | nil => intro i x h; cases h
  | cons y ys ih =>
      intro i x h
      cases i with
      | zero =>
          simp only [List.get?] at h
          cases h
          rfl
      | succ i =>
          simp only [List.get?] at h
          simp only [List.set]
          rw [ih h]

/-- `getD` at an in-range index is a member. -/
theorem getD_mem {a : Type} : ∀ {c : List a} {i : Nat} (d : a),
    i < c.length → c.getD i d ∈ c := by
  intro c
  induction c with
  | nil => intro i d h; cases h
  | cons y ys ih =>
      intro i d h
      cases i with
      | zero => exact List.mem_cons_self _ _
      | succ i =>
          simp only [List.length_cons, Nat.succ_lt_succ_iff] at h
          exact List.mem_cons_of_mem _ (ih d h)

/-- `getD` at an in-range index agrees with `get?`. -/
theorem get?_eq_getD {a : Type} : ∀ {c : List a} {i : Nat} (d : a),
    i < c.length → c.get? i = some (c.getD i d) := by
  intro c
  induction c with
  | nil => intro i d h; cases h
  | cons y ys ih =>
      intro i d h
      cases i with
      | zero => rfl
      | succ i =>
          simp only [List.length_cons, Nat.succ_lt_succ_iff] at h
          exact ih d h

/-- Adjacent pairs of a `textJoined` list never satisfy the merge
condition. -/
theorem textJoined_get : ∀ {c : List Node}, textJoined c = true →
    ∀ {i : Nat} {x y : Node}, c.get? i = some x → c.get? (i + 1) = some y →
    (y.isText && Node.sameMarkup x y) = false := by
  intro c
  induction c with
  | nil => intro _ i x y h; cases h
  | cons n ns ih =>
      intro h i x y hx hy
      cases i with
      | zero =>
          cases ns with
          | nil =>
              simp only [List.get?] at hy
              cases hy
          | cons n2 ns2 =>
              simp only [List.get?, Option.some.injEq] at hx hy
              subst hx
              subst hy
              have h' : (!(Node.isText n2 && Node.sameMarkup n n2) &&
                  textJoined (n2 :: ns2)) = true := h
              rw [Bool.and_eq_true, Bool.not_eq_true'] at h'
              exact h'.1
      | succ i =>
          simp only [List.get?] at hx hy
          cases ns with
          | nil => cases hx
          | cons n2 ns2 =>
              have h' : (!(Node.isText n2 && Node.sameMarkup n n2) &&
                  textJoined (n2 :: ns2)) = true := h
              rw [Bool.and_eq_true] at h'
              exact ih h'.2 hx hy

/-- `Mark.eq` is reflexive on well-formed marks. -/
theorem Mark.eq_refl {m : Mark} (h : Mark.wf m = true) : Mark.eq m m = true := by
  simp only [Mark.wf, attrsWF] at h
  simp only [Mark.eq, compareDeepAttrs, Bool.and_eq_true, beq_iff_eq]
  exact ⟨by trivial, compareDeep_refl _ _ (le_refl _) h⟩

/-- `Mark.sameSet` is reflexive on well-formed mark arrays. -/
theorem Mark.sameSet_refl : ∀ {l : List Mark}, l.all Mark.wf = true →
    Mark.sameSet l l = true := by
  intro l
  induction l with
  | nil => intro _; rfl
  | cons m ms ih =>
      intro h
      simp only [List.all_cons, Bool.and_eq_true] at h
      simp only [Mark.sameSet, Bool.and_eq_true]
      exact ⟨Mark.eq_refl h.1, ih h.2⟩

/-- `Node.sameMarkup` is reflexive on nodes with well-formed markup. -/
theorem Node.sameMarkup_refl {n : Node} (h : Node.wfMarkup n = true) :
    Node.sameMarkup n n = true := by
  simp only [Node.wfMarkup, Bool.and_eq_true, attrsWF] at h
  simp only [Node.sameMarkup, compareDeepAttrs, Bool.and_eq_true, beq_iff_eq]
  exact ⟨⟨by trivial, compareDeep_refl _ _ (le_refl _) h.1⟩, Mark.sameSet_refl h.2⟩

/-- Shape facts of a well-formed text node. -/
theorem Node.wfNode_text {t : NodeType} {a : Attrs} {c : List Node}
    {m : List Mark} {s : String}
    (h : Node.wfNode (.mk t a c m (some s)) = true) :
    t.isText = true ∧ c = [] ∧ s.isEmpty = false := by
  simp only [Node.wfNode, Bool.and_eq_true] at h
  have h1 := h.1.1.1.1
  refine ⟨h1.1.1, ?_, ?_⟩
  · simpa using h1.2
  · simpa using h1.1.2

/-- A well-formed non-text node's type is not the text type. -/
theorem Node.wfNode_nontext {t : NodeType} {a : Attrs} {c : List Node}
    {m : List Mark} (h : Node.wfNode (.mk t a c m none) = true) :
    t.isText = false := by
  simp only [Node.wfNode, Bool.and_eq_true] at h
  have h1 := h.1.1.1.1
  simpa using h1

/-- A well-formed node has well-formed markup values. -/
theorem Node.wfNode_wfMarkup {n : Node} (h : Node.wfNode n = true) :
    Node.wfMarkup n = true := by
  cases n with
  | mk t a c m tx =>
      simp only [Node.wfNode, Bool.and_eq_true] at h
      simp only [Node.wfMarkup, Bool.and_eq_true]
      exact ⟨h.1.1.1.2, h.1.1.2⟩

/-- A well-formed node's content satisfies the text-merge invariant. -/
theorem Node.wfNode_textJoined {n : Node} (h : Node.wfNode n = true) :
    textJoined n.content = true := by
  cases n with
  | mk t a c m tx =>
      simp only [Node.wfNode, Bool.and_eq_true] at h
      exact h.1.2

/-- A well-formed node's children are well-formed. -/
theorem Node.wfNode_child {n x : Node} (h : Node.wfNode n = true)
    (hx : x ∈ n.content) : Node.wfNode x = true := by
  cases n with
  | mk t a c m tx =>
      simp only [Node.wfNode, Bool.and_eq_true] at h
      exact Fragment.wfList_mem h.2 hx

/-- Pointwise-reflexive `Fragment.eq`. -/
theorem Fragment.eq_refl_of : ∀ {c : List Node},
    (∀ x ∈ c, Node.eq x x = true) → Fragment.eq c c = true := by
  intro c
  induction c with
  | nil => intro _; rfl
  | cons n ns ih =>
      intro h
      simp only [Fragment.eq, Bool.and_eq_true]
      exact ⟨h n (List.mem_cons_self _ _),
        ih (fun x hx => h x (List.mem_cons_of_mem _ hx))⟩

/-- `Node.eq` is reflexive on well-formed nodes. -/
theorem Node.eq_self_of_wf : ∀ (k : Nat) (n : Node), sizeOf n ≤ k →
    Node.wfNode n = true → Node.eq n n = true := by
  intro k
  induction k using Nat.strong_induction_on with
  | _ k ih =>
      intro n hsz hwf
      have hwm := Node.wfNode_wfMarkup hwf
      cases n with
      | mk t a c m tx =>
          cases tx with
          | some s =>
              simp only [Node.eq]
              rw [Bool.and_eq_true]
              exact ⟨Node.sameMarkup_refl hwm, by simp [Node.text]⟩
          | none =>
              simp only [Node.eq]
              rw [Bool.and_eq_true]
              refine ⟨Node.sameMarkup_refl hwm, Fragment.eq_refl_of ?_⟩
              intro x hx
              have hlt : sizeOf x < sizeOf (Node.mk t a c m none) := by
                have h1 := List.sizeOf_lt_of_mem (by simpa [Node.content] using hx)
                simp only [Node.mk.sizeOf_spec]
                omega
              exact ih (sizeOf x) (by omega) x (le_refl _)
                (Node.wfNode_child hwf hx)


/-- The length of a left slice. -/
theorem strSlice_left_length (s : String) (off : Nat) (h : off ≤ s.length) :
    (strSlice s 0 off).length = off := by
  obtain ⟨data⟩ := s
  simp only [strSlice, String.toList, List.drop_zero, Nat.sub_zero, String.length] at h ⊢
  simp only [List.asString, String.length]
  simp only [List.length_take]
  omega

/-- The length of a right slice. -/
theorem strSlice_right_length (s : String) (off : Nat) (h : off ≤ s.length) :
    (strSlice s off s.length).length = s.length - off := by
  obtain ⟨data⟩ := s
  simp only [strSlice, String.toList, String.length] at h ⊢
  simp only [List.asString, String.length]
  simp only [List.length_take, List.length_drop]
  omega

/-- Splitting a string at an offset and concatenating restores it. -/
theorem strSlice_append (s : String) (off : Nat) (h : off ≤ s.length) :
    strSlice s 0 off ++ strSlice s off s.length = s := by
  have hlen : s.length = s.toList.length := rfl
  unfold strSlice
  rw [List.drop_zero, Nat.sub_zero]
  have hdl : (s.toList.drop off).take (s.length - off) = s.toList.drop off :=
    List.take_of_length_le (by rw [List.length_drop, ← hlen])
  rw [hdl]
  rw [show (s.toList.take off).asString ++ (s.toList.drop off).asString =
    ((s.toList.take off) ++ (s.toList.drop off)).asString from rfl]
  rw [List.take_append_drop]
  rfl

/-- Strings of different lengths are `BEq`-distinct. -/
theorem string_beq_false_of_length {s1 s2 : String} (h : s1.length ≠ s2.length) :
    (s1 == s2) = false := by
  rw [beq_eq_false_iff_ne]
  intro he
  rw [he] at h
  exact h rfl

/-- Cutting a text node on the left of an interior offset. -/
theorem cut_text_left {t : NodeType} {a : Attrs} {m : List Mark} {s : String}
    {off : Nat} (h2 : off < s.length) :
    Node.cut (.mk t a [] m (some s)) 0 off = .mk t a [] m (some (strSlice s 0 off)) := by
  rw [Node.cut]
  have hb : (off == s.length) = false := by
    simp only [beq_eq_false_iff_ne]
    omega
  rw [show ((0 : Nat) == 0 && off == s.length) = false by rw [hb]; simp]
  simp only [Bool.false_eq_true, if_false]
  rw [Node.withText]
  simp only [Node.text, Node.type, Node.attrs, Node.marks]
  have hne : (some s == some (strSlice s 0 off)) = false := by
    have hl := strSlice_left_length s off (by omega)
    have : (s == strSlice s 0 off) = false := string_beq_false_of_length (by omega)
    simpa using this
  rw [hne]
  simp

/-- Cutting a text node on the right of an interior offset. -/
theorem cutFrom_text_right {t : NodeType} {a : Attrs} {m : List Mark} {s : String}
    {off : Nat} (h1 : 0 < off) (h2 : off ≤ s.length) :
    Node.cutFrom (.mk t a [] m (some s)) off =
      .mk t a [] m (some (strSlice s off s.length)) := by
  rw [Node.cutFrom]
  simp only [Node.text]
  rw [Node.cut]
  rw [show ((off == 0) && (s.length == s.length)) = false by
    have : (off == 0) = false := by simp only [beq_eq_false_iff_ne]; omega
    rw [this]; simp]
  simp only [Bool.false_eq_true, if_false]
  rw [Node.withText]
  simp only [Node.text, Node.type, Node.attrs, Node.marks]
  have hne : (some s == some (strSlice s off s.length)) = false := by
    have hl := strSlice_right_length s off h2
    have : (s == strSlice s off s.length) = false := string_beq_false_of_length (by omega)
    simpa using this
  rw [hne]
  simp

/-- `addNode` is plain append when the merge condition fails. -/
theorem addNode_no_merge {child : Node} {target : List Node}
    (h : ∀ last, target.getLast? = some last →
      (child.isText && Node.sameMarkup child last) = false) :
    addNode child target = target ++ [child] := by
  rw [addNode]
  cases hl : target.getLast? with
  | none =>
      rw [getLast?_none_eq_nil hl]
      rfl
  | some last =>
      show (if (child.isText && Node.sameMarkup child last) = true then
          target.dropLast ++ [Node.withText child (Node.textD last ++ Node.textD child)]
        else target ++ [child]) = target ++ [child]
      rw [h last hl]
      simp

/-- `addNode` rejoins the two halves of a split text node. -/
theorem addNode_rejoin {t : NodeType} {a : Attrs} {m : List Mark} {s : String}
    {off : Nat} (target : List Node) (ht : t.isText = true) (h1 : 0 < off)
    (h2 : off < s.length)
    (hwm : Node.wfMarkup (Node.mk t a [] m (some s)) = true) :
    addNode (.mk t a [] m (some (strSlice s off s.length)))
        (target ++ [.mk t a [] m (some (strSlice s 0 off))]) =
      target ++ [.mk t a [] m (some s)] := by
  rw [addNode]
  rw [List.getLast?_concat]
  have hsm : Node.sameMarkup (Node.mk t a [] m (some (strSlice s off s.length)))
      (Node.mk t a [] m (some (strSlice s 0 off))) = true := by
    rw [Node.sameMarkup_congr_right (rfl : (Node.mk t a [] m (some (strSlice s 0 off))).type =
        (Node.mk t a [] m (some (strSlice s off s.length))).type) rfl rfl]
    exact Node.sameMarkup_refl hwm
  show (if (Node.isText (Node.mk t a [] m (some (strSlice s off s.length))) &&
      Node.sameMarkup (Node.mk t a [] m (some (strSlice s off s.length)))
        (Node.mk t a [] m (some (strSlice s 0 off)))) = true then
      (target ++ [Node.mk t a [] m (some (strSlice s 0 off))]).dropLast ++
        [Node.withText (Node.mk t a [] m (some (strSlice s off s.length)))
          (Node.textD (Node.mk t a [] m (some (strSlice s 0 off))) ++
           Node.textD (Node.mk t a [] m (some (strSlice s off s.length))))]
    else (target ++ [Node.mk t a [] m (some (strSlice s 0 off))]) ++
      [Node.mk t a [] m (some (strSlice s off s.length))]) =
    target ++ [Node.mk t a [] m (some s)]
  rw [show Node.isText (Node.mk t a [] m (some (strSlice s off s.length))) = true from ht]
  rw [hsm]
  have htt : ((true && true) = true) := rfl
  rw [if_pos htt]
  rw [List.dropLast_concat]
  rw [show Node.textD (Node.mk t a [] m (some (strSlice s 0 off))) =
    strSlice s 0 off from rfl]
  rw [show Node.textD (Node.mk t a [] m (some (strSlice s off s.length))) =
    strSlice s off s.length from rfl]
  rw [strSlice_append s off (by omega)]
  rw [Node.withText]
  simp only [Node.text, Node.type, Node.attrs, Node.marks]
  have hne : (some (strSlice s off s.length) == some s) = false := by
    have hl := strSlice_right_length s off (by omega)
    have hb : (strSlice s off s.length == s) = false := string_beq_false_of_length (by omega)
    simpa using hb
  rw [hne]
  simp

/-- The `addRange` child loop turns a processed prefix into a longer one. -/
theorem addNodesFrom_take (node : Node)
    (htj : textJoined node.content = true)
    (hwfm : ∀ x ∈ node.content, Node.wfMarkup x = true) :
    ∀ (count j : Nat), j + count ≤ node.content.length →
      addNodesFrom node j count (node.content.take j) =
        node.content.take (j + count) := by
  intro count
  induction count with
  | zero =>
      intro j _
      rw [addNodesFrom]
      simp
  | succ count ih =>
      intro j hlen
      rw [addNodesFrom]
      have hj : j < node.content.length := by omega
      have hget : node.content.get? j = some (node.content.getD j Node.dummy) :=
        get?_eq_getD _ hj
      have hchild : Fragment.child node.content j = node.content.getD j Node.dummy := rfl
      have hstep : addNode (Fragment.child node.content j) (node.content.take j) =
          node.content.take (j + 1) := by
        rw [hchild]
        rw [addNode_no_merge]
        · have hget' := hget
          rw [List.get?_eq_getElem?] at hget'
          rw [List.take_succ, hget']
          rfl
        · intro last hlast
          cases j with
          | zero =>
              simp only [List.take_zero, List.getLast?_nil] at hlast
              cases hlast
          | succ j0 =>
              have hj0 : j0 < node.content.length := by omega
              have hget0 : node.content.get? j0 = some (node.content.getD j0 Node.dummy) :=
                get?_eq_getD _ hj0
              have htake : node.content.take (j0 + 1) =
                  node.content.take j0 ++ [node.content.getD j0 Node.dummy] := by
                have hget0' := hget0
                rw [List.get?_eq_getElem?] at hget0'
                rw [List.take_succ, hget0']
                rfl
              rw [htake, List.getLast?_concat] at hlast
              cases hlast
              have hpair := textJoined_get htj hget0 hget
              cases hq : (Node.isText (node.content.getD (j0 + 1) Node.dummy) &&
                  Node.sameMarkup (node.content.getD (j0 + 1) Node.dummy)
                    (node.content.getD j0 Node.dummy)) with
              | false => rfl
              | true =>
                  exfalso
                  rw [Bool.and_eq_true] at hq
                  have hsym : Node.sameMarkup (node.content.getD j0 Node.dummy)
                      (node.content.getD (j0 + 1) Node.dummy) = true :=
                    Node.sameMarkup_symm
                      (hwfm _ (getD_mem _ hj))
                      (hwfm _ (getD_mem _ hj0))
                      hq.2
                  rw [hq.1, hsym] at hpair
                  simp at hpair
      rw [hstep]
      rw [show j + (count + 1) = (j + 1) + count from by omega]
      exact ih (j + 1) (by omega)


/-- The index found by the `findIndex` loop stays within the fragment. -/
theorem Fragment.findIndexLoop_le (pos : Nat) :
    ∀ (content : List Node) (i curPos k off : Nat),
      Fragment.findIndexLoop content pos i curPos = some (k, off) →
      k ≤ i + content.length := by
  intro content
  induction content with
  | nil => intro i curPos k off h; cases h
  | cons cur rest ih =>
      intro i curPos k off h
      rw [Fragment.findIndexLoop] at h
      by_cases hle : pos ≤ curPos + Node.nodeSize cur
      · rw [if_pos hle] at h
        by_cases heq : (curPos + Node.nodeSize cur == pos) = true
        · rw [heq] at h
          simp only [if_true, Option.some.injEq, Prod.mk.injEq] at h
          simp only [List.length_cons]
          omega
        · rw [Bool.eq_false_iff.mpr heq] at h
          simp only [Bool.false_eq_true, if_false, Option.some.injEq, Prod.mk.injEq] at h
          simp only [List.length_cons]
          omega
      · rw [if_neg hle] at h
        have := ih (i + 1) (curPos + Node.nodeSize cur) k off h
        simp only [List.length_cons]
        omega

/-- The index returned by `findIndex` stays within the fragment. -/
theorem Fragment.findIndex_le {content : List Node} {pos k off : Nat}
    (h : Fragment.findIndex content pos = some (k, off)) : k ≤ content.length := by
  rw [Fragment.findIndex] at h
  by_cases h0 : (pos == 0) = true
  · rw [h0] at h
    simp only [if_true, Option.some.injEq, Prod.mk.injEq] at h
    omega
  · rw [Bool.eq_false_iff.mpr h0] at h
    simp only [Bool.false_eq_true, if_false] at h
    by_cases hs : (pos == Fragment.size content) = true
    · rw [hs] at h
      simp only [if_true, Option.some.injEq, Prod.mk.injEq] at h
      omega
    · rw [Bool.eq_false_iff.mpr hs] at h
      simp only [Bool.false_eq_true, if_false] at h
      by_cases hgt : pos > Fragment.size content
      · rw [if_pos hgt] at h
        cases h
      · rw [if_neg hgt] at h
        have := Fragment.findIndexLoop_le pos content 0 0 k off h
        omega

/-- `getD` at the last position is the last element. -/
theorem getD_last {a : Type} : ∀ {l : List a} {x : a} (d : a),
    l.getLast? = some x → l.getD (l.length - 1) d = x := by
  intro l
  induction l with
  | nil => intro x d h; cases h
  | cons e l ih =>
      intro x d h
      cases l with
      | nil =>
          simp only [List.getLast?_singleton, Option.some.injEq] at h
          simp [h]
      | cons e2 l2 =>
          rw [List.getLast?_cons_cons] at h
          have := ih d h
          simp only [List.length_cons] at this ⊢
          simp only [Nat.add_sub_cancel] at this ⊢
          show (e2 :: l2).getD (l2.length + 1 - 1) d = x
          simpa using this

/-- Reading `pathLinks` through `getD` indexing. -/
theorem pathLinks_getD (d : Node × Nat × Nat) :
    ∀ (l : List (Node × Nat × Nat)), pathLinks l → ∀ k, k + 1 < l.length →
      ((l.getD k d).1).content.get? ((l.getD k d).2.1) = some ((l.getD (k + 1) d).1) := by
  intro l
  induction l with
  | nil => intro _ k hk; cases hk
  | cons e l ih =>
      intro hp k hk
      obtain ⟨n, i, s3⟩ := e
      rw [pathLinks.eq_def] at hp
      simp only [] at hp
      cases k with
      | zero =>
          cases l with
          | nil => simp at hk
          | cons e2 l2 =>
              obtain ⟨n2, i2, s2⟩ := e2
              exact hp.1
      | succ k =>
          simp only [List.length_cons, Nat.succ_lt_succ_iff] at hk
          exact ih hp.2 k hk

/-- The resolve descent: success, plus the full characterisation of the
produced path (chaining, well-formedness, index bounds, and the
text-offset dichotomy at the deepest level). -/
theorem ResolvedPos.resolveLoop_path (pos : Nat) :
    ∀ (fuel : Nat) (node : Node) (parentOffset start_ : Nat)
      (path : List (Node × Nat × Nat)),
      Node.wfNode node = true →
      node.text = none →
      parentOffset ≤ Fragment.size node.content →
      Node.height node ≤ fuel →
      pos = start_ + parentOffset →
      ∃ rp ext, ResolvedPos.resolveLoop pos fuel node parentOffset start_ path = .ok rp ∧
        rp.pos = pos ∧
        rp.path = path ++ ext ∧
        (∃ i0 s0 es, ext = (node, i0, s0) :: es) ∧
        pathLinks ext ∧
        (∀ e ∈ ext, Node.wfNode e.1 = true ∧ e.1.text = none ∧
          e.2.1 ≤ e.1.content.length) ∧
        (∃ ln li ls, ext.getLast? = some (ln, li, ls) ∧
          (pos - ls = 0 ∨
            ∃ child str, ln.content.get? li = some child ∧ child.text = some str ∧
              0 < pos - ls ∧ pos - ls < str.length)) := by
  intro fuel
  induction fuel with
  | zero =>
      intro node _ _ _ _ _ _ _ hf
      have := Node.height_pos node
      omega
  | succ fuel ih =>
      intro node parentOffset start_ path hwf htx hle _hfuel hpos
      obtain ⟨index, offset, hfi, hoff, hin⟩ :=
        Fragment.findIndex_spec node.content parentOffset hle
      have hixle : index ≤ node.content.length := Fragment.findIndex_le hfi
      simp only [ResolvedPos.resolveLoop, hfi]
      by_cases hrem : parentOffset - offset = 0
      · have hb : (parentOffset - offset == 0) = true := by simp [hrem]
        simp only [hb, if_true]
        refine ⟨⟨pos, path ++ [(node, index, start_ + offset)], parentOffset⟩,
          [(node, index, start_ + offset)], rfl, rfl, rfl,
          ⟨index, start_ + offset, [], rfl⟩, ⟨trivial, trivial⟩, ?_, ?_⟩
        · intro e he
          simp only [List.mem_singleton] at he
          subst he
          exact ⟨hwf, htx, hixle⟩
        · exact ⟨node, index, start_ + offset, rfl, Or.inl (by omega)⟩
      · have hb : (parentOffset - offset == 0) = false := by simp [hrem]
        have hofflt : offset < parentOffset := by omega
        obtain ⟨child, hget, hinside⟩ := hin hofflt
        have hmem : child ∈ node.content := List.get?_mem hget
        have hcwf : Node.wfNode child = true := Node.wfNode_child hwf hmem
        simp only [hb, hget]
        by_cases htext : child.isText = true
        · simp only [htext, if_true]
          have hstr : ∃ str, child.text = some str := by
            cases child with
            | mk t2 a2 c2 m2 tx2 =>
                cases tx2 with
                | some str => exact ⟨str, rfl⟩
                | none =>
                    have := Node.wfNode_nontext hcwf
                    rw [show Node.isText (Node.mk t2 a2 c2 m2 none) = t2.isText from rfl,
                      this] at htext
                    cases htext
          obtain ⟨str, hstrv⟩ := hstr
          have hsize : Node.nodeSize child = str.length := by
            cases child with
            | mk t2 a2 c2 m2 tx2 =>
                cases tx2 with
                | some s2 =>
                    simp only [Node.text, Option.some.injEq] at hstrv
                    subst hstrv
                    rfl
                | none => cases hstrv
          refine ⟨⟨pos, path ++ [(node, index, start_ + offset)], parentOffset⟩,
            [(node, index, start_ + offset)], rfl, rfl, rfl,
            ⟨index, start_ + offset, [], rfl⟩, ⟨trivial, trivial⟩, ?_, ?_⟩
          · intro e he
            simp only [List.mem_singleton] at he
            subst he
            exact ⟨hwf, htx, hixle⟩
          · refine ⟨node, index, start_ + offset, rfl,
              Or.inr ⟨child, str, hget, hstrv, by omega, by omega⟩⟩
        · have htf : child.isText = false := Bool.eq_false_iff.mpr htext
          simp only [htf, Bool.false_eq_true, if_false]
          have hctx : child.text = none := by
            cases child with
            | mk t2 a2 c2 m2 tx2 =>
                cases tx2 with
                | none => rfl
                | some s2 =>
                    have := (Node.wfNode_text hcwf).1
                    rw [show Node.isText (Node.mk t2 a2 c2 m2 (some s2)) =
                      t2.isText from rfl, this] at htf
                    cases htf
          have hszc : parentOffset - offset - 1 ≤ Fragment.size child.content := by
            cases child with
            | mk t2 a2 c2 m2 tx2 =>
                cases tx2 with
                | some s2 => cases hctx
                | none =>
                    simp only [Node.nodeSize] at hinside
                    simp only [Node.content]
                    by_cases hl : t2.isLeaf = true
                    · simp [hl] at hinside
                      omega
                    · simp [hl] at hinside
                      omega
          have hh : Node.height child ≤ fuel := by
            have h1 := Fragment.height_le_of_mem hmem
            cases node with
            | mk t2 a2 c2 m2 tx2 =>
                simp only [Node.height] at _hfuel
                simp only [Node.content] at h1
                omega
          obtain ⟨rp, ext, hloop, hrp, hpath, ⟨i0, s0, es, hext⟩, hlinks, hall, hlast⟩ :=
            ih child (parentOffset - offset - 1) (start_ + offset + 1)
              (path ++ [(node, index, start_ + offset)]) hcwf hctx hszc hh (by omega)
          refine ⟨rp, (node, index, start_ + offset) :: ext, hloop, hrp, ?_, ?_, ?_, ?_, ?_⟩
          · rw [hpath]
            simp
          · exact ⟨index, start_ + offset, ext, rfl⟩
          · rw [pathLinks.eq_def]
            constructor
            · rw [hext]
              exact hget
            · exact hlinks
          · intro e he
            rcases List.mem_cons.mp he with rfl | he
            · exact ⟨hwf, htx, hixle⟩
            · exact hall e he
          · obtain ⟨ln, li, ls, hgl, hfacts⟩ := hlast
            refine ⟨ln, li, ls, ?_, hfacts⟩
            rw [hext] at hgl ⊢
            rw [List.getLast?_cons_cons]
            exact hgl


/-- `getD` agrees with a successful `get?`. -/
theorem getD_of_get? {a : Type} : ∀ {c : List a} {i : Nat} {x : a} (d : a),
    c.get? i = some x → c.getD i d = x := by
  intro c
  induction c with
  | nil => intro i x d h; cases h
  | cons y ys ih =>
      intro i x d h
      cases i with
      | zero =>
          simp only [List.get?, Option.some.injEq] at h
          simp [h]
      | succ i =>
          simp only [List.get?] at h
          exact ih d h

/-- `ResolvedPos.resolve` on an in-range position of a well-formed non-text
document: success, with the path characterisation in accessor form. -/
theorem ResolvedPos.resolve_spec (doc : Node) (p : Int)
    (hwf : Node.wfNode doc = true) (htx : doc.text = none)
    (h0 : 0 ≤ p) (hle : p ≤ (Fragment.size doc.content : Int)) :
    ∃ rp, ResolvedPos.resolve doc p = .ok rp ∧
      rp.pos = p.toNat ∧
      rp.node 0 = doc ∧
      (∀ k, k < rp.depth → (rp.node k).content.get? (rp.index k) = some (rp.node (k + 1))) ∧
      (∀ k, k ≤ rp.depth → Node.wfNode (rp.node k) = true ∧ (rp.node k).text = none ∧
        rp.index k ≤ (rp.node k).content.length) ∧
      (rp.textOffset = 0 ∨
        ∃ child str, (rp.node rp.depth).content.get? (rp.index rp.depth) = some child ∧
          child.text = some str ∧ 0 < rp.textOffset ∧ rp.textOffset < str.length) := by
  rw [ResolvedPos.resolve, if_pos ⟨h0, hle⟩]
  obtain ⟨rp, ext, hloop, hrp, hpath, ⟨i0, s0, es, hext⟩, hlinks, hall,
      ln, li, ls, hgl, hfacts⟩ :=
    ResolvedPos.resolveLoop_path p.toNat (Node.height doc) doc p.toNat 0 [] hwf htx
      (by omega) (le_refl _) (by omega)
  rw [List.nil_append] at hpath
  have hlen : 0 < ext.length := by rw [hext]; simp
  have hdep : rp.depth = ext.length - 1 := by
    rw [ResolvedPos.depth, hpath]
  refine ⟨rp, hloop, hrp, ?_, ?_, ?_, ?_⟩
  · rw [ResolvedPos.node, hpath, hext]
    rfl
  · intro k hk
    rw [hdep] at hk
    rw [ResolvedPos.node, ResolvedPos.node, ResolvedPos.index, hpath]
    exact pathLinks_getD (Node.dummy, 0, 0) ext hlinks k (by omega)
  · intro k hk
    rw [hdep] at hk
    have hkl : k < ext.length := by omega
    have hmem := getD_mem (Node.dummy, 0, 0) hkl
    have := hall _ hmem
    rw [ResolvedPos.node, ResolvedPos.index, hpath]
    exact this
  · have hpb : rp.posBefore rp.depth = ls := by
      rw [ResolvedPos.posBefore, hdep, hpath]
      rw [getD_last (Node.dummy, 0, 0) hgl]
    have hnd : rp.node rp.depth = ln := by
      rw [ResolvedPos.node, hdep, hpath]
      rw [getD_last (Node.dummy, 0, 0) hgl]
    have hid : rp.index rp.depth = li := by
      rw [ResolvedPos.index, hdep, hpath]
      rw [getD_last (Node.dummy, 0, 0) hgl]
    have hto : rp.textOffset = p.toNat - ls := by
      rw [ResolvedPos.textOffset, hpb, hrp]
    rcases hfacts with hz | ⟨child, str, hc, hstr, hpos1, hpos2⟩
    · exact Or.inl (by rw [hto]; exact hz)
    · exact Or.inr ⟨child, str, by rw [hnd, hid]; exact hc, hstr,
        by rw [hto]; exact hpos1, by rw [hto]; exact hpos2⟩


/-- `replaceTwoWay` at the shared depth of a doubled position reproduces the
parent's children: the processed prefix, the rejoined halves of a split
text node, and the remaining suffix. -/
theorem replaceTwoWay_self (rp : ResolvedPos) (fuel : Nat)
    (hwfn : Node.wfNode (rp.node rp.depth) = true)
    (hidx : rp.index rp.depth ≤ (rp.node rp.depth).content.length)
    (hto : rp.textOffset = 0 ∨
      ∃ child str, (rp.node rp.depth).content.get? (rp.index rp.depth) = some child ∧
        child.text = some str ∧ 0 < rp.textOffset ∧ rp.textOffset < str.length) :
    replaceTwoWay (fuel + 1) rp rp rp.depth = .ok (rp.node rp.depth).content := by
  have htj : textJoined (rp.node rp.depth).content = true := Node.wfNode_textJoined hwfn
  have hwfm : ∀ x ∈ (rp.node rp.depth).content, Node.wfMarkup x = true :=
    fun x hx => Node.wfNode_wfMarkup (Node.wfNode_child hwfn hx)
  have htk1 : addNodes (rp.node rp.depth) 0 (rp.index rp.depth) [] =
      (rp.node rp.depth).content.take (rp.index rp.depth) := by
    rw [addNodes, Nat.sub_zero]
    have h := addNodesFrom_take (rp.node rp.depth) htj hwfm (rp.index rp.depth) 0
      (by omega)
    simpa using h
  have htk2 : ∀ (j : Nat), j ≤ (rp.node rp.depth).content.length →
      addNodes (rp.node rp.depth) j ((rp.node rp.depth).content.length)
        ((rp.node rp.depth).content.take j) = (rp.node rp.depth).content := by
    intro j hj
    rw [addNodes]
    have h := addNodesFrom_take (rp.node rp.depth) htj hwfm
      ((rp.node rp.depth).content.length - j) j (by omega)
    rw [h, show j + ((rp.node rp.depth).content.length - j) =
      (rp.node rp.depth).content.length from by omega, List.take_length]
  have h1shape : addRange none (some rp) rp.depth [] =
      (if (rp.depth == rp.depth && rp.textOffset ≠ 0) then
        addNode (rp.nodeBefore.getD Node.dummy)
          (addNodes (rp.node rp.depth) 0 (rp.index rp.depth) [])
      else addNodes (rp.node rp.depth) 0 (rp.index rp.depth) []) := rfl
  have h2shape : ∀ (content : List Node), addRange (some rp) none rp.depth content =
      addNodes (rp.node rp.depth)
        (if rp.depth > rp.depth then (rp.index rp.depth + 1, content)
         else if rp.textOffset ≠ 0 then
           (rp.index rp.depth + 1, addNode (rp.nodeAfter.getD Node.dummy) content)
         else (rp.index rp.depth, content)).1
        ((rp.node rp.depth).content.length)
        (if rp.depth > rp.depth then (rp.index rp.depth + 1, content)
         else if rp.textOffset ≠ 0 then
           (rp.index rp.depth + 1, addNode (rp.nodeAfter.getD Node.dummy) content)
         else (rp.index rp.depth, content)).2 := fun content => rfl
  rw [replaceTwoWay]
  rw [if_neg (lt_irrefl rp.depth)]
  simp only [Bind.bind, Except.bind, Pure.pure, Except.pure]
  rcases hto with hz | ⟨child, str, hc, hstr, h1off, h2off⟩
  · -- the position does not fall inside a text node
    have hcond : (rp.depth == rp.depth && decide (rp.textOffset ≠ 0)) = false := by
      rw [hz]
      simp
    rw [h1shape, hcond]
    simp only [Bool.false_eq_true, if_false]
    rw [h2shape, if_neg (lt_irrefl rp.depth), if_neg (by rw [hz]; exact fun h => h rfl)]
    rw [htk1]
    exact congrArg Except.ok (htk2 _ hidx)
  · -- the position splits a text node at an interior offset
    have hchmem : child ∈ (rp.node rp.depth).content := List.get?_mem hc
    have hchwf : Node.wfNode child = true := Node.wfNode_child hwfn hchmem
    have hilt : rp.index rp.depth < (rp.node rp.depth).content.length := by
      cases hq : (rp.node rp.depth).content.get? (rp.index rp.depth) with
      | none => rw [hq] at hc; cases hc
      | some z =>
          by_contra hge
          have : (rp.node rp.depth).content.get? (rp.index rp.depth) = none :=
            List.get?_eq_none.mpr (by omega)
          rw [this] at hc
          cases hc
    cases child with
    | mk t2 a2 c2 m2 tx2 =>
        cases tx2 with
        | none => cases hstr
        | some str2 =>
            have hstr2 : str = str2 := by
              have := hstr
              simp only [Node.text, Option.some.injEq] at this
              exact this.symm
            subst hstr2
            obtain ⟨ht2, hc2, _⟩ := Node.wfNode_text hchwf
            subst hc2
            -- shapes of the boundary nodes
            have hchild : Fragment.child (rp.node rp.depth).content (rp.index rp.depth) =
                Node.mk t2 a2 [] m2 (some str) := getD_of_get? _ hc
            have hdOff : rp.pos - rp.posBefore rp.depth = rp.textOffset := rfl
            have hnb : rp.nodeBefore =
                some (Node.mk t2 a2 [] m2 (some (strSlice str 0 rp.textOffset))) := by
              rw [ResolvedPos.nodeBefore]
              simp only [hdOff]
              rw [if_pos (by omega)]
              rw [show rp.parent = rp.node rp.depth from rfl, hchild]
              rw [cut_text_left h2off]
            have hna : rp.nodeAfter =
                some (Node.mk t2 a2 [] m2
                  (some (strSlice str rp.textOffset str.length))) := by
              rw [ResolvedPos.nodeAfter]
              simp only [hdOff]
              rw [show rp.parent = rp.node rp.depth from rfl]
              rw [if_neg (by
                simp only [beq_iff_eq]
                omega)]
              rw [hchild]
              rw [if_pos (by omega)]
              rw [cutFrom_text_right h1off (by omega)]
            have hcond : (rp.depth == rp.depth && decide (rp.textOffset ≠ 0)) = true := by
              simp only [beq_self_eq_true, Bool.true_and, decide_eq_true_eq]
              omega
            rw [h1shape, hcond, if_pos rfl]
            rw [htk1, hnb]
            simp only [Option.getD_some]
            have hwmchild : Node.wfMarkup (Node.mk t2 a2 [] m2 (some str)) = true :=
              Node.wfNode_wfMarkup hchwf
            have hbefore : addNode (Node.mk t2 a2 [] m2 (some (strSlice str 0 rp.textOffset)))
                ((rp.node rp.depth).content.take (rp.index rp.depth)) =
                (rp.node rp.depth).content.take (rp.index rp.depth) ++
                  [Node.mk t2 a2 [] m2 (some (strSlice str 0 rp.textOffset))] := by
              apply addNode_no_merge
              intro last hlast
              cases hi : rp.index rp.depth with
              | zero =>
                  rw [hi] at hlast
                  simp at hlast
              | succ j0 =>
                  rw [hi] at hlast
                  have hj0 : j0 < (rp.node rp.depth).content.length := by omega
                  have hg0 : (rp.node rp.depth).content.get? j0 =
                      some ((rp.node rp.depth).content.getD j0 Node.dummy) :=
                    get?_eq_getD _ hj0
                  have htake : (rp.node rp.depth).content.take (j0 + 1) =
                      (rp.node rp.depth).content.take j0 ++
                        [(rp.node rp.depth).content.getD j0 Node.dummy] := by
                    have hg0' := hg0
                    rw [List.get?_eq_getElem?] at hg0'
                    rw [List.take_succ, hg0']
                    rfl
                  rw [htake, List.getLast?_concat] at hlast
                  cases hlast
                  have hc' : (rp.node rp.depth).content.get? (j0 + 1) =
                      some (Node.mk t2 a2 [] m2 (some str)) := by
                    rw [← hi]
                    exact hc
                  have hpair := textJoined_get htj hg0 hc'
                  rw [show Node.isText (Node.mk t2 a2 [] m2 (some str)) = true from ht2] at hpair
                  have hsmf : Node.sameMarkup
                      ((rp.node rp.depth).content.getD j0 Node.dummy)
                      (Node.mk t2 a2 [] m2 (some str)) = false := by
                    simpa using hpair
                  cases hq : (Node.isText (Node.mk t2 a2 [] m2
                      (some (strSlice str 0 rp.textOffset))) &&
                      Node.sameMarkup (Node.mk t2 a2 [] m2
                        (some (strSlice str 0 rp.textOffset)))
                        ((rp.node rp.depth).content.getD j0 Node.dummy)) with
                  | false => rfl
                  | true =>
                      exfalso
                      rw [Bool.and_eq_true] at hq
                      have hsm1 : Node.sameMarkup (Node.mk t2 a2 [] m2 (some str))
                          ((rp.node rp.depth).content.getD j0 Node.dummy) = true := by
                        rw [Node.sameMarkup_congr_left
                          (rfl : (Node.mk t2 a2 [] m2 (some (strSlice str 0 rp.textOffset))).type =
                            (Node.mk t2 a2 [] m2 (some str)).type) rfl rfl] at hq
                        exact hq.2
                      have hsm2 : Node.sameMarkup
                          ((rp.node rp.depth).content.getD j0 Node.dummy)
                          (Node.mk t2 a2 [] m2 (some str)) = true :=
                        Node.sameMarkup_symm hwmchild
                          (hwfm _ (getD_mem _ hj0)) hsm1
                      rw [hsm2] at hsmf
                      cases hsmf
            rw [hbefore]
            rw [h2shape, if_neg (lt_irrefl rp.depth),
              if_pos (show rp.textOffset ≠ 0 from by omega)]
            rw [hna]
            have htsucc : (rp.node rp.depth).content.take (rp.index rp.depth) ++
                [Node.mk t2 a2 [] m2 (some str)] =
                (rp.node rp.depth).content.take (rp.index rp.depth + 1) := by
              have hc'' := hc
              rw [List.get?_eq_getElem?] at hc''
              rw [List.take_succ, hc'']
              rfl
            have hfinal : addNodes (rp.node rp.depth) (rp.index rp.depth + 1)
                ((rp.node rp.depth).content.length)
                (addNode (Node.mk t2 a2 [] m2 (some (strSlice str rp.textOffset str.length)))
                  ((rp.node rp.depth).content.take (rp.index rp.depth) ++
                    [Node.mk t2 a2 [] m2 (some (strSlice str 0 rp.textOffset))])) =
                (rp.node rp.depth).content := by
              rw [addNode_rejoin _ ht2 h1off h2off hwmchild]
              rw [htsucc]
              exact htk2 _ (by omega)
            exact congrArg Except.ok hfinal


/-- `replaceOuter` with the empty slice and a doubled position rebuilds the
node at each depth unchanged. -/
theorem replaceOuter_self (rp : ResolvedPos)
    (hlinks : ∀ k, k < rp.depth →
      (rp.node k).content.get? (rp.index k) = some (rp.node (k + 1)))
    (hfacts : ∀ k, k ≤ rp.depth → Node.wfNode (rp.node k) = true ∧
      (rp.node k).text = none ∧ rp.index k ≤ (rp.node k).content.length)
    (hchkk : ∀ k, k ≤ rp.depth → exceptOk (Node.check (rp.node k)) = true)
    (hto : rp.textOffset = 0 ∨
      ∃ child str, (rp.node rp.depth).content.get? (rp.index rp.depth) = some child ∧
        child.text = some str ∧ 0 < rp.textOffset ∧ rp.textOffset < str.length) :
    ∀ (fuel depth : Nat), depth ≤ rp.depth → rp.depth - depth + 1 < fuel →
      replaceOuter fuel rp rp Slice.empty depth = .ok (rp.node depth) := by
  intro fuel
  induction fuel with
  | zero => intro depth _ h; omega
  | succ fuel ih =>
      intro depth hdep hfuel
      simp only [replaceOuter]
      by_cases hlt : depth < rp.depth
      · rw [if_pos (⟨trivial, by push_cast [Slice.empty]; omega⟩ :
          True ∧ (depth : Int) < (rp.depth : Int) - (Slice.empty.openStart : Int))]
        rw [ih (depth + 1) (by omega) (by omega)]
        simp only [Bind.bind, Except.bind, Pure.pure, Except.pure]
        have hrebuild : Node.copy (rp.node depth)
            (Fragment.replaceChild (rp.node depth).content (rp.index depth)
              (rp.node (depth + 1))) = rp.node depth := by
          have hset : (rp.node depth).content.set (rp.index depth) (rp.node (depth + 1)) =
              (rp.node depth).content := set_get?_self (hlinks depth hlt)
          rw [Fragment.replaceChild, hset]
          obtain ⟨_, htx, _⟩ := hfacts depth (by omega)
          cases hnd : rp.node depth with
          | mk t a c m tx =>
              rw [hnd] at htx
              cases tx with
              | none => rfl
              | some str => simp [Node.text] at htx
        rw [hrebuild]
      · have hdeq : depth = rp.depth := by omega
        subst hdeq
        rw [if_neg (by
          rintro ⟨_, h2⟩
          push_cast [Slice.empty] at h2
          omega)]
        rw [if_pos (show (Fragment.size Slice.empty.content == 0) = true from rfl)]
        rw [show fuel = fuel - 1 + 1 from by omega]
        obtain ⟨hwfn, htxn, hixn⟩ := hfacts rp.depth (le_refl _)
        rw [replaceTwoWay_self rp (fuel - 1) hwfn hixn hto]
        simp only [Bind.bind, Except.bind]
        rw [close]
        rw [if_pos (check_ok_validContent (hchkk rp.depth (le_refl _)))]
        cases hnd : rp.node rp.depth with
        | mk t a c m tx =>
            rw [hnd] at htxn
            cases tx with
            | none => rfl
            | some str => simp [Node.text] at htxn

/-- C4: on a well-formed, schema-checked document (a non-text root) and any
in-range position `p`, replacing the empty range `[p, p]` with the empty
slice returns the original tree, which is `Node.eq` to itself. -/
theorem C4_empty_replace_identity (t : Node) (p : Int)
    (hwf : Node.wfNode t = true) (htx : Node.text t = none)
    (hchk : exceptOk (Node.check t) = true)
    (h0 : 0 ≤ p) (hp : p ≤ (Fragment.size (Node.content t) : Int)) :
    Node.replace t p p Slice.empty = .ok t ∧ Node.eq t t = true := by
  obtain ⟨rp, hres, hpos, hnode0, hlinks, hfacts, hto⟩ :=
    ResolvedPos.resolve_spec t p hwf htx h0 hp
  have hchkk : ∀ k, k ≤ rp.depth → exceptOk (Node.check (rp.node k)) = true := by
    intro k
    induction k with
    | zero => intro _; rw [hnode0]; exact hchk
    | succ k ihk =>
        intro hk
        have hprev := ihk (by omega)
        have hlink := hlinks k (by omega)
        exact check_ok_child hprev (List.get?_mem hlink)
  refine ⟨?_, Node.eq_self_of_wf (sizeOf t) t (le_refl _) hwf⟩
  rw [Node.replace]
  rw [hres]
  simp only [Except.mapError, Bind.bind, Except.bind]
  rw [PM.replace]
  rw [if_neg (show ¬(Slice.empty.openStart > rp.depth) from by
    simp [Slice.empty])]
  rw [if_neg (show ¬((rp.depth : Int) - (Slice.empty.openStart : Int) ≠
      (rp.depth : Int) - (Slice.empty.openEnd : Int)) from fun h => h rfl)]
  rw [replaceOuter_self rp hlinks hfacts hchkk hto _ 0 (by omega) (by
    rw [replaceFuel]
    omega)]
  rw [hnode0]


/-- C4 witness: a no-op insert at position 1 of the example document (start
of the first paragraph's text). -/
theorem C4_empty_replace_identity_witness :
    Node.replace exDoc 1 1 Slice.empty = .ok exDoc ∧ Node.eq exDoc exDoc = true :=
  C4_empty_replace_identity exDoc 1 (by decide) rfl (by decide) (by decide) (by decide)


/-! ## C6: JSON round-trip -/

/-- Tail of strict sortedness. -/
theorem marksStrictSorted_tail : ∀ {x : Mark} {xs : List Mark},
    marksStrictSorted (x :: xs) = true → marksStrictSorted xs = true := by
  intro x xs h
  cases xs with
  | nil => rfl
  | cons y ys =>
      have h' : (decide (x.type.rank < y.type.rank) &&
          marksStrictSorted (y :: ys)) = true := h
      rw [Bool.and_eq_true] at h'
      exact h'.2

/-- A strictly rank-sorted array is a fixed point of the rank sort. -/
theorem sortByRank_id : ∀ {l : List Mark}, marksStrictSorted l = true →
    sortByRank l = l := by
  intro l
  induction l with
  | nil => intro _; rfl
  | cons x xs ih =>
      intro h
      rw [sortByRank, ih (marksStrictSorted_tail h)]
      cases xs with
      | nil => rfl
      | cons y ys =>
          have h' : (decide (x.type.rank < y.type.rank) &&
              marksStrictSorted (y :: ys)) = true := h
          rw [Bool.and_eq_true, decide_eq_true_eq] at h'
          rw [insertByRank, if_neg (by omega)]

/-- A well-formed node has positive size. -/
theorem Node.nodeSize_pos {n : Node} (h : Node.wfNode n = true) :
    0 < Node.nodeSize n := by
  cases n with
  | mk t a c m tx =>
      cases tx with
      | some s =>
          obtain ⟨_, _, hne⟩ := Node.wfNode_text h
          show 0 < s.length
          have hs : ¬(s = "") := by
            intro he
            rw [he] at hne
            cases hne
          have : s.data ≠ [] := by
            intro hd
            exact hs (by cases s; simp at hd; rw [hd])
          show 0 < s.data.length
          exact List.length_pos.mpr this
      | none =>
          show 0 < if t.isLeaf = true then 1 else 2 + Fragment.size c
          by_cases hl : t.isLeaf = true
          · rw [if_pos hl]
            omega
          · rw [if_neg hl]
            omega

/-- A well-formed nonempty child list has positive size. -/
theorem Fragment.size_pos {x : Node} {xs : List Node}
    (h : Node.wfNode x = true) : 0 < Fragment.size (x :: xs) := by
  have := Node.nodeSize_pos h
  rw [Fragment.size]
  omega

/-- `computeAttrs` reproduces an aligned suffix of the attribute object. -/
theorem computeAttrs_suffix : ∀ (table : List (String × Attribute)) (a s : Attrs),
    table.map Prod.fst = s.map Prod.fst →
    (∀ kv ∈ s, lookupField kv.fst a = some kv.snd) →
    computeAttrs table (some a) = .ok s := by
  intro table
  induction table with
  | nil =>
      intro a s hkeys _
      cases s with
      | nil => rfl
      | cons kv s2 => cases hkeys
  | cons hd rest ih =>
      intro a s hkeys hlook
      obtain ⟨k, attr⟩ := hd
      cases s with
      | nil => cases hkeys
      | cons kv s2 =>
          obtain ⟨k2, v⟩ := kv
          simp only [List.map_cons, List.cons.injEq] at hkeys
          obtain ⟨hk, hkeys2⟩ := hkeys
          subst hk
          have hl : lookupField k a = some v := hlook (k, v) (List.mem_cons_self _ _)
          rw [computeAttrs]
          rw [show (some a).bind (fun x => lookupField k x) = lookupField k a from rfl]
          rw [hl]
          simp only [Bind.bind, Except.bind, Pure.pure, Except.pure]
          rw [ih a s2 hkeys2 (fun kv2 h2 => hlook kv2 (List.mem_cons_of_mem _ h2))]

/-- `computeAttrs` is the identity on an attribute object with exactly the
table's names in table order. -/
theorem computeAttrs_aligned (table : List (String × Attribute)) (a : Attrs)
    (hkeys : a.map Prod.fst = table.map Prod.fst) (hu : keysUnique a = true) :
    computeAttrs table (some a) = .ok a :=
  computeAttrs_suffix table a a hkeys.symm
    (fun kv h2 => by
      obtain ⟨k, v⟩ := kv
      exact lookupField_of_mem hu h2)

/-- `checkAttrs` accepts an attribute object whose names are the table's. -/
theorem checkAttrs_aligned (table : List (String × Attribute)) (a : Attrs)
    (hkeys : a.map Prod.fst = table.map Prod.fst) :
    checkAttrs table a = .ok () := by
  rw [checkAttrs, if_pos]
  rw [List.all_eq_true]
  intro kv hkv
  rw [List.any_eq_true]
  have hmem : kv.fst ∈ table.map Prod.fst := by
    rw [← hkeys]
    exact List.mem_map_of_mem _ hkv
  obtain ⟨e, he, hfst⟩ := List.mem_map.mp hmem
  exact ⟨e, he, by simp [hfst]⟩

/-- `Mark.fromJSON` inverts `Mark.toJSON` on canonical marks. -/
theorem Mark.fromJSON_of_toJSON (S : Schema) (m : Mark) (hc : Mark.canonical S m) :
    Mark.fromJSON S (Mark.toJSON m) = .ok m := by
  obtain ⟨hty, hkeys, hu⟩ := hc
  rw [Mark.toJSON, Mark.fromJSON]
  simp only []
  rw [hty]
  by_cases he : m.attrs.isEmpty = true
  · have hnil : m.attrs = [] := by
      cases hattrs : m.attrs with
      | nil => rfl
      | cons kv rest => rw [hattrs] at he; cases he
    rw [if_pos he]
    show (do
      let mark ← MarkType.create m.type none
      let _ ← checkAttrs m.type.attrs mark.attrs
      pure mark) = Except.ok m
    have htable : m.type.attrs = [] := by
      rw [hnil] at hkeys
      cases htb : m.type.attrs with
      | nil => rfl
      | cons kv rest => rw [htb] at hkeys; cases hkeys
    rw [MarkType.create.eq_def]
    rw [htable]
    simp only [defaultAttrsOf, List.all_nil, if_true, List.map_nil]
    simp only [Bind.bind, Except.bind]
    rw [show checkAttrs [] [] = Except.ok () from rfl]
    cases m with
    | mk mt ma =>
        have hma : ma = [] := hnil
        subst hma
        rfl
  · rw [if_neg he]
    show (do
      let mark ← MarkType.create m.type (some m.attrs)
      let _ ← checkAttrs m.type.attrs mark.attrs
      pure mark) = Except.ok m
    rw [MarkType.create.eq_def]
    rw [show computeAttrs m.type.attrs (some m.attrs) = .ok m.attrs from
      computeAttrs_aligned _ _ hkeys hu]
    simp only [Bind.bind, Except.bind, Pure.pure, Except.pure]
    rw [show checkAttrs m.type.attrs (Mark.attrs ⟨m.type, m.attrs⟩) = Except.ok () from
      checkAttrs_aligned _ _ hkeys]

/-- `marksFromJSON` inverts the serialisation of a canonical mark array. -/
theorem marksFromJSON_toJSON (S : Schema) : ∀ (m : List Mark),
    (∀ mk ∈ m, Mark.canonical S mk) →
    marksFromJSON S (m.map Mark.toJSON) = .ok m := by
  intro m
  induction m with
  | nil => intro _; rfl
  | cons mk mks ih =>
      intro hc
      rw [List.map_cons, marksFromJSON]
      rw [Mark.fromJSON_of_toJSON S mk (hc mk (List.mem_cons_self _ _))]
      simp only [Bind.bind, Except.bind]
      rw [ih (fun x hx => hc x (List.mem_cons_of_mem _ hx))]
      rfl


/-- Unfolding of `Node.fromJSON` on a shape with a marks array. -/
theorem Node.fromJSON_mk_some (S : Schema) (ty : String) (attrs : Option Attrs)
    (content : Option (List NodeJSON)) (js : List MarkJSON) (text : Option String) :
    Node.fromJSON S (.mk ty attrs content (some js) text) =
      Except.bind (Except.map some (marksFromJSON S js)) (fun ms =>
        if ty == "text" then
          match text with
          | some s => Schema.text S s ms
          | none => .error (.rangeError "Invalid text node in JSON")
        else
          Except.bind (match content with
            | none => Except.ok []
            | some arr => Fragment.fromJSONList S arr) (fun c =>
            match S.nodeType? ty with
            | none => .error (.rangeError ("Unknown node type: " ++ ty))
            | some t =>
                Except.bind (NodeType.create t attrs (.frag c) ms) (fun node =>
                  Except.bind (checkAttrs node.type.attrs node.attrs) (fun _ =>
                    Except.ok node)))) := by
  cases content <;> cases text <;> rfl

/-- Unfolding of `Node.fromJSON` on a shape without a marks array. -/
theorem Node.fromJSON_mk_none (S : Schema) (ty : String) (attrs : Option Attrs)
    (content : Option (List NodeJSON)) (text : Option String) :
    Node.fromJSON S (.mk ty attrs content none text) =
      (if ty == "text" then
        match text with
        | some s => Schema.text S s none
        | none => .error (.rangeError "Invalid text node in JSON")
      else
        Except.bind (match content with
          | none => Except.ok []
          | some arr => Fragment.fromJSONList S arr) (fun c =>
          match S.nodeType? ty with
          | none => .error (.rangeError ("Unknown node type: " ++ ty))
          | some t =>
              Except.bind (NodeType.create t attrs (.frag c) none) (fun node =>
                Except.bind (checkAttrs node.type.attrs node.attrs) (fun _ =>
                  Except.ok node)))) := by
  cases content <;> cases text <;> rfl

/-- `Node.fromJSON` inverts `Node.toJSON` on well-formed canonical trees. -/
theorem Node.fromJSON_toJSON : ∀ (k : Nat) (S : Schema) (d : Node), sizeOf d ≤ k →
    Node.wfNode d = true → Node.canonical S d →
    Node.fromJSON S (Node.toJSON d) = .ok d := by
  intro k
  induction k using Nat.strong_induction_on with
  | _ k ih =>
      intro S d hsz hwf hcan
      cases d with
      | mk t a c m tx =>
          have hty : S.nodeType? t.name = some t := hcan.1
          have hmarks : ∀ mk ∈ m, Mark.canonical S mk := hcan.2.1
          have hsorted : marksStrictSorted m = true := hcan.2.2.1
          have hattrsm := hcan.2.2.2.1
          have hclist : Fragment.canonicalList S c := hcan.2.2.2.2
          have hwflist : Fragment.wfList c = true := by
            have h := hwf
            simp only [Node.wfNode, Bool.and_eq_true] at h
            exact h.2
          have hlist : ∀ (cl : List Node), Fragment.wfList cl = true →
              Fragment.canonicalList S cl →
              (∀ x ∈ cl, sizeOf x < sizeOf (Node.mk t a c m tx)) →
              Fragment.fromJSONList S (Fragment.toJSONList cl) = .ok cl := by
            intro cl
            induction cl with
            | nil => intro _ _ _; rfl
            | cons x xs ihl =>
                intro hwl hcl hsz2
                have hwl2 : (Node.wfNode x && Fragment.wfList xs) = true := hwl
                rw [Bool.and_eq_true] at hwl2
                have hcl2 : Node.canonical S x ∧ Fragment.canonicalList S xs := hcl
                rw [Fragment.toJSONList, Fragment.fromJSONList]
                rw [ih (sizeOf x)
                  (by have := hsz2 x (List.mem_cons_self _ _); omega)
                  S x (le_refl _) hwl2.1 hcl2.1]
                simp only [Bind.bind, Except.bind]
                rw [ihl hwl2.2 hcl2.2 (fun y hy => hsz2 y (List.mem_cons_of_mem _ hy))]
                rfl
          have hszmem : ∀ x ∈ c, sizeOf x < sizeOf (Node.mk t a c m tx) := by
            intro x hx
            have h1 := List.sizeOf_lt_of_mem hx
            simp only [Node.mk.sizeOf_spec]
            omega
          rw [Node.toJSON]
          have htail : ∀ (ms : Option (List Mark)), Mark.setFrom ms = m →
              (if t.name == "text" then
                match tx with
                | some s => Schema.text S s ms
                | none => .error (.rangeError "Invalid text node in JSON")
              else
                Except.bind (match (if Fragment.size c == 0 then none
                    else some (Fragment.toJSONList c)) with
                  | none => Except.ok []
                  | some arr => Fragment.fromJSONList S arr) (fun c2 =>
                  match S.nodeType? t.name with
                  | none => .error (.rangeError ("Unknown node type: " ++ t.name))
                  | some t2 =>
                      Except.bind (NodeType.create t2
                          (if a.isEmpty then none else some a)
                          (.frag c2) ms) (fun node =>
                        Except.bind (checkAttrs node.type.attrs node.attrs) (fun _ =>
                          Except.ok node)))) = Except.ok (Node.mk t a c m tx) := by
            intro ms hsf
            cases tx with
            | some s =>
                obtain ⟨htt, hcnil, hsne⟩ := Node.wfNode_text hwf
                subst hcnil
                have hnm : t.name = "text" := by
                  simpa [NodeType.isText] using htt
                have hbeq : (t.name == "text") = true := htt
                rw [hbeq, if_pos rfl]
                show Schema.text S s ms = Except.ok (Node.mk t a [] m (some s))
                show (match S.nodeType? "text" with
                  | none => Except.error (PMErr.otherError "no text type in schema")
                  | some type =>
                      if s.isEmpty then
                        Except.error (PMErr.rangeError "Empty text nodes are not allowed")
                      else Except.ok (Node.mk type (type.defaultAttrs.getD []) []
                        (Mark.setFrom ms) (some s))) =
                  Except.ok (Node.mk t a [] m (some s))
                rw [show S.nodeType? "text" = some t from hnm ▸ hty]
                show (if s.isEmpty then
                    Except.error (PMErr.rangeError "Empty text nodes are not allowed")
                  else Except.ok (Node.mk t (t.defaultAttrs.getD []) []
                    (Mark.setFrom ms) (some s))) =
                  Except.ok (Node.mk t a [] m (some s))
                rw [hsne]
                simp only [Bool.false_eq_true, if_false]
                have hadef : a = (NodeType.defaultAttrs t).getD [] := hattrsm
                rw [hsf, ← hadef]
            | none =>
                have htf : t.isText = false := Node.wfNode_nontext hwf
                have hbeq : (t.name == "text") = false := htf
                rw [hbeq]
                simp only [Bool.false_eq_true, if_false]
                have hattrs2 : a.map Prod.fst = t.attrs.map Prod.fst ∧
                    keysUnique a = true := hattrsm
                have hcstep : (match (if Fragment.size c == 0 then none
                    else some (Fragment.toJSONList c)) with
                    | none => Except.ok ([] : List Node)
                    | some arr => Fragment.fromJSONList S arr) = Except.ok c := by
                  cases c with
                  | nil => rfl
                  | cons x xs =>
                      have hwx : Node.wfNode x = true := by
                        have h2 : (Node.wfNode x && Fragment.wfList xs) = true := hwflist
                        rw [Bool.and_eq_true] at h2
                        exact h2.1
                      have hpos := @Fragment.size_pos x xs hwx
                      have hb : (Fragment.size (x :: xs) == 0) = false := by
                        simp only [beq_eq_false_iff_ne]
                        omega
                      rw [hb]
                      simp only [Bool.false_eq_true, if_false]
                      show Fragment.fromJSONList S (Fragment.toJSONList (x :: xs)) =
                        Except.ok (x :: xs)
                      exact hlist (x :: xs) hwflist hclist hszmem
                rw [hcstep]
                simp only [Except.bind]
                rw [hty]
                show Except.bind (NodeType.create t (if a.isEmpty then none else some a)
                    (.frag c) ms) (fun node =>
                  Except.bind (checkAttrs node.type.attrs node.attrs) (fun _ =>
                    Except.ok node)) = Except.ok (Node.mk t a c m none)
                have hcaf : NodeType.computeAttrsFn t
                    (if a.isEmpty then none else some a) = .ok a := by
                  by_cases hae : a.isEmpty = true
                  · have hanil : a = [] := by
                      cases a with
                      | nil => rfl
                      | cons kv rest => cases hae
                    have htbl : t.attrs = [] := by
                      rw [hanil] at hattrs2
                      cases htb : t.attrs with
                      | nil => rfl
                      | cons kv rest =>
                          rw [htb] at hattrs2
                          cases hattrs2.1
                    subst hanil
                    rw [if_pos hae, NodeType.computeAttrsFn.eq_def]
                    rw [show t.defaultAttrs = some [] from by
                      rw [NodeType.defaultAttrs, htbl]
                      rfl]
                  · rw [if_neg hae, NodeType.computeAttrsFn.eq_def]
                    rw [computeAttrs_aligned t.attrs a hattrs2.1 hattrs2.2]
                have hcreate : NodeType.create t (if a.isEmpty then none else some a)
                    (.frag c) ms = .ok (Node.mk t a c m none) := by
                  rw [NodeType.create]
                  rw [htf]
                  simp only [Bool.false_eq_true, if_false]
                  rw [hcaf]
                  simp only [Bind.bind, Except.bind, Pure.pure, Except.pure]
                  rw [show Fragment.from (.frag c) = c from rfl, hsf]
                rw [hcreate]
                simp only [Except.bind]
                rw [show checkAttrs (Node.mk t a c m none).type.attrs
                    (Node.mk t a c m none).attrs = Except.ok () from
                  checkAttrs_aligned _ _ hattrs2.1]
          by_cases hme : m.isEmpty = true
          · have hmnil : m = [] := by
              cases m with
              | nil => rfl
              | cons x xs => cases hme
            rw [if_pos hme, Node.fromJSON_mk_none]
            exact htail none (by rw [hmnil]; rfl)
          · rw [if_neg hme, Node.fromJSON_mk_some]
            rw [marksFromJSON_toJSON S m hmarks]
            simp only [Except.map, Except.bind]
            exact htail (some m) (by
              cases m with
              | nil => exact absurd rfl hme
              | cons x xs =>
                  show sortByRank (x :: xs) = x :: xs
                  exact sortByRank_id hsorted)

/-- C6 (with the construction invariants made explicit): serialising a
well-formed canonical document and deserialising it against the same schema
returns the document, equal to itself under `Node.eq`. -/
theorem C6_json_roundtrip (S : Schema) (d : Node)
    (hwf : Node.wfNode d = true) (hcan : Node.canonical S d) :
    Node.fromJSON S (Node.toJSON d) = .ok d ∧ Node.eq d d = true :=
  ⟨Node.fromJSON_toJSON (sizeOf d) S d (le_refl _) hwf hcan,
   Node.eq_self_of_wf (sizeOf d) d (le_refl _) hwf⟩


theorem C6_json_roundtrip_witness :
    Node.fromJSON exSchema (Node.toJSON exDoc) = .ok exDoc ∧
      Node.eq exDoc exDoc = true :=
  C6_json_roundtrip exSchema exDoc (by decide) (by
    refine ⟨rfl, ?_, rfl, ⟨rfl, rfl⟩,
      ⟨rfl, ?_, rfl, ⟨rfl, rfl⟩, ⟨rfl, ?_, rfl, rfl, trivial⟩, trivial⟩,
      ⟨rfl, ?_, rfl, ⟨rfl, rfl⟩, ⟨rfl, ?_, rfl, rfl, trivial⟩, trivial⟩, trivial⟩ <;>
    exact fun mk h => absurd h (List.not_mem_nil mk))

end PM
